import Mathlib

/-!
# Verification of the GnuCashTools reporting engine

Shallow embedding of the account-tree aggregation engine of
`GnuCashReporter` (files `transaction_manager.py` and
`commodity_manager.py`), together with proofs of the specified
properties.

Python dictionaries are embedded as insertion-ordered association
lists (`alookup` / `aset` / `adel` below), `Decimal` values as `ℚ`,
account full names as lists of path segments (the source joins the
segments with a colon; `hierarchyDepth` below corresponds to
`key.count(':')`), and exceptions as `Except` values.

The file is organised with all definitions (the embedding) first, and
all theorems after them.
-/

set_option linter.unusedSectionVars false

namespace GnuCash

/-! ## Association lists modelling Python dicts -/

section AListDefs

variable {α β : Type} [DecidableEq α]

/-- Lookup in an insertion-ordered association list (`d[k]` / `d.get(k)`). -/
def alookup : List (α × β) → α → Option β
  | [], _ => none
  | (k, v) :: rest, a => if k = a then some v else alookup rest a

/-- Assignment `d[k] = v`: replace in place if the key is present,
append at the end otherwise (Python dicts preserve insertion order). -/
def aset : List (α × β) → α → β → List (α × β)
  | [], a, b => [(a, b)]
  | (k, v) :: rest, a, b => if k = a then (k, b) :: rest else (k, v) :: aset rest a b

/-- Deletion `del d[k]` (the key is always present at the call sites). -/
def adel : List (α × β) → α → List (α × β)
  | [], _ => []
  | (k, v) :: rest, a => if k = a then rest else (k, v) :: adel rest a

/-- The keys of an association list, in order. -/
def akeys (l : List (α × β)) : List α := l.map Prod.fst

end AListDefs

/-! ## `TransactionDate` (transaction_manager.py lines 8–53)

A (year, month) pair.  The source stores Python ints; we use `Int` so
that the arithmetic (`month - 1` etc.) matches exactly. -/

structure TDate where
  year : Int
  month : Int
deriving DecidableEq, Repr

/-- `TransactionDate.get_next` (lines 35–42). -/
def TDate.get_next (d : TDate) : TDate :=
  let n : TDate := ⟨d.year, d.month + 1⟩
  if n.month = 13 then ⟨d.year + 1, 1⟩ else n

/-- `TransactionDate.get_previous` (lines 26–33). -/
def TDate.get_previous (d : TDate) : TDate :=
  let p : TDate := ⟨d.year, d.month - 1⟩
  if p.month = 0 then ⟨d.year - 1, 12⟩ else p

/-- `TransactionDate.in_future` (lines 44–50).  The source reads
`datetime.date.today()`; following the spec's explicit-reference-date
strategy we pass `today` as a parameter. -/
def TDate.in_future (d today : TDate) : Bool :=
  if d.year > today.year then true
  else if d.year = today.year && d.month > today.month then true
  else false

/-- A calendar month is valid when its month number lies in `1..12`
(always true for dates produced by `get_next` from a real date). -/
def TDate.valid (d : TDate) : Bool := 1 ≤ d.month && d.month ≤ 12

/-- Linear month index used for termination of month iteration. -/
def TDate.idx (d : TDate) : Int := 12 * d.year + d.month

/-- The month loop with explicit fuel (structural recursion, so that
concrete runs reduce in the kernel).  The `fuel = 0` arm is never
reached through `monthRange` below. -/
def monthRangeF : Nat → TDate → TDate → List TDate
  | 0, _, _ => []
  | fuel + 1, cur, today =>
    if cur.in_future today || !cur.valid then []
    else cur :: monthRangeF fuel cur.get_next today

/-- The list of months visited by the ingestion / report loops:
`while not current_date.in_future(): ... current_date = current_date.get_next()`.
The validity guard (redundant for months reachable from a real calendar
date, the only inputs on which the source loop terminates) bounds the
number of iterations, which the fuel makes explicit. -/
def monthRange (cur today : TDate) : List TDate :=
  monthRangeF (12 * (today.year + 2) - cur.idx).toNat cur today

/-! ## Accounts and the account tree

`Account` (transaction_manager.py lines 56–71): a node keyed by the
account's full name, with a parent reference and per-month sums.  In
the source the parent is an object reference and the nodes live in the
manager's `accounts` dict keyed by full name; since full names are
unique we store the parent as a key into the same dict (the spec's
arena strategy).  Full names are lists of path segments (joined with
`:` in the source).

The node is generic in the value type `V` carried per month: plain
`Decimal` (here `ℚ`) for `TransactionManager`, a commodity→quantity
dict for `CommodityManager` (`CommodityAccount`).  The two
`update_tree` methods (transaction_manager.py 131–168,
commodity_manager.py 18–58) are line-for-line identical except for the
per-month value update, which is passed in as `zero` / `bump` below. -/

abbrev Path := List String

/-- Number of `:` separators in the joined full name (`key.count(':')`). -/
def hierarchyDepth (p : Path) : Nat := p.length - 1

structure ANode (V : Type) where
  parent : Option Path
  monthly_sums : List (TDate × V)
deriving DecidableEq, Repr

/-- The manager's `accounts` dict: full name → node. -/
abbrev AState (V : Type) := List (Path × ANode V)

/-- Errors; each constructor names the Python exception it models
(§7 of the spec gives the corresponding abstract error kinds). -/
inductive RErr where
  /-- `assert len(roots) == 1` in `get_tree_root` (AssertionError);
  the spec's `AmbiguousRootError`. -/
  | ambiguousRoot
  /-- `account_stack.pop()` on an empty stack in `update_tree`
  (IndexError): the split's account is not managed. -/
  | unmanagedAccount
  /-- `self.accounts[column]` KeyError in `get_report_data`;
  the spec's `MissingAccountColumnError`. -/
  | missingAccountColumn (column : Path)
  /-- `headers.remove(other_label)` ValueError. -/
  | missingHeader (label : String)
  /-- `monthly_data[...][...]` KeyError on a label (never reached). -/
  | keyMissing
  /-- `assert latest_price is not None` in `to_base_currency`
  (AssertionError); the spec's `MissingPriceError`. -/
  | missingPrice
deriving DecidableEq, Repr

instance {ε α : Type} [DecidableEq ε] [DecidableEq α] : DecidableEq (Except ε α) :=
  fun x y =>
  match x, y with
  | .ok a, .ok b =>
    if h : a = b then isTrue (by rw [h])
    else isFalse (by intro hh; injection hh; exact h ‹_›)
  | .error a, .error b =>
    if h : a = b then isTrue (by rw [h])
    else isFalse (by intro hh; injection hh; exact h ‹_›)
  | .ok _, .error _ => isFalse (by intro hh; exact Except.noConfusion hh)
  | .error _, .ok _ => isFalse (by intro hh; exact Except.noConfusion hh)

/-- `is_managed_account` (transaction_manager.py lines 121–129).
`acctType` is the external ledger's account-type table.  The source's
`startswith` is on the colon-joined strings; on segment lists it is
`List.isPrefixOf`. -/
def is_managed_account (acctType : Path → String) (transaction_type : Option String)
    (managed_root : Path) (p : Path) : Bool :=
  match transaction_type with
  | some t => acctType p == t
  | none => managed_root.isPrefixOf p

section TreeDefs

variable {V : Type}

/-- The walk of `update_tree` lines 143–152 with explicit fuel (the
walk visits at most `p.length` ancestors; the `fuel = 0` arm is never
reached through `collectStack` below). -/
def collectStackF (managed : Path → Bool) : Nat → Path → AState V →
    List Path × AState V
  | 0, _, st => ([], st)
  | fuel + 1, p, st =>
    if p = [] || !managed p then ([], st)
    else
      let st' := if (alookup st p).isSome then st else aset st p ⟨none, []⟩
      let r := collectStackF managed fuel p.dropLast st'
      (p :: r.1, r.2)

/-- The walk of `update_tree` lines 143–152: starting from the split's
account, push each still-managed ancestor onto the stack, creating any
node not yet present (`Account(account.fullname)`, parent `None`, empty
sums).  Returns the stack in push order (leaf first) and the updated
dict.  The `p = []` guard corresponds to reaching the ledger's root
account, on which the membership predicate is false for every
configuration the source constructs. -/
def collectStack (managed : Path → Bool) (p : Path) (st : AState V) :
    List Path × AState V :=
  collectStackF managed (p.length + 1) p st

/-- The unwind of `update_tree` lines 154–159: pop the stack, assigning
each node's parent to the node above it.  The source pops from the far
end (top of the stack) and walks down; since the stacked keys are
pairwise distinct (strictly decreasing lengths) the per-key assignments
commute, and we perform them bottom-up. -/
def linkParents : AState V → List Path → AState V
  | st, c :: p :: rest =>
    let st' := match alookup st c with
      | none => st  -- unreachable: collectStack stored a node for every stacked path
      | some n => aset st c ⟨some p, n.monthly_sums⟩
    linkParents st' (p :: rest)
  | st, _ => st

/-- `update_tree` lines 140–159: the tree-construction part
(the spec's `ensurePath`). -/
def ensurePath (managed : Path → Bool) (st : AState V) (p : Path) :
    Except RErr (AState V) :=
  if (alookup st p).isSome then .ok st
  else
    let r := collectStack managed p st
    if r.1 = [] then .error .unmanagedAccount
    else .ok (linkParents r.2 r.1)

/-- One step of the accumulation loop, lines 165–167: create the month
entry if absent (`= 0` resp. `= {}`), then add the split's contribution
(`+= value` resp. the commodity update). -/
def addMonth (zero : V) (bump : V → V) (m : TDate) (n : ANode V) : ANode V :=
  ⟨n.parent, aset n.monthly_sums m (bump ((alookup n.monthly_sums m).getD zero))⟩

/-- The accumulation loop of `update_tree` lines 163–168: walk the
parent chain from the split's account, updating each node's sums.  In
the source the walk follows object references and always terminates
because parent paths are strictly shorter; the fuel argument (always
called with `p.length + 1`) makes that explicit. -/
def addChain (zero : V) (bump : V → V) (m : TDate) :
    Nat → AState V → Path → AState V
  | 0, st, _ => st
  | fuel + 1, st, p =>
    match alookup st p with
    | none => st  -- unreachable: parents are object references in the source
    | some n =>
      let st' := aset st p (addMonth zero bump m n)
      match n.parent with
      | none => st'
      | some q => addChain zero bump m fuel st' q

/-- `update_tree` (transaction_manager.py 131–168 with
`zero = 0, bump = (· + split.value)`; commodity_manager.py 18–58 with
the commodity-dict update).  `p` is `split.account.fullname`. -/
def update_tree (managed : Path → Bool) (zero : V) (bump : V → V)
    (st : AState V) (p : Path) (m : TDate) : Except RErr (AState V) := do
  let st' ← ensurePath managed st p
  match alookup st' p with
  | none => .error .unmanagedAccount  -- KeyError at `self.accounts[split.account.fullname]`
  | some _ => .ok (addChain zero bump m (p.length + 1) st' p)

end TreeDefs

/-- The per-month value update of `TransactionManager.update_tree`
(line 167): `monthly_sums[month] += split.value`. -/
def bumpValue (value : ℚ) : ℚ → ℚ := fun v => v + value

/-- A commodity → quantity dict (`CommodityAccount.monthly_sums`
values).  Commodities are identified by name. -/
abbrev CDict := List (String × ℚ)

/-- The per-month value update of `CommodityManager.update_tree`
(lines 55–57): `monthly_sums[month][commodity] += split.quantity`,
creating the zero entry first if absent. -/
def bumpQuantity (commodity : String) (quantity : ℚ) (d : CDict) : CDict :=
  aset d commodity ((alookup d commodity).getD 0 + quantity)

/-- `get_tree_root` (transaction_manager.py lines 183–199): find the
minimum hierarchy depth over all tracked full names (starting from the
arbitrary high level 10000), collect the keys attaining it, and assert
that exactly one does.  The source sorts the keys first; sorting does
not change the minimum nor the collected set, and the result is only
returned when that set is a singleton. -/
def get_tree_root {V : Type} (st : AState V) : Except RErr Path :=
  let highest_level :=
    (akeys st).foldl (fun h k => if hierarchyDepth k < h then hierarchyDepth k else h) 10000
  let roots := (akeys st).filter (fun k => hierarchyDepth k = highest_level)
  match roots with
  | [r] => .ok r
  | _ => .error .ambiguousRoot

/-! ## The managed ancestor chain and the tree invariant -/

/-- Fuel version of `chainOf` (the chain has at most `p.length`
members). -/
def chainOfF (managed : Path → Bool) : Nat → Path → List Path
  | 0, _ => []
  | fuel + 1, p =>
    if p = [] || !managed p then [] else p :: chainOfF managed fuel p.dropLast

/-- The maximal run of managed ancestors of `p` (including `p`), leaf
first: exactly the nodes the walk of `update_tree` visits from a split
on `p`. -/
def chainOf (managed : Path → Bool) (p : Path) : List Path :=
  chainOfF managed (p.length + 1) p

/-- The parent link a node for `p` carries once it is in the tree:
its immediate ancestor when that ancestor is itself a managed,
non-root path, and `None` otherwise. -/
def chainParent (managed : Path → Bool) (p : Path) : Option Path :=
  if p.dropLast ≠ [] && managed p.dropLast then some p.dropLast else none

/-- The stored parent link of the node at `p`, if any. -/
def parentIn {V : Type} (st : AState V) (p : Path) : Option Path :=
  match alookup st p with
  | none => none
  | some n => n.parent

/-- Invariant of every reachable `accounts` dict: every tracked path is
a non-root managed path, its stored parent link is `chainParent`, and
when that link is set the parent's node is also tracked.  (Stated over
the key list so that it is decidable on concrete states.) -/
def TreeInv {V : Type} (managed : Path → Bool) (st : AState V) : Prop :=
  ∀ p ∈ akeys st,
    p ≠ [] ∧ managed p = true ∧
    parentIn st p = chainParent managed p ∧
    (chainParent managed p ≠ none → p.dropLast ∈ akeys st)

instance {V : Type} (managed : Path → Bool) (st : AState V) :
    Decidable (TreeInv managed st) := by
  unfold TreeInv
  infer_instance

/-- The per-month measured value stored at a node (`0` for a missing
node or month): the plain sum with `μ = id`, a single commodity's
quantity with `μ = (alookup · c).getD 0`. -/
def msum {V : Type} (μ : V → ℚ) (zero : V) (st : AState V) (q : Path) (m : TDate) : ℚ :=
  match alookup st q with
  | none => 0
  | some n => μ ((alookup n.monthly_sums m).getD zero)

/-- The ingestion pass of `TransactionManager.__init__` (lines 100–119)
restricted to its effect on the tree: each managed split `(account
fullname, month, value)` is fed to `update_tree` in order.  (The
month-by-month transaction fetch and `find_managed_splits` only
determine which splits arrive here; the claim quantifies over all
sequences of managed splits.) -/
def ingestValues (managed : Path → Bool) (splits : List (Path × TDate × ℚ)) :
    Except RErr (AState ℚ) :=
  splits.foldlM (fun st s => update_tree managed 0 (bumpValue s.2.2) st s.1 s.2.1) []

/-- The same ingestion for `CommodityManager`: splits carry
`(account fullname, month, commodity, quantity)`. -/
def ingestQuantities (managed : Path → Bool)
    (splits : List (Path × TDate × String × ℚ)) : Except RErr (AState CDict) :=
  splits.foldlM
    (fun st s => update_tree managed [] (bumpQuantity s.2.2.1 s.2.2.2) st s.1 s.2.1) []

/-! ## Report extraction (`get_report_data`, transaction_manager.py 202–258) -/

/-- A report row: display label → value (`monthly_data[month]`). -/
abbrev Row := List (String × ℚ)

/-- `monthly_data`: month → row. -/
abbrev MData := List (TDate × Row)

/-- `column.split(':')[-1]`: the last path segment. -/
def lastSeg (c : Path) : String := c.getLastD ""

/-- The display name of a group (lines 229–233): the last segments of
its columns joined with `/`. -/
def group_label (g : List Path) : String :=
  g.foldl (fun acc c => (if acc ≠ "" then acc ++ "/" else acc) ++ lastSeg c) ""

/-- Line 213: `f'Total {label}' if separate_columns else label`
(an absent/`None` group-spec list is the empty list here). -/
def total_label (account_label : String) (specs : List (List Path)) : String :=
  if specs ≠ [] then "Total " ++ account_label else account_label

/-- Line 244: `f'Other {label}'`. -/
def other_label (account_label : String) : String := "Other " ++ account_label

/-- Lines 229–235: fold over one group's columns, building the display
name and the group sum; `self.accounts[column]` raises when the column
was never observed (the spec's `MissingAccountColumnError`). -/
def groupValue (st : AState ℚ) (cur : TDate) (g : List Path) :
    Except RErr (String × ℚ) :=
  g.foldlM (fun acc c =>
    match alookup st c with
    | none => .error (.missingAccountColumn c)
    | some n => .ok ((if acc.1 ≠ "" then acc.1 ++ "/" else acc.1) ++ lastSeg c,
        acc.2 + (alookup n.monthly_sums cur).getD 0)) ("", 0)

/-- The running-sum step (lines 216–217, 240–241, 247–248):
`if sum_values and prev in monthly_data: monthly_data[cur][label] += monthly_data[prev][label]`. -/
def addPrevious (sumV : Bool) (md : MData) (prev : TDate) (row : Row)
    (label : String) : Except RErr Row :=
  if sumV && (alookup md prev).isSome then
    match alookup md prev with
    | none => .error .keyMissing
    | some prow =>
      match alookup prow label, alookup row label with
      | some pv, some v => .ok (aset row label (v + pv))
      | _, _ => .error .keyMissing
  else .ok row

/-- The body of the month loop (lines 211–248), producing the row for
`cur` given the rows built so far.  The source stores the row in
`monthly_data` up front and mutates it there; since `cur` is never the
previous month of itself, building the row locally is equivalent. -/
def buildMonth (st : AState ℚ) (root : Path) (account_label : String)
    (specs : List (List Path)) (sumV : Bool) (md : MData) (cur : TDate) :
    Except RErr Row := do
  let total ← match alookup st root with
    | none => .error .keyMissing
    | some n => .ok ((alookup n.monthly_sums cur).getD 0)
  let tl := total_label account_label specs
  let row0 := aset ([] : Row) tl total
  let row1 ← addPrevious sumV md cur.get_previous row0 tl
  if specs = [] then
    .ok row1
  else do
    let r ← specs.foldlM (fun (acc : Row × ℚ) g => do
      let gv ← groupValue st cur g
      let rowA := aset acc.1 gv.1 gv.2
      let rowB ← addPrevious sumV md cur.get_previous rowA gv.1
      Except.ok (rowB, acc.2 - gv.2)) (row1, total)
    let ol := other_label account_label
    let rowC := aset r.1 ol r.2
    let rowD ← addPrevious sumV md cur.get_previous rowC ol
    .ok rowD

/-- The month loop of `get_report_data` (lines 209–250), over the
explicit month list. -/
def reportLoop (st : AState ℚ) (root : Path) (account_label : String)
    (specs : List (List Path)) (sumV : Bool) :
    List TDate → MData → Except RErr MData
  | [], md => .ok md
  | cur :: rest, md => do
    let row ← buildMonth st root account_label specs sumV md cur
    reportLoop st root account_label specs sumV rest (aset md cur row)

/-- Line 253: `all([m[other_label] == 0 for m in monthly_data.values()])`
(the comprehension evaluates every row, so a missing label raises). -/
def allRowsZero (md : MData) (label : String) : Except RErr Bool :=
  md.foldlM (fun acc e =>
    match alookup e.2 label with
    | none => .error .keyMissing
    | some v => .ok (acc && decide (v = (0 : ℚ)))) true

/-- `TransactionManager.get_report_data` (lines 202–258).  Returns the
row data together with the (possibly shortened) header list: the
source mutates the caller's `headers` in place via `headers.remove`,
which raises ValueError when the label is absent.  `other_label` in
the source is non-`None` exactly when the loop ran at least once with
a non-empty group-spec list. -/
def get_report_data (st : AState ℚ) (account_label : String)
    (start today : TDate) (headers : List String)
    (specs : List (List Path)) (sumV : Bool) :
    Except RErr (MData × List String) := do
  let root ← get_tree_root st
  let range := monthRange start today
  let md ← reportLoop st root account_label specs sumV range []
  if specs ≠ [] ∧ range ≠ [] then
    let ol := other_label account_label
    let z ← allRowsZero md ol
    if z then
      if ol ∈ headers then
        .ok (md.map (fun e => (e.1, adel e.2 ol)), headers.erase ol)
      else .error (.missingHeader ol)
    else .ok (md, headers)
  else .ok (md, headers)

/-- `get_header_names` (lines 261–277). -/
def get_header_names (account_label : String) (specs : List (List Path)) :
    List String :=
  if specs ≠ [] then
    ([total_label account_label specs] ++ specs.map group_label)
      ++ [other_label account_label]
  else [total_label account_label specs]

/-! ### Verification-side closed forms for the report loop

The following definitions are not source translations; they are the
pure closed forms that the characterisation theorems below prove the
loop equal to. -/

/-- The value the previous month's row contributes to a label
(`0` when there is no previous row or it lacks the label). -/
def carryVal (carry : Option Row) (lbl : String) : ℚ :=
  match carry with
  | none => 0
  | some prow => (alookup prow lbl).getD 0

/-- Total (error-free) version of `addPrevious`, with the previous row
passed directly; the fall-through arms are unreachable in the
characterised runs. -/
def addPrevC (sumV : Bool) (carry : Option Row) (row : Row) (lbl : String) : Row :=
  if sumV && carry.isSome then
    match carry with
    | none => row
    | some prow =>
      match alookup prow lbl, alookup row lbl with
      | some pv, some v => aset row lbl (v + pv)
      | _, _ => row
  else row

/-- The per-period sum of a group's columns. -/
def groupSum (st : AState ℚ) (g : List Path) (m : TDate) : ℚ :=
  (g.map (fun c => msum id 0 st c m)).sum

/-- The row `buildMonth` produces, as a function of the previous
month's row. -/
def builtRow (st : AState ℚ) (root : Path) (account_label : String)
    (specs : List (List Path)) (sumV : Bool) (carry : Option Row) (m : TDate) : Row :=
  let total := msum id 0 st root m
  let tl := total_label account_label specs
  let row1 := addPrevC sumV carry (aset ([] : Row) tl total) tl
  if specs = [] then row1
  else
    let r := specs.foldl (fun (acc : Row × ℚ) g =>
      let rowB := addPrevC sumV carry
        (aset acc.1 (group_label g) (groupSum st g m)) (group_label g)
      (rowB, acc.2 - groupSum st g m)) (row1, total)
    addPrevC sumV carry (aset r.1 (other_label account_label) r.2)
      (other_label account_label)

/-- The rows of the month loop, with the previous row chained through
directly. -/
def specRows (st : AState ℚ) (root : Path) (account_label : String)
    (specs : List (List Path)) (sumV : Bool) :
    List TDate → Option Row → List (TDate × Row)
  | [], _ => []
  | m :: rest, carry =>
    let row := builtRow st root account_label specs sumV carry m
    (m, row) :: specRows st root account_label specs sumV rest (some row)

/-- The pure shadow of `reportLoop` (same recursion, previous row
looked up in the accumulated dict). -/
def reportRowsP (st : AState ℚ) (root : Path) (account_label : String)
    (specs : List (List Path)) (sumV : Bool) : List TDate → MData → MData
  | [], md => md
  | m :: rest, md => reportRowsP st root account_label specs sumV rest
      (aset md m (builtRow st root account_label specs sumV
        (alookup md m.get_previous) m))

/-! ## Commodity valuation (commodity_manager.py 152–175) -/

/-- A calendar date, ordered lexicographically like `datetime.date`. -/
structure PDate where
  year : Int
  month : Int
  day : Int
deriving DecidableEq, Repr

/-- `a <= b` on dates. -/
def PDate.ble (a b : PDate) : Bool :=
  if a.year ≠ b.year then a.year < b.year
  else if a.month ≠ b.month then a.month < b.month
  else a.day ≤ b.day

/-- Gregorian leap-year rule (what `datetime` implements). -/
def leapYear (y : Int) : Bool :=
  (y % 4 == 0 && !(y % 100 == 0)) || y % 400 == 0

def daysInMonth (y m : Int) : Int :=
  if m = 2 then (if leapYear y then 29 else 28)
  else if m = 4 || m = 6 || m = 9 || m = 11 then 30 else 31

/-- Lines 163–165: `date(next.year, next.month, 1) - timedelta(days=1)`,
the last calendar day of the month `d`. -/
def lastDayOfMonth (d : TDate) : PDate :=
  let n := d.get_next
  if n.month = 1 then ⟨n.year - 1, 12, 31⟩
  else ⟨n.year, n.month - 1, daysInMonth n.year (n.month - 1)⟩

/-- A ledger price record (external, read-only). -/
structure Price where
  currency : String
  date : PDate
  value : ℚ
deriving DecidableEq, Repr

/-- `order_by(Price.date.desc()).first()`: an entry with maximal date
(the first-listed among equal dates; the source's SQL leaves ties
unspecified). -/
def firstLatest (l : List Price) : Option Price :=
  l.foldl (fun acc p => match acc with
    | none => some p
    | some b => if PDate.ble p.date b.date then some b else some p) none

/-- `order_by(Price.date.asc()).first()`: an entry with minimal date. -/
def firstEarliest (l : List Price) : Option Price :=
  l.foldl (fun acc p => match acc with
    | none => some p
    | some b => if PDate.ble b.date p.date then some b else some p) none

/-- `to_base_currency` (commodity_manager.py lines 159–175).
`prices` is the ledger's price table per commodity. -/
def to_base_currency (prices : String → List Price) (base : String)
    (quantity : ℚ) (commodity : String) (date : TDate) : Except RErr ℚ :=
  if commodity = base then .ok quantity
  else
    let price_date := lastDayOfMonth date
    let inBase := (prices commodity).filter (fun p => p.currency == base)
    let latest := firstLatest (inBase.filter (fun p => PDate.ble p.date price_date))
    let latest' := match latest with
      | some p => some p
      | none => firstEarliest inBase
    match latest' with
    | none => .error .missingPrice  -- `assert latest_price is not None`
    | some p => .ok (quantity * p.value)

/-- `add_commodity_dicts` (commodity_manager.py lines 152–157).  The
source iterates over the key set `set(d1) | set(d2)` (hash order); we
take the keys in first-occurrence order, which represents the same
dict. -/
def add_commodity_dicts (d1 d2 : CDict) : CDict :=
  ((akeys d1 ++ akeys d2).dedup).map
    (fun k => (k, (alookup d1 k).getD 0 + (alookup d2 k).getD 0))

/-! ## Commodity report extraction (commodity_manager.py 79–150)

With a non-empty group-spec list the source raises a `TypeError` on
the first month (`other -= group_sum` subtracts an int from a dict, or
`0 + dict` fails first), before any row is completed; the only
completable path — and the only one its caller uses — is
`separate_columns = None`.  We embed that path: a single total column,
optional running sum via `add_commodity_dicts`, and the final
conversion pass. -/

/-- A commodity report row before conversion. -/
abbrev CRow := List (String × CDict)

/-- Commodity `monthly_data` before conversion. -/
abbrev CMData := List (TDate × CRow)

/-- The body of the commodity month loop (lines 91–98) for an empty
group-spec list: the total column, plus the running-sum merge
(`add_commodity_dicts(current, previous)`). -/
def cbuildMonth (st : AState CDict) (root : Path) (account_label : String)
    (sumV : Bool) (md : CMData) (cur : TDate) : Except RErr CRow := do
  let total ← match alookup st root with
    | none => .error .keyMissing
    | some n => .ok ((alookup n.monthly_sums cur).getD [])
  let row := aset ([] : CRow) account_label total
  if sumV && (alookup md cur.get_previous).isSome then
    match alookup md cur.get_previous with
    | none => .error .keyMissing
    | some prow =>
      match alookup prow account_label, alookup row account_label with
      | some pv, some v => .ok (aset row account_label (add_commodity_dicts v pv))
      | _, _ => .error .keyMissing
  else .ok row

/-- The commodity month loop (lines 89–133, empty group-spec list). -/
def creportLoop (st : AState CDict) (root : Path) (account_label : String)
    (sumV : Bool) : List TDate → CMData → Except RErr CMData
  | [], md => .ok md
  | cur :: rest, md => do
    let row ← cbuildMonth st root account_label sumV md cur
    creportLoop st root account_label sumV rest (aset md cur row)

/-- Lines 144–147: value one commodity dict at one month. -/
def convertValue (prices : String → List Price) (base : String)
    (d : CDict) (date : TDate) : Except RErr ℚ :=
  d.foldlM (fun acc e => do
    let v ← to_base_currency prices base e.2 e.1 date
    Except.ok (acc + v)) 0

/-- `CommodityManager.get_report_data` (lines 79–150) on the
empty-group-spec path: build the quantity rows, skip the
"other"-removal (no other column was created), then convert every
cell to the base currency. -/
def cget_report_data (prices : String → List Price) (base : String)
    (st : AState CDict) (account_label : String) (start today : TDate)
    (sumV : Bool) : Except RErr (CMData × MData) := do
  let root ← get_tree_root st
  let md ← creportLoop st root account_label sumV (monthRange start today) []
  let conv ← md.mapM (fun e => do
    let row ← e.2.mapM (fun l => do
      let t ← convertValue prices base l.2 e.1
      Except.ok (l.1, t))
    Except.ok (e.1, row))
  .ok (md, conv)

/-- The commodity dict stored at a node for a month (`{}` when the
node or the month entry is missing). -/
def msum' (st : AState CDict) (q : Path) (m : TDate) : CDict :=
  match alookup st q with
  | none => []
  | some n => (alookup n.monthly_sums m).getD []

/-- The commodity row `cbuildMonth` produces, as a function of the
previous month's row (verification-side closed form). -/
def cbuiltRow (st : AState CDict) (root : Path) (account_label : String)
    (sumV : Bool) (carry : Option CRow) (m : TDate) : CRow :=
  let total := msum' st root m
  let row := aset ([] : CRow) account_label total
  if sumV && carry.isSome then
    match carry with
    | none => row
    | some prow =>
      match alookup prow account_label, alookup row account_label with
      | some pv, some v => aset row account_label (add_commodity_dicts v pv)
      | _, _ => row
  else row

/-- The rows of the commodity month loop, previous row chained through
directly (verification-side closed form). -/
def cspecRows (st : AState CDict) (root : Path) (account_label : String)
    (sumV : Bool) : List TDate → Option CRow → List (TDate × CRow)
  | [], _ => []
  | m :: rest, carry =>
    let row := cbuiltRow st root account_label sumV carry m
    (m, row) :: cspecRows st root account_label sumV rest (some row)

/-! # Theorems -/

/-! ## Association-list lemmas -/

section AListThms

variable {α β : Type} [DecidableEq α]

@[simp] theorem alookup_nil (a : α) : alookup ([] : List (α × β)) a = none := rfl

@[simp] theorem alookup_cons (k : α) (v : β) (rest : List (α × β)) (a : α) :
    alookup ((k, v) :: rest) a = if k = a then some v else alookup rest a := rfl

@[simp] theorem akeys_nil : akeys ([] : List (α × β)) = [] := rfl

@[simp] theorem akeys_cons (k : α) (v : β) (rest : List (α × β)) :
    akeys ((k, v) :: rest) = k :: akeys rest := rfl

theorem alookup_aset (l : List (α × β)) (a : α) (b : β) (a' : α) :
    alookup (aset l a b) a' = if a = a' then some b else alookup l a' := by
  induction l with
  | nil => simp [aset, alookup]
  | cons kv rest ih =>
    obtain ⟨k, v⟩ := kv
    by_cases hk : k = a
    · subst hk
      simp only [aset, if_pos rfl]
      by_cases h' : k = a' <;> simp [alookup, h']
    · simp only [aset, if_neg hk]
      by_cases h' : k = a'
      · subst h'
        have : ¬ a = k := fun h => hk h.symm
        simp [alookup, this]
      · simp [alookup, h', ih]

@[simp] theorem alookup_aset_self (l : List (α × β)) (a : α) (b : β) :
    alookup (aset l a b) a = some b := by
  simp [alookup_aset]

theorem alookup_aset_ne (l : List (α × β)) (a : α) (b : β) (a' : α) (h : a ≠ a') :
    alookup (aset l a b) a' = alookup l a' := by
  simp [alookup_aset, h]

theorem mem_akeys_iff_isSome (l : List (α × β)) (a : α) :
    a ∈ akeys l ↔ (alookup l a).isSome := by
  induction l with
  | nil => simp
  | cons kv rest ih =>
    obtain ⟨k, v⟩ := kv
    by_cases h : k = a
    · subst h; simp
    · have : ¬ a = k := fun h' => h h'.symm
      simp [h, this, ih]

theorem akeys_aset (l : List (α × β)) (a : α) (b : β) :
    akeys (aset l a b) = if a ∈ akeys l then akeys l else akeys l ++ [a] := by
  induction l with
  | nil => simp [aset]
  | cons kv rest ih =>
    obtain ⟨k, v⟩ := kv
    by_cases hk : k = a
    · subst hk; simp [aset]
    · have : ¬ a = k := fun h' => hk h'.symm
      simp only [aset, if_neg hk, akeys_cons, ih, this]
      by_cases hmem : a ∈ akeys rest <;> simp [hmem, this]

theorem nodup_akeys_aset (l : List (α × β)) (a : α) (b : β)
    (h : (akeys l).Nodup) : (akeys (aset l a b)).Nodup := by
  rw [akeys_aset]
  by_cases hmem : a ∈ akeys l
  · simpa [hmem]
  · simp only [hmem, if_neg, ite_false]
    simpa [List.nodup_append] using ⟨h, hmem⟩

theorem alookup_adel (l : List (α × β)) (a a' : α) (h : (akeys l).Nodup) :
    alookup (adel l a) a' = if a = a' then none else alookup l a' := by
  induction l with
  | nil => simp [adel]
  | cons kv rest ih =>
    obtain ⟨k, v⟩ := kv
    simp only [akeys_cons, List.nodup_cons] at h
    by_cases hk : k = a
    · subst hk
      simp only [adel, if_pos rfl]
      by_cases h' : k = a'
      · subst h'
        simp only [if_pos rfl]
        rcases Option.eq_none_or_eq_some (alookup rest k) with hn | ⟨b, hb⟩
        · exact hn
        · exact absurd ((mem_akeys_iff_isSome rest k).2 (by simp [hb])) h.1
      · simp [alookup, h']
    · simp only [adel, if_neg hk]
      by_cases h' : k = a'
      · subst h'
        have : ¬ a = k := fun h'' => hk h''.symm
        simp [alookup, this]
      · simp [alookup, h', ih h.2]

theorem akeys_adel_of_not_mem (l : List (α × β)) (a : α) (h : a ∉ akeys l) :
    adel l a = l := by
  induction l with
  | nil => rfl
  | cons kv rest ih =>
    obtain ⟨k, v⟩ := kv
    simp only [akeys_cons, List.mem_cons] at h
    push_neg at h
    have : ¬ k = a := fun h' => h.1 h'.symm
    simp [adel, this, ih h.2]

end AListThms

/-! ## Calendar lemmas -/

theorem TDate.idx_get_next (d : TDate) : d.get_next.idx = d.idx + 1 := by
  unfold TDate.get_next TDate.idx
  by_cases h : d.month + 1 = 13
  · simp only [h, if_pos rfl]
    have : d.month = 12 := by omega
    simp [this]; ring
  · simp only [if_neg h]; ring

theorem TDate.valid_get_next (d : TDate) (h : d.valid) : d.get_next.valid := by
  unfold TDate.valid at *
  unfold TDate.get_next
  simp only [Bool.and_eq_true, decide_eq_true_eq] at *
  by_cases h13 : d.month + 1 = 13
  · simp [h13]
  · simp only [if_neg h13]
    omega

theorem TDate.get_previous_get_next (d : TDate) (h : d.valid) :
    d.get_next.get_previous = d := by
  obtain ⟨y, m⟩ := d
  unfold TDate.valid at h
  simp only [Bool.and_eq_true, decide_eq_true_eq] at h
  by_cases h13 : m + 1 = 13
  · have hm : m = 12 := by omega
    subst hm
    simp [TDate.get_next, TDate.get_previous]
  · have h0 : ¬ (m + 1 - 1 = 0) := by omega
    simp only [TDate.get_next, TDate.get_previous, if_neg h13, if_neg h0,
      TDate.mk.injEq]
    exact ⟨trivial, by omega⟩

theorem idx_lt_of_guard_false (cur today : TDate)
    (h : (cur.in_future today || !cur.valid) = false) :
    cur.idx < 12 * (today.year + 2) := by
  simp only [Bool.or_eq_false_iff, Bool.not_eq_true'] at h
  obtain ⟨h1, h2⟩ := h
  have hvm : 1 ≤ cur.month ∧ cur.month ≤ 12 := by
    unfold TDate.valid at h2
    simpa using h2
  have hy : ¬ (cur.year > today.year) := by
    intro hy
    unfold TDate.in_future at h1
    rw [if_pos hy] at h1
    exact Bool.noConfusion h1
  unfold TDate.idx
  omega

theorem monthRangeF_fuel : ∀ (f1 f2 : Nat) (cur today : TDate),
    (12 * (today.year + 2) - cur.idx).toNat ≤ f1 →
    (12 * (today.year + 2) - cur.idx).toNat ≤ f2 →
    monthRangeF f1 cur today = monthRangeF f2 cur today := by
  intro f1
  induction f1 with
  | zero =>
    intro f2 cur today h1 h2
    have hguard : (cur.in_future today || !cur.valid) = true := by
      cases hg : (cur.in_future today || !cur.valid)
      · have := idx_lt_of_guard_false cur today hg
        omega
      · rfl
    cases f2 with
    | zero => rfl
    | succ g =>
      show monthRangeF 0 cur today = monthRangeF (g + 1) cur today
      simp [monthRangeF, hguard]
  | succ f ih =>
    intro f2 cur today h1 h2
    cases f2 with
    | zero =>
      have hguard : (cur.in_future today || !cur.valid) = true := by
        cases hg : (cur.in_future today || !cur.valid)
        · have := idx_lt_of_guard_false cur today hg
          omega
        · rfl
      simp [monthRangeF, hguard]
    | succ g =>
      simp only [monthRangeF]
      by_cases hg : (cur.in_future today || !cur.valid) = true
      · rw [if_pos hg, if_pos hg]
      · rw [if_neg hg, if_neg hg]
        have hguard : (cur.in_future today || !cur.valid) = false := by
          cases hg' : (cur.in_future today || !cur.valid)
          · rfl
          · exact absurd hg' hg
        have hlt := idx_lt_of_guard_false cur today hguard
        have hidx := TDate.idx_get_next cur
        rw [ih g cur.get_next today (by omega) (by omega)]

theorem monthRange_eq_nil (cur today : TDate)
    (h : cur.in_future today || !cur.valid) : monthRange cur today = [] := by
  unfold monthRange
  cases hn : (12 * (today.year + 2) - cur.idx).toNat with
  | zero => rfl
  | succ n => simp [monthRangeF, h]

theorem monthRange_eq_cons (cur today : TDate)
    (h1 : cur.in_future today = false) (h2 : cur.valid) :
    monthRange cur today = cur :: monthRange cur.get_next today := by
  unfold monthRange
  have hguard : (cur.in_future today || !cur.valid) = false := by
    simp [h1, h2]
  have hlt := idx_lt_of_guard_false cur today hguard
  have hidx := TDate.idx_get_next cur
  obtain ⟨n, hn⟩ : ∃ n, (12 * (today.year + 2) - cur.idx).toNat = n + 1 :=
    ⟨(12 * (today.year + 2) - cur.idx).toNat - 1, by omega⟩
  rw [hn]
  simp only [monthRangeF]
  rw [if_neg (by simp [h1, h2])]
  congr 1
  exact monthRangeF_fuel n _ cur.get_next today (by omega) (le_refl _)

/-! ## Chain lemmas -/

theorem not_guard (managed : Path → Bool) (p : Path)
    (hg : ¬ (p = [] || !managed p) = true) : p ≠ [] ∧ managed p = true := by
  cases hm : managed p <;> by_cases hp : p = [] <;> simp [hp, hm] at hg ⊢

theorem guard_imp (managed : Path → Bool) (p : Path)
    (hg : (p = [] || !managed p) = true) : p = [] ∨ managed p = false := by
  by_cases hp : p = []
  · exact Or.inl hp
  · cases hm : managed p
    · exact Or.inr rfl
    · simp [hp, hm] at hg

theorem dropLast_length_le (p : Path) (n : Nat) (h1 : p.length ≤ n + 1) :
    p.dropLast.length ≤ n := by
  have := List.length_dropLast p
  omega

theorem chainOfF_fuel (managed : Path → Bool) : ∀ (f1 f2 : Nat) (p : Path),
    p.length < f1 → p.length < f2 →
    chainOfF managed f1 p = chainOfF managed f2 p := by
  intro f1
  induction f1 with
  | zero =>
    intro f2 p h1 _
    omega
  | succ f ih =>
    intro f2 p h1 h2
    obtain ⟨g, rfl⟩ : ∃ g, f2 = g + 1 := ⟨f2 - 1, by omega⟩
    simp only [chainOfF]
    by_cases hg : (p = [] || !managed p) = true
    · rw [if_pos hg, if_pos hg]
    · rw [if_neg hg, if_neg hg]
      obtain ⟨hp, _⟩ := not_guard managed p hg
      have hd := List.length_dropLast p
      have hplen : 0 < p.length := List.length_pos.2 hp
      rw [ih g p.dropLast (by omega) (by omega)]

theorem chainOf_eq_nil (managed : Path → Bool) (p : Path)
    (h : p = [] ∨ managed p = false) : chainOf managed p = [] := by
  show chainOfF managed (p.length + 1) p = []
  simp only [chainOfF]
  rcases h with h | h <;> simp [h]

theorem chainOf_eq_cons (managed : Path → Bool) (p : Path)
    (h1 : p ≠ []) (h2 : managed p = true) :
    chainOf managed p = p :: chainOf managed p.dropLast := by
  unfold chainOf
  conv_lhs => rw [chainOfF]
  rw [if_neg (by simp [h1, h2])]
  have hd := List.length_dropLast p
  have hplen : 0 < p.length := List.length_pos.2 h1
  rw [chainOfF_fuel managed p.length (p.dropLast.length + 1) p.dropLast (by omega) (by omega)]

theorem TreeInv_nil {V : Type} (managed : Path → Bool) :
    TreeInv managed ([] : AState V) := by
  intro p hp
  simp at hp

theorem length_le_of_mem_chainOf (managed : Path → Bool) :
    ∀ (n : Nat) (p : Path), p.length ≤ n →
      ∀ q ∈ chainOf managed p, q.length ≤ p.length := by
  intro n
  induction n with
  | zero =>
    intro p hp q hq
    have : p = [] := by cases p <;> simp_all
    rw [this, chainOf_eq_nil managed [] (Or.inl rfl)] at hq
    simp at hq
  | succ n ih =>
    intro p hp q hq
    by_cases hg : (p = [] || !managed p) = true
    · rw [chainOf_eq_nil managed p (guard_imp managed p hg)] at hq
      simp at hq
    · obtain ⟨hg1, hg2⟩ := not_guard managed p hg
      rw [chainOf_eq_cons managed p hg1 hg2] at hq
      rcases List.mem_cons.1 hq with rfl | hq'
      · exact le_refl _
      · have := ih p.dropLast (dropLast_length_le p n hp) q hq'
        have h2 := List.length_dropLast p
        omega

theorem mem_chainOf_managed (managed : Path → Bool) :
    ∀ (n : Nat) (p : Path), p.length ≤ n →
      ∀ q ∈ chainOf managed p, q ≠ [] ∧ managed q = true := by
  intro n
  induction n with
  | zero =>
    intro p hp q hq
    have : p = [] := by cases p <;> simp_all
    rw [this, chainOf_eq_nil managed [] (Or.inl rfl)] at hq
    simp at hq
  | succ n ih =>
    intro p hp q hq
    by_cases hg : (p = [] || !managed p) = true
    · rw [chainOf_eq_nil managed p (guard_imp managed p hg)] at hq
      simp at hq
    · obtain ⟨hg1, hg2⟩ := not_guard managed p hg
      rw [chainOf_eq_cons managed p hg1 hg2] at hq
      rcases List.mem_cons.1 hq with rfl | hq'
      · exact ⟨hg1, hg2⟩
      · exact ih p.dropLast (dropLast_length_le p n hp) q hq'

/-- The chain below any of its members is contained in the chain. -/
theorem chainOf_mem_sub (managed : Path → Bool) :
    ∀ (n : Nat) (p : Path), p.length ≤ n →
      ∀ q ∈ chainOf managed p, chainOf managed q ⊆ chainOf managed p := by
  intro n
  induction n with
  | zero =>
    intro p hp q hq
    have : p = [] := by cases p <;> simp_all
    rw [this, chainOf_eq_nil managed [] (Or.inl rfl)] at hq
    simp at hq
  | succ n ih =>
    intro p hp q hq
    by_cases hg : (p = [] || !managed p) = true
    · rw [chainOf_eq_nil managed p (guard_imp managed p hg)] at hq
      simp at hq
    · obtain ⟨hg1, hg2⟩ := not_guard managed p hg
      rw [chainOf_eq_cons managed p hg1 hg2] at hq
      rcases List.mem_cons.1 hq with rfl | hq'
      · exact fun x hx => hx
      · intro x hx
        have := ih p.dropLast (dropLast_length_le p n hp) q hq' hx
        rw [chainOf_eq_cons managed p hg1 hg2]
        exact List.mem_cons_of_mem _ this

/-- A chain member other than the head lies in the tail chain. -/
theorem mem_chainOf_dropLast (managed : Path → Bool) (p q : Path)
    (h1 : p ≠ []) (h2 : managed p = true)
    (hq : q ∈ chainOf managed p) (hne : q ≠ p) :
    q ∈ chainOf managed p.dropLast := by
  rw [chainOf_eq_cons managed p h1 h2] at hq
  rcases List.mem_cons.1 hq with rfl | h
  · exact absurd rfl hne
  · exact h

theorem chainOf_eq_nil_iff (managed : Path → Bool) (p : Path) :
    chainOf managed p = [] ↔ (p = [] ∨ managed p = false) := by
  constructor
  · intro h
    by_contra hc
    push_neg at hc
    rw [chainOf_eq_cons managed p hc.1 (by
      cases hm : managed p
      · exact absurd hm hc.2
      · rfl)] at h
    simp at h
  · exact chainOf_eq_nil managed p

theorem chainParent_eq_none_iff (managed : Path → Bool) (p : Path) :
    chainParent managed p = none ↔ (p.dropLast = [] ∨ managed p.dropLast = false) := by
  unfold chainParent
  by_cases hc : (decide (p.dropLast ≠ []) && managed p.dropLast) = true
  · simp only [Bool.and_eq_true, decide_eq_true_eq] at hc
    rw [if_pos (by simp [hc.1, hc.2])]
    simp [hc.1, hc.2]
  · rw [if_neg hc]
    simp only [Bool.and_eq_true, decide_eq_true_eq] at hc
    constructor
    · intro _
      by_cases h1 : p.dropLast = []
      · exact Or.inl h1
      · right
        cases hm : managed p.dropLast
        · rfl
        · exact absurd ⟨h1, hm⟩ hc
    · intro _; rfl

theorem chainParent_eq_some_iff (managed : Path → Bool) (p q : Path) :
    chainParent managed p = some q ↔
      (q = p.dropLast ∧ p.dropLast ≠ [] ∧ managed p.dropLast = true) := by
  unfold chainParent
  by_cases hc : (decide (p.dropLast ≠ []) && managed p.dropLast) = true
  · simp only [Bool.and_eq_true, decide_eq_true_eq] at hc
    rw [if_pos (by simp [hc.1, hc.2])]
    constructor
    · intro h
      exact ⟨(Option.some_inj.1 h).symm, hc⟩
    · intro h
      rw [h.1]
  · rw [if_neg hc]
    simp only [Bool.and_eq_true, decide_eq_true_eq] at hc
    constructor
    · intro h; simp at h
    · intro h; exact absurd ⟨h.2.1, h.2.2⟩ hc

theorem not_mem_chainOf_dropLast (managed : Path → Bool) (p : Path) (h : p ≠ []) :
    p ∉ chainOf managed p.dropLast := by
  intro hmem
  have h1 := length_le_of_mem_chainOf managed p.dropLast.length p.dropLast
    (le_refl _) p hmem
  have h2 := List.length_dropLast p
  have h3 : 0 < p.length := List.length_pos.2 h
  omega

/-- `chainParent` of a chain member points into the same chain. -/
theorem chainParent_mem_chainOf (managed : Path → Bool) (p q : Path)
    (hq : q ∈ chainOf managed p)
    (h : chainParent managed q ≠ none) : q.dropLast ∈ chainOf managed p := by
  have hsub := chainOf_mem_sub managed p.length p (le_refl _) q hq
  unfold chainParent at h
  by_cases hc : (decide (q.dropLast ≠ []) && managed q.dropLast) = true
  · simp only [Bool.and_eq_true, decide_eq_true_eq] at hc
    have hmq := mem_chainOf_managed managed p.length p (le_refl _) q hq
    have : q.dropLast ∈ chainOf managed q := by
      rw [chainOf_eq_cons managed q hmq.1 hmq.2]
      have : q.dropLast ∈ chainOf managed q.dropLast := by
        rw [chainOf_eq_cons managed q.dropLast hc.1 hc.2]
        exact List.mem_cons_self _ _
      exact List.mem_cons_of_mem _ this
    exact hsub this
  · rw [if_neg hc] at h
    exact absurd rfl h

/-! ## Characterisation of `ensurePath` -/

section TreeThms

variable {V : Type} [DecidableEq V]

theorem collectStackF_fuel (managed : Path → Bool) : ∀ (f1 f2 : Nat) (p : Path)
    (st : AState V), p.length < f1 → p.length < f2 →
    collectStackF managed f1 p st = collectStackF managed f2 p st := by
  intro f1
  induction f1 with
  | zero =>
    intro f2 p st h1 _
    omega
  | succ f ih =>
    intro f2 p st h1 h2
    obtain ⟨g, rfl⟩ : ∃ g, f2 = g + 1 := ⟨f2 - 1, by omega⟩
    simp only [collectStackF]
    by_cases hg : (p = [] || !managed p) = true
    · rw [if_pos hg, if_pos hg]
    · rw [if_neg hg, if_neg hg]
      obtain ⟨hp, _⟩ := not_guard managed p hg
      have hd := List.length_dropLast p
      have hplen : 0 < p.length := List.length_pos.2 hp
      rw [ih g p.dropLast _ (by omega) (by omega)]

theorem collectStack_base (managed : Path → Bool) (p : Path) (st : AState V)
    (h : (p = [] || !managed p) = true) : collectStack managed p st = ([], st) := by
  show collectStackF managed (p.length + 1) p st = ([], st)
  simp only [collectStackF]
  simp [h]

theorem collectStack_eq_step (managed : Path → Bool) (p : Path) (st : AState V)
    (hg : ¬ (p = [] || !managed p) = true) :
    collectStack managed p st =
      ((p :: (collectStack managed p.dropLast
          (if (alookup st p).isSome then st else aset st p ⟨none, []⟩)).1,
        (collectStack managed p.dropLast
          (if (alookup st p).isSome then st else aset st p ⟨none, []⟩)).2)) := by
  unfold collectStack
  conv_lhs => rw [collectStackF]
  rw [if_neg hg]
  obtain ⟨hp, _⟩ := not_guard managed p hg
  have hd := List.length_dropLast p
  have hplen : 0 < p.length := List.length_pos.2 hp
  show (p :: (collectStackF managed p.length p.dropLast
      (if (alookup st p).isSome then st else aset st p ⟨none, []⟩)).1,
    (collectStackF managed p.length p.dropLast
      (if (alookup st p).isSome then st else aset st p ⟨none, []⟩)).2) = _
  rw [collectStackF_fuel managed p.length (p.dropLast.length + 1) p.dropLast _
    (by omega) (by omega)]

theorem linkParents_nil (st : AState V) : linkParents st [] = st := rfl

theorem linkParents_single (st : AState V) (c : Path) :
    linkParents st [c] = st := rfl

theorem linkParents_cons_found (st : AState V) (c p : Path) (rest : List Path)
    (n : ANode V) (h : alookup st c = some n) :
    linkParents st (c :: p :: rest) =
      linkParents (aset st c ⟨some p, n.monthly_sums⟩) (p :: rest) := by
  simp only [linkParents, h]

/-- `collectStack` returns exactly the managed ancestor chain. -/
theorem collectStack_fst (managed : Path → Bool) :
    ∀ (n : Nat) (p : Path), p.length ≤ n → ∀ st : AState V,
      (collectStack managed p st).1 = chainOf managed p := by
  intro n
  induction n with
  | zero =>
    intro p hp st
    have hpn : p = [] := by cases p <;> simp_all
    subst hpn
    rw [collectStack_base managed [] st (by simp),
      chainOf_eq_nil managed [] (Or.inl rfl)]
  | succ n ih =>
    intro p hp st
    by_cases hg : (p = [] || !managed p) = true
    · rw [collectStack_base managed p st hg,
        chainOf_eq_nil managed p (guard_imp managed p hg)]
    · obtain ⟨hg1, hg2⟩ := not_guard managed p hg
      rw [collectStack_eq_step managed p st hg, chainOf_eq_cons managed p hg1 hg2]
      simp only [List.cons.injEq, true_and]
      exact ih p.dropLast (dropLast_length_le p n hp) _

/-- Effect of `collectStack` on the dict: a bare node (`parent = None`,
empty sums) is inserted for every chain member not yet present. -/
theorem alookup_collectStack (managed : Path → Bool) :
    ∀ (n : Nat) (p : Path), p.length ≤ n → ∀ (st : AState V) (q : Path),
      alookup (collectStack managed p st).2 q =
        if q ∈ chainOf managed p ∧ (alookup st q).isNone
        then some ⟨none, []⟩ else alookup st q := by
  intro n
  induction n with
  | zero =>
    intro p hp st q
    have hpn : p = [] := by cases p <;> simp_all
    subst hpn
    rw [collectStack_base managed [] st (by simp),
      chainOf_eq_nil managed [] (Or.inl rfl)]
    simp
  | succ n ih =>
    intro p hp st q
    by_cases hg : (p = [] || !managed p) = true
    · rw [collectStack_base managed p st hg,
        chainOf_eq_nil managed p (guard_imp managed p hg)]
      simp
    · obtain ⟨hg1, hg2⟩ := not_guard managed p hg
      have hstep : (collectStack managed p st).2 =
          (collectStack managed p.dropLast
            (if (alookup st p).isSome then st else aset st p ⟨none, []⟩)).2 := by
        rw [collectStack_eq_step managed p st hg]
      rw [hstep, ih p.dropLast (dropLast_length_le p n hp)]
      rw [chainOf_eq_cons managed p hg1 hg2]
      by_cases hqp : q = p
      · subst hqp
        have hnot := not_mem_chainOf_dropLast managed q hg1
        rw [if_neg (fun hh => hnot hh.1)]
        by_cases hs : (alookup st q).isSome
        · rw [if_pos hs]
          rw [if_neg (by
            intro hh
            rw [Option.isNone_iff_eq_none] at hh
            rw [hh.2] at hs
            simp at hs)]
        · rw [if_neg hs]
          have hnone : alookup st q = none := by
            cases hl : alookup st q
            · rfl
            · rw [hl] at hs; simp at hs
          rw [if_pos ⟨List.mem_cons_self _ _, by simp [hnone]⟩]
          simp
      · have hst' : alookup (if (alookup st p).isSome then st
            else aset st p ⟨none, []⟩) q = alookup st q := by
          by_cases hs : (alookup st p).isSome
          · rw [if_pos hs]
          · rw [if_neg hs]
            exact alookup_aset_ne st p _ q (fun h => hqp h.symm)
        rw [hst']
        by_cases hq : q ∈ chainOf managed p.dropLast ∧ (alookup st q).isNone
        · rw [if_pos hq, if_pos ⟨List.mem_cons_of_mem _ hq.1, hq.2⟩]
        · rw [if_neg hq, if_neg (by
            intro hh
            rcases List.mem_cons.1 hh.1 with rfl | hmm
            · exact hqp rfl
            · exact hq ⟨hmm, hh.2⟩)]

/-- Effect of the unwind (`linkParents`) on a fully-present chain: the
parent link of every chain member with a managed, non-root immediate
ancestor is set to that ancestor; sums are untouched. -/
theorem alookup_linkParents (managed : Path → Bool) :
    ∀ (n : Nat) (p : Path), p.length ≤ n → ∀ st : AState V,
      (∀ q ∈ chainOf managed p, (alookup st q).isSome) →
      ∀ q, alookup (linkParents st (chainOf managed p)) q =
        if q ∈ chainOf managed p ∧ chainParent managed q ≠ none
        then (alookup st q).map (fun nd => ⟨chainParent managed q, nd.monthly_sums⟩)
        else alookup st q := by
  intro n
  induction n with
  | zero =>
    intro p hp st hpres q
    have hpn : p = [] := by cases p <;> simp_all
    subst hpn
    rw [chainOf_eq_nil managed [] (Or.inl rfl)]
    simp [linkParents_nil]
  | succ n ih =>
    intro p hp st hpres q
    by_cases hg : (p = [] || !managed p) = true
    · rw [chainOf_eq_nil managed p (guard_imp managed p hg)]
      simp [linkParents_nil]
    · obtain ⟨hg1, hg2⟩ := not_guard managed p hg
      have hcons := chainOf_eq_cons managed p hg1 hg2
      cases htail : chainOf managed p.dropLast with
      | nil =>
        have hcp : chainParent managed p = none := by
          rw [chainParent_eq_none_iff]
          exact (chainOf_eq_nil_iff managed p.dropLast).1 htail
        rw [hcons, htail]
        rw [linkParents_single]
        by_cases hq : q ∈ ([p] : List Path) ∧ chainParent managed q ≠ none
        · obtain ⟨hq1, hq2⟩ := hq
          simp only [List.mem_singleton] at hq1
          subst hq1
          exact absurd hcp hq2
        · rw [if_neg hq]
      | cons p' rest =>
        have hdl : p.dropLast ≠ [] ∧ managed p.dropLast = true := by
          by_cases hg' : (p.dropLast = [] || !managed p.dropLast) = true
          · exfalso
            rw [chainOf_eq_nil managed p.dropLast (guard_imp managed p.dropLast hg')]
              at htail
            exact List.noConfusion htail
          · exact not_guard managed p.dropLast hg'
        have hp' : p' = p.dropLast := by
          rw [chainOf_eq_cons managed p.dropLast hdl.1 hdl.2] at htail
          injection htail with ha _
          exact ha.symm
        have hcp : chainParent managed p = some p.dropLast :=
          (chainParent_eq_some_iff managed p p.dropLast).2 ⟨rfl, hdl.1, hdl.2⟩
        have hpmem : p ∈ chainOf managed p := by
          rw [hcons]; exact List.mem_cons_self _ _
        obtain ⟨np, hnp⟩ := Option.isSome_iff_exists.1 (hpres p hpmem)
        have hredL : linkParents st (chainOf managed p)
            = linkParents (aset st p ⟨some p', np.monthly_sums⟩)
              (chainOf managed p.dropLast) := by
          rw [hcons, htail, linkParents_cons_found st p p' rest np hnp, ← htail]
        have hst1 : ∀ q' ∈ chainOf managed p.dropLast,
            (alookup (aset st p ⟨some p', np.monthly_sums⟩) q').isSome := by
          intro q' hq'
          by_cases hq'p : q' = p
          · subst hq'p; simp
          · rw [alookup_aset_ne st p _ q' (fun h => hq'p h.symm)]
            exact hpres q' (by rw [hcons]; exact List.mem_cons_of_mem _ hq')
        rw [hredL, ih p.dropLast (dropLast_length_le p n hp) _ hst1 q]
        by_cases hqp : q = p
        · subst hqp
          rw [if_neg (fun hh => not_mem_chainOf_dropLast managed q hg1 hh.1)]
          rw [if_pos ⟨hpmem, by rw [hcp]; exact fun h => Option.noConfusion h⟩]
          rw [alookup_aset_self, hnp, hcp, hp']
          rfl
        · have hlq : alookup (aset st p ⟨some p', np.monthly_sums⟩) q = alookup st q :=
            alookup_aset_ne st p _ q (fun h => hqp h.symm)
          rw [hlq]
          by_cases hq : q ∈ chainOf managed p.dropLast ∧ chainParent managed q ≠ none
          · rw [if_pos hq,
              if_pos ⟨by rw [hcons]; exact List.mem_cons_of_mem _ hq.1, hq.2⟩]
          · rw [if_neg hq, if_neg (fun hh =>
              hq ⟨mem_chainOf_dropLast managed p q hg1 hg2 hh.1 hqp, hh.2⟩)]

/-- Under the invariant, every chain member of a tracked path is tracked. -/
theorem chain_mem_akeys (managed : Path → Bool) (st : AState V)
    (hInv : TreeInv managed st) :
    ∀ (n : Nat) (p : Path), p.length ≤ n → p ∈ akeys st →
      ∀ q ∈ chainOf managed p, q ∈ akeys st := by
  intro n
  induction n with
  | zero =>
    intro p hp hmem q hq
    have hpn : p = [] := by cases p <;> simp_all
    subst hpn
    rw [chainOf_eq_nil managed [] (Or.inl rfl)] at hq
    simp at hq
  | succ n ih =>
    intro p hp hmem q hq
    obtain ⟨hp1, hp2, _, hp4⟩ := hInv p hmem
    by_cases hqp : q = p
    · subst hqp; exact hmem
    · have hq' := mem_chainOf_dropLast managed p q hp1 hp2 hq hqp
      have htail : chainOf managed p.dropLast ≠ [] := by
        intro h
        rw [h] at hq'
        simp at hq'
      have hdl : p.dropLast ≠ [] ∧ managed p.dropLast = true := by
        by_cases hg : (p.dropLast = [] || !managed p.dropLast) = true
        · exact absurd (chainOf_eq_nil managed p.dropLast
            (guard_imp managed p.dropLast hg)) htail
        · exact not_guard managed p.dropLast hg
      have hcp : chainParent managed p = some p.dropLast :=
        (chainParent_eq_some_iff managed p p.dropLast).2 ⟨rfl, hdl.1, hdl.2⟩
      have hdmem : p.dropLast ∈ akeys st := hp4 (by rw [hcp]; simp)
      exact ih p.dropLast (dropLast_length_le p n hp) hdmem q hq'

/-- The invariant only depends on key membership and stored parent
links, so it transports along updates that keep both. -/
theorem TreeInv_of_eqv (managed : Path → Bool) (st st' : AState V)
    (hInv : TreeInv managed st)
    (hpar : ∀ q, parentIn st' q = parentIn st q)
    (hsome : ∀ q, (alookup st' q).isSome ↔ (alookup st q).isSome) :
    TreeInv managed st' := by
  intro q hq
  have hq' : q ∈ akeys st := by
    rw [mem_akeys_iff_isSome] at hq ⊢
    exact (hsome q).1 hq
  obtain ⟨h1, h2, h3, h4⟩ := hInv q hq'
  refine ⟨h1, h2, ?_, ?_⟩
  · rw [hpar q, h3]
  · intro hcp
    rw [mem_akeys_iff_isSome]
    exact (hsome q.dropLast).2 ((mem_akeys_iff_isSome st q.dropLast).1 (h4 hcp))

/-- Characterisation of `ensurePath` on invariant states: it succeeds,
inserts a bare node (with the canonical parent link) for every chain
member not yet tracked, and leaves every other entry untouched. -/
theorem ensurePath_spec (managed : Path → Bool) (st : AState V) (p : Path)
    (hInv : TreeInv managed st) (h1 : p ≠ []) (h2 : managed p = true) :
    ∃ st', ensurePath managed st p = .ok st' ∧
      (∀ q, alookup st' q =
        if q ∈ chainOf managed p ∧ (alookup st q).isNone
        then some ⟨chainParent managed q, []⟩
        else alookup st q) ∧
      TreeInv managed st' := by
  by_cases hfound : (alookup st p).isSome
  · refine ⟨st, ?_, ?_, hInv⟩
    · unfold ensurePath
      rw [if_pos hfound]
    · intro q
      rw [if_neg ?_]
      intro ⟨hqc, hqn⟩
      have hqk : q ∈ akeys st :=
        chain_mem_akeys managed st hInv p.length p (le_refl _)
          ((mem_akeys_iff_isSome st p).2 hfound) q hqc
      rw [mem_akeys_iff_isSome] at hqk
      rw [Option.isNone_iff_eq_none] at hqn
      rw [hqn] at hqk
      simp at hqk
  · have hchain : chainOf managed p = p :: chainOf managed p.dropLast :=
      chainOf_eq_cons managed p h1 h2
    have hfst := collectStack_fst managed p.length p (le_refl _) st
    have hC := alookup_collectStack managed p.length p (le_refl _) st
    have hpres : ∀ q ∈ chainOf managed p,
        (alookup (collectStack managed p st).2 q).isSome := by
      intro q hq
      rw [hC q]
      by_cases hn : (alookup st q).isNone
      · rw [if_pos ⟨hq, hn⟩]; simp
      · rw [if_neg (fun hh => hn hh.2)]
        cases hl : alookup st q
        · rw [Option.isNone_iff_eq_none.2 hl] at hn; simp at hn
        · simp
    have hL := alookup_linkParents managed p.length p (le_refl _)
      (collectStack managed p st).2 hpres
    have hok : ensurePath managed st p =
        .ok (linkParents (collectStack managed p st).2 (chainOf managed p)) := by
      unfold ensurePath
      rw [if_neg hfound]
      show (if (collectStack managed p st).1 = [] then Except.error RErr.unmanagedAccount
        else Except.ok
          (linkParents (collectStack managed p st).2 (collectStack managed p st).1)) = _
      rw [hfst]
      rw [if_neg (by rw [hchain]; exact fun h => List.noConfusion h)]
    have hdesc : ∀ q,
        alookup (linkParents (collectStack managed p st).2 (chainOf managed p)) q =
          if q ∈ chainOf managed p ∧ (alookup st q).isNone
          then some ⟨chainParent managed q, []⟩
          else alookup st q := by
      intro q
      rw [hL q, hC q]
      by_cases hmem : q ∈ chainOf managed p
      · by_cases hcp : chainParent managed q ≠ none
        · rw [if_pos ⟨hmem, hcp⟩]
          by_cases hn : (alookup st q).isNone
          · rw [if_pos ⟨hmem, hn⟩, if_pos ⟨hmem, hn⟩]
            rfl
          · rw [if_neg (fun hh => hn hh.2), if_neg (fun hh => hn hh.2)]
            obtain ⟨nq, hnq⟩ : ∃ nq, alookup st q = some nq := by
              cases hl : alookup st q
              · rw [Option.isNone_iff_eq_none.2 hl] at hn; simp at hn
              · exact ⟨_, rfl⟩
            have hqk : q ∈ akeys st := (mem_akeys_iff_isSome st q).2 (by simp [hnq])
            obtain ⟨_, _, hq3, _⟩ := hInv q hqk
            unfold parentIn at hq3
            rw [hnq] at hq3
            rw [hnq]
            show some (⟨chainParent managed q, nq.monthly_sums⟩ : ANode V) = some nq
            rw [← hq3]
        · rw [if_neg (fun hh => hcp hh.2)]
          push_neg at hcp
          by_cases hn : (alookup st q).isNone
          · rw [if_pos ⟨hmem, hn⟩, if_pos ⟨hmem, hn⟩, hcp]
          · rw [if_neg (fun hh => hn hh.2), if_neg (fun hh => hn hh.2)]
      · rw [if_neg (fun hh => hmem hh.1), if_neg (fun hh => hmem hh.1),
          if_neg (fun hh => hmem hh.1)]
    refine ⟨_, hok, hdesc, ?_⟩
    intro q hq
    rw [mem_akeys_iff_isSome, hdesc q] at hq
    by_cases hcond : q ∈ chainOf managed p ∧ (alookup st q).isNone
    · obtain ⟨hq1, hq2⟩ := mem_chainOf_managed managed p.length p (le_refl _) q hcond.1
      refine ⟨hq1, hq2, ?_, ?_⟩
      · unfold parentIn
        rw [hdesc q, if_pos hcond]
      · intro hcp
        have hdmem := chainParent_mem_chainOf managed p q hcond.1 hcp
        rw [mem_akeys_iff_isSome, hdesc q.dropLast]
        by_cases hn : (alookup st q.dropLast).isNone
        · rw [if_pos ⟨hdmem, hn⟩]; simp
        · rw [if_neg (fun hh => hn hh.2)]
          cases hl : alookup st q.dropLast
          · rw [Option.isNone_iff_eq_none.2 hl] at hn; simp at hn
          · simp
    · rw [if_neg hcond] at hq
      have hqk : q ∈ akeys st := (mem_akeys_iff_isSome st q).2 hq
      obtain ⟨hq1, hq2, hq3, hq4⟩ := hInv q hqk
      refine ⟨hq1, hq2, ?_, ?_⟩
      · unfold parentIn
        rw [hdesc q, if_neg hcond]
        unfold parentIn at hq3
        exact hq3
      · intro hcp
        have hdmem := hq4 hcp
        rw [mem_akeys_iff_isSome, hdesc q.dropLast]
        rw [mem_akeys_iff_isSome] at hdmem
        by_cases hcond' : q.dropLast ∈ chainOf managed p ∧ (alookup st q.dropLast).isNone
        · rw [if_pos hcond']; simp
        · rw [if_neg hcond']; exact hdmem

/-- Characterisation of the accumulation walk: starting from a tracked
path with enough fuel, it applies `addMonth` to every node on the
managed ancestor chain and touches nothing else. -/
theorem addChain_spec (zero : V) (bump : V → V) (m : TDate) (managed : Path → Bool) :
    ∀ (n : Nat) (p : Path), p.length ≤ n → ∀ st : AState V,
      TreeInv managed st → p ∈ akeys st →
      ∀ fuel, p.length + 1 ≤ fuel →
      ∀ q, alookup (addChain zero bump m fuel st p) q =
        if q ∈ chainOf managed p then (alookup st q).map (addMonth zero bump m)
        else alookup st q := by
  intro n
  induction n with
  | zero =>
    intro p hp st hInv hmem fuel hfuel q
    obtain ⟨h1, _, _, _⟩ := hInv p hmem
    have : 0 < p.length := List.length_pos.2 h1
    omega
  | succ n ih =>
    intro p hp st hInv hmem fuel hfuel q
    obtain ⟨h1, h2, h3, h4⟩ := hInv p hmem
    obtain ⟨np, hnp⟩ := Option.isSome_iff_exists.1 ((mem_akeys_iff_isSome st p).1 hmem)
    have hplen : 0 < p.length := List.length_pos.2 h1
    obtain ⟨f, rfl⟩ : ∃ f, fuel = f + 1 := ⟨fuel - 1, by omega⟩
    have hpar : np.parent = chainParent managed p := by
      unfold parentIn at h3
      rw [hnp] at h3
      exact h3
    have hchain := chainOf_eq_cons managed p h1 h2
    have hred : addChain zero bump m (f + 1) st p =
        (match np.parent with
          | none => aset st p (addMonth zero bump m np)
          | some q' => addChain zero bump m f (aset st p (addMonth zero bump m np)) q') := by
      simp only [addChain, hnp]
    cases hnpp : np.parent with
    | none =>
      rw [hred, hnpp]
      have hcp : chainParent managed p = none := by rw [← hpar, hnpp]
      have htail : chainOf managed p.dropLast = [] :=
        chainOf_eq_nil managed p.dropLast
          ((chainParent_eq_none_iff managed p).1 hcp)
      rw [hchain, htail]
      by_cases hqp : q = p
      · subst hqp
        rw [if_pos (List.mem_singleton.2 rfl), alookup_aset_self, hnp]
        rfl
      · rw [alookup_aset_ne st p _ q (fun h => hqp h.symm),
          if_neg (fun hh => hqp (List.mem_singleton.1 hh))]
    | some q' =>
      rw [hred, hnpp]
      have hcp : chainParent managed p = some q' := by rw [← hpar, hnpp]
      obtain ⟨hq'1, hq'2, hq'3⟩ := (chainParent_eq_some_iff managed p q').1 hcp
      subst hq'1
      have hInv1 : TreeInv managed (aset st p (addMonth zero bump m np)) := by
        refine TreeInv_of_eqv managed st _ hInv ?_ ?_
        · intro r
          unfold parentIn
          by_cases hrp : r = p
          · subst hrp
            rw [alookup_aset_self, hnp]
            rfl
          · rw [alookup_aset_ne st p _ r (fun h => hrp h.symm)]
        · intro r
          by_cases hrp : r = p
          · subst hrp
            rw [alookup_aset_self, hnp]
            simp
          · rw [alookup_aset_ne st p _ r (fun h => hrp h.symm)]
      have hmem1 : p.dropLast ∈ akeys (aset st p (addMonth zero bump m np)) := by
        have := h4 (by rw [hcp]; simp)
        rw [mem_akeys_iff_isSome] at this ⊢
        by_cases hdp : p.dropLast = p
        · rw [hdp, alookup_aset_self]; simp
        · rw [alookup_aset_ne st p _ _ (fun h => hdp h.symm)]
          exact this
      have hdrop : p.dropLast.length ≤ n := dropLast_length_le p n hp
      have hfu : p.dropLast.length + 1 ≤ f := by
        have := List.length_dropLast p
        omega
      rw [ih p.dropLast hdrop _ hInv1 hmem1 f hfu q]
      rw [hchain]
      by_cases hqp : q = p
      · subst hqp
        rw [if_neg (not_mem_chainOf_dropLast managed q h1),
          if_pos (List.mem_cons_self _ _), alookup_aset_self, hnp]
        rfl
      · rw [alookup_aset_ne st p _ q (fun h => hqp h.symm)]
        by_cases hqc : q ∈ chainOf managed p.dropLast
        · rw [if_pos hqc, if_pos (List.mem_cons_of_mem _ hqc)]
        · rw [if_neg hqc, if_neg (by
            intro hh
            rcases List.mem_cons.1 hh with rfl | hmm
            · exact hqp rfl
            · exact hqc hmm)]

/-- Characterisation of one `update_tree` call on an invariant state
fed a managed split: it succeeds, preserves the invariant, tracks
exactly the old keys plus the managed ancestor chain, and adds the
split's contribution (measured by any additive view `μ`) to the
split's month at every chain node and nowhere else. -/
theorem update_tree_spec (managed : Path → Bool) (zero : V) (bump : V → V)
    (st : AState V) (p : Path) (m : TDate)
    (hInv : TreeInv managed st) (h1 : p ≠ []) (h2 : managed p = true) :
    ∃ st', update_tree managed zero bump st p m = .ok st' ∧
      TreeInv managed st' ∧
      (∀ q, (alookup st' q).isSome ↔
        ((alookup st q).isSome ∨ q ∈ chainOf managed p)) ∧
      (∀ (μ : V → ℚ) (δ : ℚ), μ zero = 0 → (∀ v, μ (bump v) = μ v + δ) →
        ∀ q m', msum μ zero st' q m' =
          msum μ zero st q m' + if q ∈ chainOf managed p ∧ m' = m then δ else 0) := by
  obtain ⟨stE, hEok, hEdesc, hEInv⟩ := ensurePath_spec managed st p hInv h1 h2
  have hpmem : p ∈ chainOf managed p := by
    rw [chainOf_eq_cons managed p h1 h2]
    exact List.mem_cons_self _ _
  have hpE : (alookup stE p).isSome := by
    rw [hEdesc p]
    by_cases hn : (alookup st p).isNone
    · rw [if_pos ⟨hpmem, hn⟩]; simp
    · rw [if_neg (fun hh => hn hh.2)]
      cases hl : alookup st p
      · rw [Option.isNone_iff_eq_none.2 hl] at hn; simp at hn
      · simp
  obtain ⟨ne, hne⟩ := Option.isSome_iff_exists.1 hpE
  have hrun : update_tree managed zero bump st p m =
      .ok (addChain zero bump m (p.length + 1) stE p) := by
    unfold update_tree
    rw [hEok]
    show (match alookup stE p with
      | none => Except.error RErr.unmanagedAccount
      | some _ => Except.ok (addChain zero bump m (p.length + 1) stE p)) = _
    rw [hne]
  have hA := addChain_spec zero bump m managed p.length p (le_refl _) stE hEInv
    ((mem_akeys_iff_isSome stE p).2 hpE) (p.length + 1) (le_refl _)
  have hchainSome : ∀ q ∈ chainOf managed p, (alookup stE q).isSome := by
    intro q hq
    rw [hEdesc q]
    by_cases hn : (alookup st q).isNone
    · rw [if_pos ⟨hq, hn⟩]; simp
    · rw [if_neg (fun hh => hn hh.2)]
      cases hl : alookup st q
      · rw [Option.isNone_iff_eq_none.2 hl] at hn; simp at hn
      · simp
  refine ⟨_, hrun, ?_, ?_, ?_⟩
  · refine TreeInv_of_eqv managed stE _ hEInv ?_ ?_
    · intro q
      unfold parentIn
      rw [hA q]
      by_cases hq : q ∈ chainOf managed p
      · rw [if_pos hq]
        cases hl : alookup stE q
        · rfl
        · rfl
      · rw [if_neg hq]
    · intro q
      rw [hA q]
      by_cases hq : q ∈ chainOf managed p
      · rw [if_pos hq]
        simp
      · rw [if_neg hq]
  · intro q
    have hiff : (alookup (addChain zero bump m (p.length + 1) stE p) q).isSome ↔
        (alookup stE q).isSome := by
      rw [hA q]
      by_cases hq : q ∈ chainOf managed p
      · rw [if_pos hq]; simp
      · rw [if_neg hq]
    rw [hiff, hEdesc q]
    by_cases hcond : q ∈ chainOf managed p ∧ (alookup st q).isNone
    · rw [if_pos hcond]
      simp [hcond.1]
    · rw [if_neg hcond]
      constructor
      · intro h; exact Or.inl h
      · intro h
        rcases h with h | h
        · exact h
        · by_cases hn : (alookup st q).isNone
          · exact absurd ⟨h, hn⟩ hcond
          · cases hl : alookup st q
            · rw [Option.isNone_iff_eq_none.2 hl] at hn; simp at hn
            · simp
  · intro μ δ hz hb q m'
    have hmsE : msum μ zero stE q m' = msum μ zero st q m' := by
      unfold msum
      rw [hEdesc q]
      by_cases hcond : q ∈ chainOf managed p ∧ (alookup st q).isNone
      · rw [if_pos hcond]
        rw [Option.isNone_iff_eq_none] at hcond
        rw [hcond.2]
        simpa using hz
      · rw [if_neg hcond]
    rw [← hmsE]
    unfold msum
    rw [hA q]
    by_cases hq : q ∈ chainOf managed p
    · rw [if_pos hq]
      obtain ⟨nq, hnq⟩ := Option.isSome_iff_exists.1 (hchainSome q hq)
      rw [hnq]
      simp only [Option.map_some']
      unfold addMonth
      simp only []
      rw [alookup_aset]
      by_cases hm' : m = m'
      · subst hm'
        rw [if_pos rfl, if_pos ⟨hq, rfl⟩]
        simp only [Option.getD_some]
        rw [hb]
      · rw [if_neg hm', if_neg (fun hh => hm' hh.2.symm)]
        simp
    · rw [if_neg hq, if_neg (fun hh => hq hh.1)]
      simp

/-- Fold form of the ingestion pass: feeding any sequence of managed
splits from an invariant state succeeds and adds each split's measured
contribution to every node of its managed ancestor chain. -/
theorem ingest_go {σ : Type} (managed : Path → Bool) (zero : V)
    (bump : σ → V → V) (path : σ → Path) (month : σ → TDate)
    (μ : V → ℚ) (w : σ → ℚ) (hz : μ zero = 0)
    (hb : ∀ s v, μ (bump s v) = μ v + w s) :
    ∀ (splits : List σ) (st₀ : AState V), TreeInv managed st₀ →
      (∀ s ∈ splits, managed (path s) = true ∧ path s ≠ []) →
      ∃ st, (splits.foldlM (fun st s =>
          update_tree managed zero (bump s) st (path s) (month s)) st₀) = .ok st ∧
        TreeInv managed st ∧
        ∀ q m, msum μ zero st q m = msum μ zero st₀ q m +
          ((splits.filter (fun s => decide (month s = m) &&
            decide (q ∈ chainOf managed (path s)))).map w).sum := by
  intro splits
  induction splits with
  | nil =>
    intro st₀ hInv _
    exact ⟨st₀, rfl, hInv, by simp⟩
  | cons s rest ih =>
    intro st₀ hInv hm
    obtain ⟨hm1, hm2⟩ := hm s (List.mem_cons_self _ _)
    obtain ⟨st₁, hok, hInv₁, _, hsum₁⟩ :=
      update_tree_spec managed zero (bump s) st₀ (path s) (month s) hInv hm2 hm1
    obtain ⟨st, hokR, hInvR, hsumR⟩ :=
      ih st₁ hInv₁ (fun s' hs' => hm s' (List.mem_cons_of_mem _ hs'))
    refine ⟨st, ?_, hInvR, ?_⟩
    · rw [List.foldlM_cons, hok]
      exact hokR
    · intro q m
      rw [hsumR q m, hsum₁ μ (w s) hz (hb s) q m]
      rw [List.filter_cons]
      by_cases hc : (decide (month s = m) && decide (q ∈ chainOf managed (path s))) = true
      · have hc' : month s = m ∧ q ∈ chainOf managed (path s) := by
          simpa using hc
        rw [if_pos hc, if_pos ⟨hc'.2, hc'.1.symm⟩]
        simp only [List.map_cons, List.sum_cons]
        ring
      · have hc' : ¬ (month s = m ∧ q ∈ chainOf managed (path s)) := by
          intro hh
          exact hc (by simp [hh.1, hh.2])
        rw [if_neg hc, if_neg (fun hh => hc' ⟨hh.2.symm, hh.1⟩)]
        ring

theorem nodup_collectStack (managed : Path → Bool) :
    ∀ (n : Nat) (p : Path), p.length ≤ n → ∀ st : AState V,
      (akeys st).Nodup → (akeys (collectStack managed p st).2).Nodup := by
  intro n
  induction n with
  | zero =>
    intro p hp st h
    have hpn : p = [] := by cases p <;> simp_all
    subst hpn
    rw [collectStack_base managed [] st (by simp)]
    exact h
  | succ n ih =>
    intro p hp st h
    by_cases hg : (p = [] || !managed p) = true
    · rw [collectStack_base managed p st hg]
      exact h
    · have hstep : (collectStack managed p st).2 =
          (collectStack managed p.dropLast
            (if (alookup st p).isSome then st else aset st p ⟨none, []⟩)).2 := by
        rw [collectStack_eq_step managed p st hg]
      rw [hstep]
      refine ih p.dropLast (dropLast_length_le p n hp) _ ?_
      by_cases hs : (alookup st p).isSome
      · rw [if_pos hs]; exact h
      · rw [if_neg hs]; exact nodup_akeys_aset st p _ h

theorem nodup_linkParents (L : List Path) :
    ∀ st : AState V, (akeys st).Nodup → (akeys (linkParents st L)).Nodup := by
  induction L with
  | nil =>
    intro st h
    rw [linkParents_nil]
    exact h
  | cons c tail ih =>
    intro st h
    cases tail with
    | nil =>
      rw [linkParents_single]
      exact h
    | cons p rest =>
      cases hl : alookup st c with
      | none =>
        have : linkParents st (c :: p :: rest) = linkParents st (p :: rest) := by
          simp only [linkParents, hl]
        rw [this]
        exact ih st h
      | some nc =>
        rw [linkParents_cons_found st c p rest nc hl]
        exact ih _ (nodup_akeys_aset st c _ h)

end TreeThms

/-! ## `get_tree_root` lemmas -/

theorem get_tree_root_eq {V : Type} (st : AState V) :
    get_tree_root st = (match (akeys st).filter
      (fun k => hierarchyDepth k = (akeys st).foldl
        (fun h k => if hierarchyDepth k < h then hierarchyDepth k else h) 10000) with
      | [r] => Except.ok r
      | _ => Except.error RErr.ambiguousRoot) := rfl

theorem foldLevel_le_init : ∀ (L : List Path) (a : Nat),
    L.foldl (fun h k => if hierarchyDepth k < h then hierarchyDepth k else h) a ≤ a := by
  intro L
  induction L with
  | nil => intro a; exact le_refl a
  | cons x tail ih =>
    intro a
    simp only [List.foldl_cons]
    by_cases hx : hierarchyDepth x < a
    · rw [if_pos hx]
      exact le_trans (ih _) (le_of_lt hx)
    · rw [if_neg hx]
      exact ih a

theorem foldLevel_le_mem : ∀ (L : List Path) (a : Nat) (k : Path), k ∈ L →
    L.foldl (fun h k => if hierarchyDepth k < h then hierarchyDepth k else h) a ≤
      hierarchyDepth k := by
  intro L
  induction L with
  | nil =>
    intro a k hk
    simp at hk
  | cons x tail ih =>
    intro a k hk
    simp only [List.foldl_cons]
    rcases List.mem_cons.1 hk with rfl | hk'
    · by_cases hx : hierarchyDepth k < a
      · rw [if_pos hx]
        exact foldLevel_le_init tail _
      · rw [if_neg hx]
        exact le_trans (foldLevel_le_init tail a) (not_lt.1 hx)
    · by_cases hx : hierarchyDepth x < a
      · rw [if_pos hx]
        exact ih _ k hk'
      · rw [if_neg hx]
        exact ih a k hk'

theorem foldLevel_mem_or : ∀ (L : List Path) (a : Nat),
    L.foldl (fun h k => if hierarchyDepth k < h then hierarchyDepth k else h) a = a ∨
      ∃ k ∈ L, L.foldl
        (fun h k => if hierarchyDepth k < h then hierarchyDepth k else h) a =
        hierarchyDepth k := by
  intro L
  induction L with
  | nil => intro a; exact Or.inl rfl
  | cons x tail ih =>
    intro a
    simp only [List.foldl_cons]
    by_cases hx : hierarchyDepth x < a
    · rw [if_pos hx]
      rcases ih (hierarchyDepth x) with h | ⟨k, hk, hke⟩
      · exact Or.inr ⟨x, List.mem_cons_self _ _, h⟩
      · exact Or.inr ⟨k, List.mem_cons_of_mem _ hk, hke⟩
    · rw [if_neg hx]
      rcases ih a with h | ⟨k, hk, hke⟩
      · exact Or.inl h
      · exact Or.inr ⟨k, List.mem_cons_of_mem _ hk, hke⟩

theorem filter_eq_singleton_of_unique {α : Type} (L : List α) (p : α → Bool) (r : α)
    (hnd : L.Nodup) (hr : r ∈ L) (hpr : p r = true)
    (hothers : ∀ k ∈ L, k ≠ r → p k = false) : L.filter p = [r] := by
  induction L with
  | nil => simp at hr
  | cons a tail ih =>
    simp only [List.nodup_cons] at hnd
    rcases List.mem_cons.1 hr with rfl | hr'
    · rw [List.filter_cons, if_pos hpr]
      have : tail.filter p = [] := by
        rw [List.filter_eq_nil_iff]
        intro k hk
        rw [hothers k (List.mem_cons_of_mem _ hk) (fun he => hnd.1 (he ▸ hk))]
        simp
      rw [this]
    · have hpa : p a = false := hothers a (List.mem_cons_self _ _)
        (fun he => hnd.1 (he ▸ hr'))
      rw [List.filter_cons, hpa]
      simp only [Bool.false_eq_true, if_false]
      exact ih hnd.2 hr' (fun k hk => hothers k (List.mem_cons_of_mem _ hk))

/-! ## Report-loop support lemmas -/

section ReportSupport

variable {α β : Type} [DecidableEq α]

theorem alookup_append (l1 l2 : List (α × β)) (k : α) :
    alookup (l1 ++ l2) k =
      match alookup l1 k with
      | some v => some v
      | none => alookup l2 k := by
  induction l1 with
  | nil => simp
  | cons kv rest ih =>
    obtain ⟨k', v'⟩ := kv
    by_cases h : k' = k
    · simp [h]
    · simp [h, ih]

theorem aset_append_of_not_mem (l : List (α × β)) (k : α) (v : β)
    (h : k ∉ akeys l) : aset l k v = l ++ [(k, v)] := by
  induction l with
  | nil => rfl
  | cons kv rest ih =>
    obtain ⟨k', v'⟩ := kv
    simp only [akeys_cons, List.mem_cons] at h
    push_neg at h
    have : ¬ k' = k := fun he => h.1 he.symm
    simp [aset, this, ih h.2]

theorem alookup_isSome_aset (l : List (α × β)) (k : α) (v : β) (lbl : α)
    (h : (alookup l lbl).isSome) : (alookup (aset l k v) lbl).isSome := by
  by_cases hk : k = lbl
  · subst hk; simp
  · rw [alookup_aset_ne l k v lbl hk]
    exact h

end ReportSupport

theorem msum_eq_of_lookup (st : AState ℚ) (c : Path) (m : TDate) (n : ANode ℚ)
    (h : alookup st c = some n) :
    msum id 0 st c m = (alookup n.monthly_sums m).getD 0 := by
  unfold msum
  rw [h]
  rfl

theorem addPrevC_self (sumV : Bool) (carry : Option Row) (row : Row)
    (lbl : String) (v : ℚ) (h : alookup row lbl = some v) :
    alookup (addPrevC sumV carry row lbl) lbl =
      some (v + (if sumV then carryVal carry lbl else 0)) := by
  cases carry with
  | none => simp [addPrevC, carryVal, h]
  | some pr =>
    cases sumV with
    | false => simp [addPrevC, carryVal, h]
    | true =>
      cases hpv : alookup pr lbl with
      | none => simp [addPrevC, carryVal, h, hpv]
      | some pv => simp [addPrevC, carryVal, h, hpv]

theorem addPrevC_ne (sumV : Bool) (carry : Option Row) (row : Row)
    (lbl lbl' : String) (h : lbl ≠ lbl') :
    alookup (addPrevC sumV carry row lbl) lbl' = alookup row lbl' := by
  cases carry with
  | none => simp [addPrevC]
  | some pr =>
    cases sumV with
    | false => simp [addPrevC]
    | true =>
      cases hpv : alookup pr lbl with
      | none => simp [addPrevC, hpv]
      | some pv =>
        cases hv : alookup row lbl with
        | none => simp [addPrevC, hpv, hv]
        | some v => simp [addPrevC, hpv, hv, alookup_aset_ne row lbl _ lbl' h]

theorem alookup_isSome_addPrevC (sumV : Bool) (carry : Option Row) (row : Row)
    (lbl lbl' : String) (h : (alookup row lbl').isSome) :
    (alookup (addPrevC sumV carry row lbl) lbl').isSome := by
  cases carry with
  | none => simpa [addPrevC] using h
  | some pr =>
    cases sumV with
    | false => simpa [addPrevC] using h
    | true =>
      cases hpv : alookup pr lbl with
      | none => simpa [addPrevC, hpv] using h
      | some pv =>
        cases hv : alookup row lbl with
        | none => simpa [addPrevC, hpv, hv] using h
        | some v =>
          have := alookup_isSome_aset row lbl (v + pv) lbl' h
          simpa [addPrevC, hpv, hv] using this

theorem akeys_addPrevC (sumV : Bool) (carry : Option Row) (row : Row)
    (lbl : String) (h : lbl ∈ akeys row) :
    akeys (addPrevC sumV carry row lbl) = akeys row := by
  cases carry with
  | none => simp [addPrevC]
  | some pr =>
    cases sumV with
    | false => simp [addPrevC]
    | true =>
      cases hpv : alookup pr lbl with
      | none => simp [addPrevC, hpv]
      | some pv =>
        cases hv : alookup row lbl with
        | none => simp [addPrevC, hpv, hv]
        | some v => simp [addPrevC, hpv, hv, akeys_aset, h]

/-! ## Month-list structure lemmas -/

theorem chain_next_lt : ∀ (rest : List TDate) (m : TDate),
    (m :: rest).Chain' (fun a b => b = a.get_next) → ∀ m' ∈ rest, m.idx < m'.idx := by
  intro rest
  induction rest with
  | nil =>
    intro m _ m' hm'
    simp at hm'
  | cons m1 rest' ih =>
    intro m hch m' hm'
    have h1 : m1 = m.get_next ∧ (m1 :: rest').Chain' (fun a b => b = a.get_next) := by
      rw [List.chain'_cons] at hch
      exact hch
    have hidx : m1.idx = m.idx + 1 := h1.1 ▸ TDate.idx_get_next m
    rcases List.mem_cons.1 hm' with rfl | h
    · omega
    · have := ih m1 h1.2 m' h
      omega

theorem monthRangeF_head : ∀ (fuel : Nat) (cur today : TDate),
    monthRangeF fuel cur today = [] ∨
      ∃ tail, monthRangeF fuel cur today = cur :: tail := by
  intro fuel cur today
  cases fuel with
  | zero => exact Or.inl rfl
  | succ f =>
    by_cases hg : (cur.in_future today || !cur.valid) = true
    · left
      simp [monthRangeF, hg]
    · right
      refine ⟨monthRangeF f cur.get_next today, ?_⟩
      simp only [monthRangeF]
      rw [if_neg hg]

theorem monthRangeF_chain : ∀ (fuel : Nat) (cur today : TDate),
    (monthRangeF fuel cur today).Chain' (fun a b => b = a.get_next) ∧
      ∀ m ∈ monthRangeF fuel cur today, m.valid = true := by
  intro fuel
  induction fuel with
  | zero =>
    intro cur today
    exact ⟨List.chain'_nil, by intro m hm; simp [monthRangeF] at hm⟩
  | succ f ih =>
    intro cur today
    by_cases hg : (cur.in_future today || !cur.valid) = true
    · constructor
      · simp [monthRangeF, hg]
      · intro m hm
        simp [monthRangeF, hg] at hm
    · have hv : cur.valid = true := by
        simp only [Bool.or_eq_true, Bool.not_eq_true'] at hg
        push_neg at hg
        cases hc : cur.valid
        · exact absurd hc hg.2
        · rfl
      have hred : monthRangeF (f + 1) cur today = cur :: monthRangeF f cur.get_next today := by
        simp only [monthRangeF]
        rw [if_neg hg]
      rw [hred]
      obtain ⟨ihc, ihv⟩ := ih cur.get_next today
      constructor
      · rw [List.chain'_cons']
        refine ⟨?_, ihc⟩
        intro b hb
        rcases monthRangeF_head f cur.get_next today with h | ⟨tail, h⟩
        · rw [h] at hb
          simp at hb
        · rw [h] at hb
          simp only [List.head?_cons, Option.mem_some_iff] at hb
          rw [← hb]
      · intro m hm
        rcases List.mem_cons.1 hm with rfl | h
        · exact hv
        · exact ihv m h

theorem monthRange_chain (cur today : TDate) :
    (monthRange cur today).Chain' (fun a b => b = a.get_next) ∧
      ∀ m ∈ monthRange cur today, m.valid = true :=
  monthRangeF_chain _ cur today

theorem get_tree_root_ok_mem {V : Type} (st : AState V) (r : Path)
    (h : get_tree_root st = .ok r) : r ∈ akeys st := by
  rw [get_tree_root_eq] at h
  cases hR : (akeys st).filter
      (fun k => decide (hierarchyDepth k = (akeys st).foldl
        (fun h k => if hierarchyDepth k < h then hierarchyDepth k else h) 10000)) with
  | nil =>
    rw [hR] at h
    exact Except.noConfusion h
  | cons a tail =>
    cases tail with
    | nil =>
      rw [hR] at h
      have : a = r := Except.ok.inj h
      subst this
      exact List.mem_of_mem_filter (hR ▸ List.mem_cons_self a [])
    | cons b tail2 =>
      rw [hR] at h
      exact Except.noConfusion h

/-! ## Equivalence of the report loop with its pure closed form -/

theorem groupValue_go (st : AState ℚ) (m : TDate) :
    ∀ (g : List Path) (acc : String × ℚ),
      (∀ c ∈ g, (alookup st c).isSome) →
      g.foldlM (fun acc c =>
        match alookup st c with
        | none => Except.error (RErr.missingAccountColumn c)
        | some n => Except.ok
            ((if acc.1 ≠ "" then acc.1 ++ "/" else acc.1) ++ lastSeg c,
              acc.2 + (alookup n.monthly_sums m).getD 0)) acc =
      .ok (g.foldl (fun a c => (if a ≠ "" then a ++ "/" else a) ++ lastSeg c) acc.1,
        acc.2 + (g.map (fun c => msum id 0 st c m)).sum) := by
  intro g
  induction g with
  | nil =>
    intro acc _
    simp only [List.foldlM_nil, List.foldl_nil, List.map_nil, List.sum_nil, add_zero]
    rfl
  | cons c rest ih =>
    intro acc hpres
    obtain ⟨n, hn⟩ := Option.isSome_iff_exists.1 (hpres c (List.mem_cons_self _ _))
    rw [List.foldlM_cons, hn]
    show rest.foldlM _ ((if acc.1 ≠ "" then acc.1 ++ "/" else acc.1) ++ lastSeg c,
      acc.2 + (alookup n.monthly_sums m).getD 0) = _
    rw [ih _ (fun c' hc' => hpres c' (List.mem_cons_of_mem _ hc'))]
    simp only [List.foldl_cons, List.map_cons, List.sum_cons]
    rw [msum_eq_of_lookup st c m n hn]
    congr 1
    simp only [Prod.mk.injEq, true_and]
    ring

theorem groupValue_ok (st : AState ℚ) (m : TDate) (g : List Path)
    (hpres : ∀ c ∈ g, (alookup st c).isSome) :
    groupValue st m g = .ok (group_label g, groupSum st g m) := by
  unfold groupValue group_label groupSum
  rw [groupValue_go st m g ("", 0) hpres]
  rw [zero_add]

theorem addPrevious_eq (sumV : Bool) (md : MData) (prev : TDate) (row : Row)
    (lbl : String) (hrow : (alookup row lbl).isSome)
    (hprev : ∀ pr, alookup md prev = some pr → (alookup pr lbl).isSome) :
    addPrevious sumV md prev row lbl =
      .ok (addPrevC sumV (alookup md prev) row lbl) := by
  cases hpr : alookup md prev with
  | none => simp [addPrevious, addPrevC, hpr]
  | some pr =>
    cases sumV with
    | false => simp [addPrevious, addPrevC, hpr]
    | true =>
      obtain ⟨pv, hpv⟩ := Option.isSome_iff_exists.1 (hprev pr hpr)
      obtain ⟨v, hv⟩ := Option.isSome_iff_exists.1 hrow
      simp [addPrevious, addPrevC, hpr, hpv, hv]

theorem except_bind_ok {ε α β : Type} (a : α) (f : α → Except ε β) :
    (Except.ok a >>= f) = f a := rfl

theorem except_bind_err {ε α β : Type} (e : ε) (f : α → Except ε β) :
    ((Except.error e : Except ε α) >>= f) = Except.error e := rfl

theorem buildFold_eq (st : AState ℚ) (sumV : Bool) (md : MData) (prev : TDate)
    (m : TDate) :
    ∀ (gs : List (List Path)) (acc : Row × ℚ),
      (∀ g ∈ gs, ∀ c ∈ g, (alookup st c).isSome) →
      (∀ g ∈ gs, ∀ pr, alookup md prev = some pr →
        (alookup pr (group_label g)).isSome) →
      gs.foldlM (fun (acc : Row × ℚ) g => do
        let gv ← groupValue st m g
        let rowA := aset acc.1 gv.1 gv.2
        let rowB ← addPrevious sumV md prev rowA gv.1
        Except.ok (rowB, acc.2 - gv.2)) acc =
      .ok (gs.foldl (fun (acc : Row × ℚ) g =>
        let rowB := addPrevC sumV (alookup md prev)
          (aset acc.1 (group_label g) (groupSum st g m)) (group_label g)
        (rowB, acc.2 - groupSum st g m)) acc) := by
  intro gs
  induction gs with
  | nil =>
    intro acc _ _
    rfl
  | cons g rest ih =>
    intro acc hcols hplab
    rw [List.foldlM_cons, groupValue_ok st m g (hcols g (List.mem_cons_self _ _))]
    simp only [except_bind_ok]
    rw [addPrevious_eq sumV md prev _ (group_label g)
      (by simp) (hplab g (List.mem_cons_self _ _))]
    simp only [except_bind_ok]
    rw [ih _ (fun g' hg' => hcols g' (List.mem_cons_of_mem _ hg'))
      (fun g' hg' => hplab g' (List.mem_cons_of_mem _ hg'))]
    rw [List.foldl_cons]

theorem buildMonth_eq (st : AState ℚ) (root : Path) (al : String)
    (specs : List (List Path)) (sumV : Bool) (md : MData) (m : TDate)
    (hroot : (alookup st root).isSome)
    (hcols : ∀ g ∈ specs, ∀ c ∈ g, (alookup st c).isSome)
    (hprevlab : ∀ pr, alookup md m.get_previous = some pr →
      (alookup pr (total_label al specs)).isSome ∧
      (∀ g ∈ specs, (alookup pr (group_label g)).isSome) ∧
      (specs ≠ [] → (alookup pr (other_label al)).isSome)) :
    buildMonth st root al specs sumV md m =
      .ok (builtRow st root al specs sumV (alookup md m.get_previous) m) := by
  obtain ⟨n, hn⟩ := Option.isSome_iff_exists.1 hroot
  have htot : msum id 0 st root m = (alookup n.monthly_sums m).getD 0 :=
    msum_eq_of_lookup st root m n hn
  unfold buildMonth builtRow
  rw [hn]
  simp only [except_bind_ok]
  rw [htot]
  rw [addPrevious_eq sumV md m.get_previous _ (total_label al specs)
    (by simp) (fun pr hpr => (hprevlab pr hpr).1)]
  simp only [except_bind_ok]
  by_cases hsp : specs = []
  · rw [if_pos hsp, if_pos hsp]
  · rw [if_neg hsp, if_neg hsp]
    rw [buildFold_eq st sumV md m.get_previous m specs _ hcols
      (fun g hg pr hpr => (hprevlab pr hpr).2.1 g hg)]
    simp only [except_bind_ok]
    rw [addPrevious_eq sumV md m.get_previous _ (other_label al)
      (by simp) (fun pr hpr => (hprevlab pr hpr).2.2 hsp)]
    rfl

theorem labels_facts (al : String) (specs : List (List Path))
    (hN : (total_label al specs :: specs.map group_label ++ [other_label al]).Nodup) :
    total_label al specs ∉ specs.map group_label ∧
    total_label al specs ≠ other_label al ∧
    (specs.map group_label).Nodup ∧
    other_label al ∉ specs.map group_label := by
  have h1 : (total_label al specs :: specs.map group_label).Nodup :=
    hN.of_append_left
  have hdisj : (total_label al specs :: specs.map group_label).Disjoint
      [other_label al] := List.disjoint_of_nodup_append hN
  refine ⟨(List.nodup_cons.1 h1).1, ?_, (List.nodup_cons.1 h1).2, ?_⟩
  · intro he
    exact hdisj (List.mem_cons_self _ _) (by simp [he])
  · intro hm
    exact hdisj (List.mem_cons_of_mem _ hm) (List.mem_singleton_self _)

theorem bfold_snd (st : AState ℚ) (sumV : Bool) (carry : Option Row) (m : TDate) :
    ∀ (gs : List (List Path)) (acc : Row × ℚ),
      (gs.foldl (fun (acc : Row × ℚ) g =>
        (addPrevC sumV carry (aset acc.1 (group_label g) (groupSum st g m))
          (group_label g), acc.2 - groupSum st g m)) acc).2 =
      acc.2 - (gs.map (fun g => groupSum st g m)).sum := by
  intro gs
  induction gs with
  | nil =>
    intro acc
    simp
  | cons g rest ih =>
    intro acc
    simp only [List.foldl_cons, List.map_cons, List.sum_cons]
    rw [ih]
    ring

theorem bfold_lookup_not_mem (st : AState ℚ) (sumV : Bool) (carry : Option Row)
    (m : TDate) :
    ∀ (gs : List (List Path)) (acc : Row × ℚ) (l : String),
      l ∉ gs.map group_label →
      alookup (gs.foldl (fun (acc : Row × ℚ) g =>
        (addPrevC sumV carry (aset acc.1 (group_label g) (groupSum st g m))
          (group_label g), acc.2 - groupSum st g m)) acc).1 l =
      alookup acc.1 l := by
  intro gs
  induction gs with
  | nil =>
    intro acc l _
    rfl
  | cons g rest ih =>
    intro acc l hl
    simp only [List.map_cons, List.mem_cons, not_or] at hl
    simp only [List.foldl_cons]
    rw [ih _ l hl.2]
    rw [addPrevC_ne sumV carry _ (group_label g) l (fun he => hl.1 he.symm)]
    rw [alookup_aset_ne _ _ _ _ (fun he => hl.1 he.symm)]

theorem bfold_lookup_mem (st : AState ℚ) (sumV : Bool) (carry : Option Row)
    (m : TDate) :
    ∀ (gs : List (List Path)) (acc : Row × ℚ) (g : List Path),
      g ∈ gs → (gs.map group_label).Nodup →
      alookup (gs.foldl (fun (acc : Row × ℚ) g =>
        (addPrevC sumV carry (aset acc.1 (group_label g) (groupSum st g m))
          (group_label g), acc.2 - groupSum st g m)) acc).1 (group_label g) =
      some (groupSum st g m +
        (if sumV then carryVal carry (group_label g) else 0)) := by
  intro gs
  induction gs with
  | nil =>
    intro acc g hg _
    simp at hg
  | cons g0 rest ih =>
    intro acc g hg hnd
    simp only [List.map_cons, List.nodup_cons] at hnd
    simp only [List.foldl_cons]
    rcases List.mem_cons.1 hg with hg0 | hgr
    · subst hg0
      rw [bfold_lookup_not_mem st sumV carry m rest _ (group_label g) hnd.1]
      exact addPrevC_self sumV carry _ _ _ (alookup_aset_self _ _ _)
    · exact ih _ g hgr hnd.2

theorem bfold_isSome (st : AState ℚ) (sumV : Bool) (carry : Option Row)
    (m : TDate) :
    ∀ (gs : List (List Path)) (acc : Row × ℚ) (l : String),
      (alookup acc.1 l).isSome →
      (alookup (gs.foldl (fun (acc : Row × ℚ) g =>
        (addPrevC sumV carry (aset acc.1 (group_label g) (groupSum st g m))
          (group_label g), acc.2 - groupSum st g m)) acc).1 l).isSome := by
  intro gs
  induction gs with
  | nil =>
    intro acc l h
    exact h
  | cons g rest ih =>
    intro acc l h
    simp only [List.foldl_cons]
    exact ih _ l (alookup_isSome_addPrevC _ _ _ _ _
      (alookup_isSome_aset _ _ _ _ h))

theorem bfold_mem_isSome (st : AState ℚ) (sumV : Bool) (carry : Option Row)
    (m : TDate) :
    ∀ (gs : List (List Path)) (acc : Row × ℚ) (g : List Path),
      g ∈ gs →
      (alookup (gs.foldl (fun (acc : Row × ℚ) g =>
        (addPrevC sumV carry (aset acc.1 (group_label g) (groupSum st g m))
          (group_label g), acc.2 - groupSum st g m)) acc).1 (group_label g)).isSome := by
  intro gs
  induction gs with
  | nil =>
    intro acc g hg
    simp at hg
  | cons g0 rest ih =>
    intro acc g hg
    simp only [List.foldl_cons]
    rcases List.mem_cons.1 hg with hg0 | hgr
    · subst hg0
      exact bfold_isSome st sumV carry m rest _ (group_label g)
        (alookup_isSome_addPrevC _ _ _ _ _ (by simp))
    · exact ih _ g hgr

theorem bfold_akeys (st : AState ℚ) (sumV : Bool) (carry : Option Row)
    (m : TDate) :
    ∀ (gs : List (List Path)) (acc : Row × ℚ),
      (∀ g ∈ gs, group_label g ∉ akeys acc.1) →
      (gs.map group_label).Nodup →
      akeys (gs.foldl (fun (acc : Row × ℚ) g =>
        (addPrevC sumV carry (aset acc.1 (group_label g) (groupSum st g m))
          (group_label g), acc.2 - groupSum st g m)) acc).1 =
      akeys acc.1 ++ gs.map group_label := by
  intro gs
  induction gs with
  | nil =>
    intro acc _ _
    simp
  | cons g0 rest ih =>
    intro acc hfresh hnd
    simp only [List.map_cons, List.nodup_cons] at hnd
    simp only [List.foldl_cons, List.map_cons]
    rw [ih _ ?_ hnd.2]
    · rw [akeys_addPrevC _ _ _ _ ((mem_akeys_iff_isSome _ _).2 (by simp))]
      rw [akeys_aset, if_neg (hfresh g0 (List.mem_cons_self _ _))]
      simp
    · intro g hg
      rw [akeys_addPrevC _ _ _ _ ((mem_akeys_iff_isSome _ _).2 (by simp))]
      rw [akeys_aset, if_neg (hfresh g0 (List.mem_cons_self _ _))]
      simp only [List.mem_append, List.mem_singleton, not_or]
      refine ⟨hfresh g (List.mem_cons_of_mem _ hg), fun he => hnd.1 ?_⟩
      rw [← he]
      exact List.mem_map_of_mem _ hg

theorem builtRow_total (st : AState ℚ) (root : Path) (al : String)
    (specs : List (List Path)) (sumV : Bool) (carry : Option Row) (m : TDate)
    (hN : (total_label al specs :: specs.map group_label ++
      [other_label al]).Nodup) :
    alookup (builtRow st root al specs sumV carry m) (total_label al specs) =
      some (msum id 0 st root m +
        (if sumV then carryVal carry (total_label al specs) else 0)) := by
  obtain ⟨h1, h2, _, _⟩ := labels_facts al specs hN
  simp only [builtRow]
  by_cases hsp : specs = []
  · rw [if_pos hsp]
    exact addPrevC_self sumV carry _ _ _ (alookup_aset_self _ _ _)
  · rw [if_neg hsp]
    rw [addPrevC_ne sumV carry _ (other_label al) (total_label al specs)
      (Ne.symm h2)]
    rw [alookup_aset_ne _ _ _ _ (Ne.symm h2)]
    rw [bfold_lookup_not_mem st sumV carry m specs _ (total_label al specs) h1]
    exact addPrevC_self sumV carry _ _ _ (alookup_aset_self _ _ _)

theorem builtRow_group (st : AState ℚ) (root : Path) (al : String)
    (specs : List (List Path)) (sumV : Bool) (carry : Option Row) (m : TDate)
    (g : List Path) (hg : g ∈ specs)
    (hN : (total_label al specs :: specs.map group_label ++
      [other_label al]).Nodup) :
    alookup (builtRow st root al specs sumV carry m) (group_label g) =
      some (groupSum st g m +
        (if sumV then carryVal carry (group_label g) else 0)) := by
  obtain ⟨_, _, h3, h4⟩ := labels_facts al specs hN
  have hsp : specs ≠ [] := by
    rintro rfl
    simp at hg
  have hglo : group_label g ≠ other_label al := by
    intro he
    exact h4 (he ▸ List.mem_map_of_mem _ hg)
  simp only [builtRow]
  rw [if_neg hsp]
  rw [addPrevC_ne sumV carry _ (other_label al) (group_label g) (Ne.symm hglo)]
  rw [alookup_aset_ne _ _ _ _ (Ne.symm hglo)]
  exact bfold_lookup_mem st sumV carry m specs _ g hg h3

theorem builtRow_other (st : AState ℚ) (root : Path) (al : String)
    (specs : List (List Path)) (sumV : Bool) (carry : Option Row) (m : TDate)
    (hsp : specs ≠ []) :
    alookup (builtRow st root al specs sumV carry m) (other_label al) =
      some ((msum id 0 st root m -
          (specs.map (fun g => groupSum st g m)).sum) +
        (if sumV then carryVal carry (other_label al) else 0)) := by
  simp only [builtRow]
  rw [if_neg hsp]
  rw [addPrevC_self sumV carry _ _ _ (alookup_aset_self _ _ _)]
  rw [bfold_snd]

theorem builtRow_isSome_total (st : AState ℚ) (root : Path) (al : String)
    (specs : List (List Path)) (sumV : Bool) (carry : Option Row) (m : TDate) :
    (alookup (builtRow st root al specs sumV carry m)
      (total_label al specs)).isSome := by
  simp only [builtRow]
  by_cases hsp : specs = []
  · rw [if_pos hsp]
    exact alookup_isSome_addPrevC _ _ _ _ _ (by simp)
  · rw [if_neg hsp]
    exact alookup_isSome_addPrevC _ _ _ _ _ (alookup_isSome_aset _ _ _ _
      (bfold_isSome st sumV carry m specs _ _
        (alookup_isSome_addPrevC _ _ _ _ _ (by simp))))

theorem builtRow_isSome_group (st : AState ℚ) (root : Path) (al : String)
    (specs : List (List Path)) (sumV : Bool) (carry : Option Row) (m : TDate)
    (g : List Path) (hg : g ∈ specs) :
    (alookup (builtRow st root al specs sumV carry m)
      (group_label g)).isSome := by
  have hsp : specs ≠ [] := by
    rintro rfl
    simp at hg
  simp only [builtRow]
  rw [if_neg hsp]
  exact alookup_isSome_addPrevC _ _ _ _ _ (alookup_isSome_aset _ _ _ _
    (bfold_mem_isSome st sumV carry m specs _ g hg))

theorem builtRow_isSome_other (st : AState ℚ) (root : Path) (al : String)
    (specs : List (List Path)) (sumV : Bool) (carry : Option Row) (m : TDate)
    (hsp : specs ≠ []) :
    (alookup (builtRow st root al specs sumV carry m)
      (other_label al)).isSome := by
  simp only [builtRow]
  rw [if_neg hsp]
  exact alookup_isSome_addPrevC _ _ _ _ _ (by simp)

theorem akeys_builtRow (st : AState ℚ) (root : Path) (al : String)
    (specs : List (List Path)) (sumV : Bool) (carry : Option Row) (m : TDate)
    (hsp : specs ≠ [])
    (hN : (total_label al specs :: specs.map group_label ++
      [other_label al]).Nodup) :
    akeys (builtRow st root al specs sumV carry m) =
      total_label al specs :: specs.map group_label ++ [other_label al] := by
  obtain ⟨h1, h2, h3, h4⟩ := labels_facts al specs hN
  simp only [builtRow]
  rw [if_neg hsp]
  rw [akeys_addPrevC _ _ _ _ ((mem_akeys_iff_isSome _ _).2 (by simp))]
  have hrow1 : akeys (addPrevC sumV carry
      (aset ([] : Row) (total_label al specs) (msum id 0 st root m))
      (total_label al specs)) = [total_label al specs] := by
    rw [akeys_addPrevC _ _ _ _ ((mem_akeys_iff_isSome _ _).2 (by simp))]
    rfl
  have hfold : akeys (specs.foldl (fun (acc : Row × ℚ) g =>
      (addPrevC sumV carry (aset acc.1 (group_label g) (groupSum st g m))
        (group_label g), acc.2 - groupSum st g m))
      (addPrevC sumV carry (aset ([] : Row) (total_label al specs)
        (msum id 0 st root m)) (total_label al specs),
        msum id 0 st root m)).1 =
      [total_label al specs] ++ specs.map group_label := by
    rw [bfold_akeys st sumV carry m specs _ ?_ h3, hrow1]
    intro g hg
    rw [hrow1]
    simp only [List.mem_singleton]
    intro he
    exact h1 (he ▸ List.mem_map_of_mem _ hg)
  rw [akeys_aset, hfold, if_neg ?_]
  · simp
  · simp only [List.mem_append, List.mem_singleton, not_or]
    exact ⟨fun he => h2 he.symm, h4⟩

theorem reportLoop_ok (st : AState ℚ) (root : Path) (al : String)
    (specs : List (List Path)) (sumV : Bool) :
    ∀ (ms : List TDate) (md : MData),
      (alookup st root).isSome →
      (∀ g ∈ specs, ∀ c ∈ g, (alookup st c).isSome) →
      (∀ m pr, alookup md m = some pr →
        (alookup pr (total_label al specs)).isSome ∧
        (∀ g ∈ specs, (alookup pr (group_label g)).isSome) ∧
        (specs ≠ [] → (alookup pr (other_label al)).isSome)) →
      reportLoop st root al specs sumV ms md =
        .ok (reportRowsP st root al specs sumV ms md) := by
  intro ms
  induction ms with
  | nil =>
    intro md _ _ _
    rfl
  | cons m rest ih =>
    intro md hroot hcols hmd
    simp only [reportLoop, reportRowsP]
    rw [buildMonth_eq st root al specs sumV md m hroot hcols
      (fun pr hpr => hmd m.get_previous pr hpr)]
    simp only [except_bind_ok]
    refine ih _ hroot hcols ?_
    intro m' pr hpr
    rw [alookup_aset] at hpr
    by_cases hm' : m = m'
    · rw [if_pos hm'] at hpr
      obtain rfl := Option.some.inj hpr
      exact ⟨builtRow_isSome_total st root al specs sumV _ m,
        fun g hg => builtRow_isSome_group st root al specs sumV _ m g hg,
        fun hsp => builtRow_isSome_other st root al specs sumV _ m hsp⟩
    · rw [if_neg hm'] at hpr
      exact hmd m' pr hpr

theorem chain_nodup : ∀ (ms : List TDate),
    ms.Chain' (fun a b => b = a.get_next) → ms.Nodup := by
  intro ms
  induction ms with
  | nil =>
    intro _
    exact List.nodup_nil
  | cons m rest ih =>
    intro hchain
    rw [List.nodup_cons]
    refine ⟨fun hm => ?_, ih hchain.tail⟩
    have := chain_next_lt rest m hchain m hm
    omega

theorem reportRowsP_append (st : AState ℚ) (root : Path) (al : String)
    (specs : List (List Path)) (sumV : Bool) :
    ∀ (ms : List TDate) (md : MData) (carry : Option Row),
      ms.Chain' (fun a b => b = a.get_next) →
      (∀ m ∈ ms, m.valid = true) →
      (∀ m ∈ ms, m ∉ akeys md) →
      (∀ m0 rest, ms = m0 :: rest → alookup md m0.get_previous = carry) →
      reportRowsP st root al specs sumV ms md =
        md ++ specRows st root al specs sumV ms carry := by
  intro ms
  induction ms with
  | nil =>
    intro md carry _ _ _ _
    simp [reportRowsP, specRows]
  | cons m rest ih =>
    intro md carry hchain hvalid hfresh hhead
    have hcarry : alookup md m.get_previous = carry := hhead m rest rfl
    have hfm : m ∉ akeys md := hfresh m (List.mem_cons_self _ _)
    simp only [reportRowsP, specRows]
    rw [hcarry]
    rw [aset_append_of_not_mem md m _ hfm]
    rw [ih (md ++ [(m, builtRow st root al specs sumV carry m)]) (some
      (builtRow st root al specs sumV carry m)) hchain.tail
      (fun m' hm' => hvalid m' (List.mem_cons_of_mem _ hm')) ?_ ?_]
    · rw [List.append_assoc]
      rfl
    · intro m' hm'
      simp only [akeys, List.map_append, List.mem_append, List.map_cons,
        List.map_nil, List.mem_singleton, not_or]
      refine ⟨hfresh m' (List.mem_cons_of_mem _ hm'), fun he => ?_⟩
      have := chain_next_lt rest m hchain m' hm'
      rw [he] at this
      omega
    · intro m1 rest' hrest
      have hm1 : m1 = m.get_next := by
        subst hrest
        exact (List.chain'_cons.1 hchain).1
      have hmv : m.valid = true := hvalid m (List.mem_cons_self _ _)
      rw [hm1, TDate.get_previous_get_next m hmv]
      rw [alookup_append]
      have : alookup md m = none := by
        cases ho : alookup md m with
        | none => rfl
        | some v =>
          exact absurd ((mem_akeys_iff_isSome md m).2 (by rw [ho]; rfl)) hfm
      rw [this]
      simp

theorem alookup_mem {α β : Type} [DecidableEq α] :
    ∀ (l : List (α × β)) (a : α) (b : β), alookup l a = some b → (a, b) ∈ l := by
  intro l
  induction l with
  | nil =>
    intro a b h
    simp at h
  | cons kv rest ih =>
    intro a b h
    obtain ⟨k, v⟩ := kv
    rw [alookup_cons] at h
    by_cases hk : k = a
    · rw [if_pos hk] at h
      obtain rfl := Option.some.inj h
      subst hk
      exact List.mem_cons_self _ _
    · rw [if_neg hk] at h
      exact List.mem_cons_of_mem _ (ih a b h)

theorem alookup_map_snd {α β γ : Type} [DecidableEq α] (f : β → γ) :
    ∀ (l : List (α × β)) (a : α),
      alookup (l.map (fun e => (e.1, f e.2))) a = (alookup l a).map f := by
  intro l
  induction l with
  | nil =>
    intro a
    rfl
  | cons kv rest ih =>
    intro a
    obtain ⟨k, v⟩ := kv
    simp only [List.map_cons, alookup_cons]
    by_cases hk : k = a
    · rw [if_pos hk, if_pos hk]
      rfl
    · rw [if_neg hk, if_neg hk]
      exact ih a

theorem alookup_map_adel (l : List (TDate × Row)) (lbl : String) (a : TDate) :
    alookup (l.map (fun e => (e.1, adel e.2 lbl))) a =
      (alookup l a).map (fun r => adel r lbl) :=
  alookup_map_snd (fun r => adel r lbl) l a

theorem alookup_adel_ne {α β : Type} [DecidableEq α] :
    ∀ (l : List (α × β)) (a a' : α), a ≠ a' →
      alookup (adel l a) a' = alookup l a' := by
  intro l
  induction l with
  | nil =>
    intro a a' _
    rfl
  | cons kv rest ih =>
    intro a a' hne
    obtain ⟨k, v⟩ := kv
    simp only [adel]
    by_cases hk : k = a
    · rw [if_pos hk, alookup_cons, if_neg (hk ▸ hne)]
    · rw [if_neg hk, alookup_cons, alookup_cons, ih a a' hne]

theorem akeys_specRows (st : AState ℚ) (root : Path) (al : String)
    (specs : List (List Path)) (sumV : Bool) :
    ∀ (ms : List TDate) (carry : Option Row),
      akeys (specRows st root al specs sumV ms carry) = ms := by
  intro ms
  induction ms with
  | nil =>
    intro carry
    rfl
  | cons m rest ih =>
    intro carry
    simp only [specRows, akeys_cons]
    rw [ih]

theorem specRows_snd_mem (st : AState ℚ) (root : Path) (al : String)
    (specs : List (List Path)) (sumV : Bool) :
    ∀ (ms : List TDate) (carry : Option Row) (m : TDate) (row : Row),
      (m, row) ∈ specRows st root al specs sumV ms carry →
      ∃ c, row = builtRow st root al specs sumV c m := by
  intro ms
  induction ms with
  | nil =>
    intro carry m row h
    simp [specRows] at h
  | cons m0 rest ih =>
    intro carry m row h
    simp only [specRows, List.mem_cons] at h
    rcases h with h | h
    · obtain ⟨rfl, rfl⟩ := Prod.mk.injEq .. ▸ h
      exact ⟨carry, rfl⟩
    · exact ih _ m row h

theorem sum_map_add {α : Type} (l : List α) (f g : α → ℚ) :
    (l.map (fun x => f x + g x)).sum = (l.map f).sum + (l.map g).sum := by
  induction l with
  | nil => simp
  | cons x rest ih =>
    simp only [List.map_cons, List.sum_cons]
    rw [ih]
    ring

theorem addPrevious_nil (sumV : Bool) (prev : TDate) (row : Row) (lbl : String) :
    addPrevious sumV ([] : MData) prev row lbl = .ok row := by
  simp [addPrevious]

theorem allRowsZero_go (lbl : String) :
    ∀ (md : MData) (acc : Bool),
      (∀ e ∈ md, (alookup e.2 lbl).isSome) →
      md.foldlM (fun acc e =>
        match alookup e.2 lbl with
        | none => Except.error RErr.keyMissing
        | some v => Except.ok (acc && decide (v = (0 : ℚ)))) acc =
      .ok (acc && md.all (fun e => decide ((alookup e.2 lbl).getD 0 = 0))) := by
  intro md
  induction md with
  | nil =>
    intro acc _
    simp only [List.foldlM_nil, List.all_nil, Bool.and_true]
    rfl
  | cons e rest ih =>
    intro acc hall
    have he : (alookup e.2 lbl).isSome := hall e (List.mem_cons_self _ _)
    obtain ⟨v, hv⟩ := Option.isSome_iff_exists.1 he
    rw [List.foldlM_cons, hv]
    simp only [except_bind_ok]
    rw [ih _ (fun e' he' => hall e' (List.mem_cons_of_mem _ he'))]
    simp only [List.all_cons, hv, Option.getD_some]
    rw [Bool.and_assoc]

theorem allRowsZero_ok (md : MData) (lbl : String)
    (h : ∀ e ∈ md, (alookup e.2 lbl).isSome) :
    allRowsZero md lbl =
      .ok (md.all (fun e => decide ((alookup e.2 lbl).getD 0 = 0))) := by
  unfold allRowsZero
  rw [allRowsZero_go lbl md true h]
  simp

theorem grd_rows (st : AState ℚ) (root : Path) (al : String)
    (specs : List (List Path)) (sumV : Bool) (start today : TDate)
    (hroot : get_tree_root st = .ok root)
    (hcols : ∀ g ∈ specs, ∀ c ∈ g, (alookup st c).isSome) :
    reportLoop st root al specs sumV (monthRange start today) [] =
      .ok (specRows st root al specs sumV (monthRange start today) none) := by
  have hst : (alookup st root).isSome :=
    (mem_akeys_iff_isSome st root).1 (get_tree_root_ok_mem st root hroot)
  rw [reportLoop_ok st root al specs sumV _ [] hst hcols
    (by intro m pr h; simp at h)]
  congr 1
  rw [reportRowsP_append st root al specs sumV _ [] none
    (monthRange_chain start today).1
    (fun m hm => (monthRange_chain start today).2 m hm)
    (by intro m _; simp [akeys]) (by intro m0 r _; rfl)]
  simp

theorem specRows_other_isSome (st : AState ℚ) (root : Path) (al : String)
    (specs : List (List Path)) (sumV : Bool) (ms : List TDate)
    (carry : Option Row) (hsp : specs ≠ []) :
    ∀ e ∈ specRows st root al specs sumV ms carry,
      (alookup e.2 (other_label al)).isSome := by
  intro e he
  obtain ⟨m, row⟩ := e
  obtain ⟨c, rfl⟩ := specRows_snd_mem st root al specs sumV ms carry m row he
  exact builtRow_isSome_other st root al specs sumV c m hsp

theorem grd_skip (st : AState ℚ) (al : String) (start today : TDate)
    (headers : List String) (specs : List (List Path)) (sumV : Bool)
    (root : Path) (hroot : get_tree_root st = .ok root)
    (hcols : ∀ g ∈ specs, ∀ c ∈ g, (alookup st c).isSome)
    (hc : ¬(specs ≠ [] ∧ monthRange start today ≠ [])) :
    get_report_data st al start today headers specs sumV =
      .ok (specRows st root al specs sumV (monthRange start today) none,
        headers) := by
  unfold get_report_data
  rw [hroot]
  simp only [except_bind_ok]
  rw [grd_rows st root al specs sumV start today hroot hcols]
  simp only [except_bind_ok]
  rw [if_neg hc]

theorem grd_keep (st : AState ℚ) (al : String) (start today : TDate)
    (headers : List String) (specs : List (List Path)) (sumV : Bool)
    (root : Path) (hroot : get_tree_root st = .ok root)
    (hcols : ∀ g ∈ specs, ∀ c ∈ g, (alookup st c).isSome)
    (hsp : specs ≠ []) (hms : monthRange start today ≠ [])
    (hz : (specRows st root al specs sumV (monthRange start today) none).all
      (fun e => decide ((alookup e.2 (other_label al)).getD 0 = 0)) = false) :
    get_report_data st al start today headers specs sumV =
      .ok (specRows st root al specs sumV (monthRange start today) none,
        headers) := by
  unfold get_report_data
  rw [hroot]
  simp only [except_bind_ok]
  rw [grd_rows st root al specs sumV start today hroot hcols]
  simp only [except_bind_ok]
  rw [if_pos ⟨hsp, hms⟩]
  rw [allRowsZero_ok _ _ (specRows_other_isSome st root al specs sumV _ none hsp)]
  simp only [except_bind_ok]
  rw [hz]
  rfl

theorem grd_remove (st : AState ℚ) (al : String) (start today : TDate)
    (headers : List String) (specs : List (List Path)) (sumV : Bool)
    (root : Path) (hroot : get_tree_root st = .ok root)
    (hcols : ∀ g ∈ specs, ∀ c ∈ g, (alookup st c).isSome)
    (hsp : specs ≠ []) (hms : monthRange start today ≠ [])
    (hz : (specRows st root al specs sumV (monthRange start today) none).all
      (fun e => decide ((alookup e.2 (other_label al)).getD 0 = 0)) = true)
    (hh : other_label al ∈ headers) :
    get_report_data st al start today headers specs sumV =
      .ok ((specRows st root al specs sumV (monthRange start today) none).map
          (fun e => (e.1, adel e.2 (other_label al))),
        headers.erase (other_label al)) := by
  unfold get_report_data
  rw [hroot]
  simp only [except_bind_ok]
  rw [grd_rows st root al specs sumV start today hroot hcols]
  simp only [except_bind_ok]
  rw [if_pos ⟨hsp, hms⟩]
  rw [allRowsZero_ok _ _ (specRows_other_isSome st root al specs sumV _ none hsp)]
  simp only [except_bind_ok]
  rw [hz]
  rw [if_pos rfl, if_pos hh]

theorem list_map_congr {α β : Type} (l : List α) (f g : α → β)
    (h : ∀ a ∈ l, f a = g a) : l.map f = l.map g := by
  induction l with
  | nil => rfl
  | cons x rest ih =>
    simp only [List.map_cons]
    rw [h x (List.mem_cons_self _ _),
      ih (fun a ha => h a (List.mem_cons_of_mem _ ha))]

theorem specRows_identity (st : AState ℚ) (root : Path) (al : String)
    (specs : List (List Path)) (sumV : Bool) (hsp : specs ≠ [])
    (hN : (total_label al specs :: specs.map group_label ++
      [other_label al]).Nodup) :
    ∀ (ms : List TDate) (carry : Option Row),
      (∀ pr, carry = some pr →
        (alookup pr (total_label al specs)).getD 0 =
          (specs.map (fun g => (alookup pr (group_label g)).getD 0)).sum +
            (alookup pr (other_label al)).getD 0) →
      ∀ m row, (m, row) ∈ specRows st root al specs sumV ms carry →
        (alookup row (total_label al specs)).getD 0 =
          (specs.map (fun g => (alookup row (group_label g)).getD 0)).sum +
            (alookup row (other_label al)).getD 0 := by
  intro ms
  induction ms with
  | nil =>
    intro carry _ m row h
    simp [specRows] at h
  | cons m0 rest ih =>
    intro carry hcarry m row h
    have hrow0 : (alookup (builtRow st root al specs sumV carry m0)
        (total_label al specs)).getD 0 =
        (specs.map (fun g => (alookup (builtRow st root al specs sumV carry m0)
          (group_label g)).getD 0)).sum +
          (alookup (builtRow st root al specs sumV carry m0)
            (other_label al)).getD 0 := by
      have hmap : specs.map (fun g =>
          (alookup (builtRow st root al specs sumV carry m0)
            (group_label g)).getD 0) =
          specs.map (fun g => groupSum st g m0 +
            (if sumV then carryVal carry (group_label g) else 0)) :=
        list_map_congr _ _ _ (fun g hg => by
          rw [builtRow_group st root al specs sumV carry m0 g hg hN]
          rfl)
      rw [builtRow_total st root al specs sumV carry m0 hN,
        builtRow_other st root al specs sumV carry m0 hsp, hmap,
        Option.getD_some, Option.getD_some, sum_map_add]
      cases sumV with
      | false =>
        simp
      | true =>
        simp only [if_true]
        cases carry with
        | none =>
          simp [carryVal]
        | some pr =>
          have hpr := hcarry pr rfl
          simp only [carryVal]
          rw [hpr]
          ring
    simp only [specRows, List.mem_cons] at h
    rcases h with h | h
    · obtain ⟨rfl, rfl⟩ := Prod.mk.injEq .. ▸ h
      exact hrow0
    · exact ih (some (builtRow st root al specs sumV carry m0))
        (fun pr hpr => by
          obtain rfl := Option.some.inj hpr
          exact hrow0) m row h

theorem grd_noheader (st : AState ℚ) (al : String) (start today : TDate)
    (headers : List String) (specs : List (List Path)) (sumV : Bool)
    (root : Path) (hroot : get_tree_root st = .ok root)
    (hcols : ∀ g ∈ specs, ∀ c ∈ g, (alookup st c).isSome)
    (hsp : specs ≠ []) (hms : monthRange start today ≠ [])
    (hz : (specRows st root al specs sumV (monthRange start today) none).all
      (fun e => decide ((alookup e.2 (other_label al)).getD 0 = 0)) = true)
    (hh : other_label al ∉ headers) :
    get_report_data st al start today headers specs sumV =
      .error (.missingHeader (other_label al)) := by
  unfold get_report_data
  rw [hroot]
  simp only [except_bind_ok]
  rw [grd_rows st root al specs sumV start today hroot hcols]
  simp only [except_bind_ok]
  rw [if_pos ⟨hsp, hms⟩]
  rw [allRowsZero_ok _ _ (specRows_other_isSome st root al specs sumV _ none hsp)]
  simp only [except_bind_ok]
  rw [hz]
  rw [if_pos rfl, if_neg hh]

theorem gv_go_err (st : AState ℚ) (m : TDate) :
    ∀ (g : List Path) (acc : String × ℚ),
      (∃ c ∈ g, alookup st c = none) →
      ∃ c, c ∈ g ∧ alookup st c = none ∧
        g.foldlM (fun acc c =>
          match alookup st c with
          | none => Except.error (RErr.missingAccountColumn c)
          | some n => Except.ok
              ((if acc.1 ≠ "" then acc.1 ++ "/" else acc.1) ++ lastSeg c,
                acc.2 + (alookup n.monthly_sums m).getD 0)) acc =
        .error (.missingAccountColumn c) := by
  intro g
  induction g with
  | nil =>
    intro acc hex
    simp at hex
  | cons c0 rest ih =>
    intro acc hex
    cases h0 : alookup st c0 with
    | none =>
      refine ⟨c0, List.mem_cons_self _ _, h0, ?_⟩
      rw [List.foldlM_cons]
      simp only [h0, except_bind_err]
    | some n =>
      obtain ⟨c, hc, hcnone⟩ := hex
      have hcr : c ∈ rest := by
        rcases List.mem_cons.1 hc with rfl | hcr
        · rw [h0] at hcnone
          cases hcnone
        · exact hcr
      obtain ⟨c', hc', hc'none, hfold⟩ := ih _ ⟨c, hcr, hcnone⟩
      refine ⟨c', List.mem_cons_of_mem _ hc', hc'none, ?_⟩
      rw [List.foldlM_cons]
      simp only [h0, except_bind_ok]
      exact hfold

theorem groupValue_err (st : AState ℚ) (m : TDate) (g : List Path)
    (hex : ∃ c ∈ g, alookup st c = none) :
    ∃ c, c ∈ g ∧ alookup st c = none ∧
      groupValue st m g = .error (.missingAccountColumn c) := by
  obtain ⟨c, hc, hcnone, hfold⟩ := gv_go_err st m g ("", 0) hex
  exact ⟨c, hc, hcnone, hfold⟩

theorem bfoldM_err (st : AState ℚ) (sumV : Bool) (m : TDate) :
    ∀ (gs : List (List Path)) (acc : Row × ℚ),
      (∃ g ∈ gs, ∃ c ∈ g, alookup st c = none) →
      ∃ c, (∃ g ∈ gs, c ∈ g) ∧ alookup st c = none ∧
        gs.foldlM (fun (acc : Row × ℚ) g => do
          let gv ← groupValue st m g
          let rowA := aset acc.1 gv.1 gv.2
          let rowB ← addPrevious sumV ([] : MData) m.get_previous rowA gv.1
          Except.ok (rowB, acc.2 - gv.2)) acc =
        .error (.missingAccountColumn c) := by
  intro gs
  induction gs with
  | nil =>
    intro acc hex
    simp at hex
  | cons g0 rest ih =>
    intro acc hex
    by_cases hg0 : ∃ c ∈ g0, alookup st c = none
    · obtain ⟨c, hc, hcnone, hgv⟩ := groupValue_err st m g0 hg0
      refine ⟨c, ⟨g0, List.mem_cons_self _ _, hc⟩, hcnone, ?_⟩
      rw [List.foldlM_cons]
      simp only [hgv, except_bind_err]
    · have hpres : ∀ c ∈ g0, (alookup st c).isSome := by
        intro c hc
        cases hco : alookup st c with
        | none => exact absurd ⟨c, hc, hco⟩ hg0
        | some v => rfl
      obtain ⟨g, hg, hgc⟩ := hex
      have hgr : g ∈ rest := by
        rcases List.mem_cons.1 hg with rfl | hgr
        · exact absurd hgc hg0
        · exact hgr
      obtain ⟨c, hcg, hcnone, hfold⟩ := ih _ ⟨g, hgr, hgc⟩
      refine ⟨c, ?_, hcnone, ?_⟩
      · obtain ⟨g', hg', hcg'⟩ := hcg
        exact ⟨g', List.mem_cons_of_mem _ hg', hcg'⟩
      · rw [List.foldlM_cons]
        rw [groupValue_ok st m g0 hpres]
        simp only [except_bind_ok]
        rw [addPrevious_nil]
        simp only [except_bind_ok]
        exact hfold

theorem buildMonth_err (st : AState ℚ) (root : Path) (al : String)
    (specs : List (List Path)) (sumV : Bool) (m : TDate)
    (hroot : (alookup st root).isSome)
    (hmiss : ∃ g ∈ specs, ∃ c ∈ g, alookup st c = none) :
    ∃ c, (∃ g ∈ specs, c ∈ g) ∧ alookup st c = none ∧
      buildMonth st root al specs sumV [] m =
        .error (.missingAccountColumn c) := by
  obtain ⟨n, hn⟩ := Option.isSome_iff_exists.1 hroot
  obtain ⟨c, hcg, hcnone, hfold⟩ := bfoldM_err st sumV m specs
    ((aset ([] : Row) (total_label al specs) ((alookup n.monthly_sums m).getD 0),
      (alookup n.monthly_sums m).getD 0)) hmiss
  have hsp : specs ≠ [] := by
    rintro rfl
    obtain ⟨g, hg, _⟩ := hmiss
    simp at hg
  refine ⟨c, hcg, hcnone, ?_⟩
  unfold buildMonth
  rw [hn]
  simp only [except_bind_ok]
  rw [addPrevious_nil]
  simp only [except_bind_ok]
  rw [if_neg hsp]
  rw [hfold]
  rfl

theorem reportLoop_err_head (st : AState ℚ) (root : Path) (al : String)
    (specs : List (List Path)) (sumV : Bool) (m0 : TDate) (rest : List TDate)
    (e : RErr) (h : buildMonth st root al specs sumV [] m0 = .error e) :
    reportLoop st root al specs sumV (m0 :: rest) [] = .error e := by
  simp only [reportLoop, h, except_bind_err]

theorem specRows_running (st : AState ℚ) (root : Path) (al : String)
    (specs : List (List Path)) (f : TDate → ℚ) (lbl : String)
    (hstep : ∀ (carry : Option Row) (m : TDate),
      alookup (builtRow st root al specs true carry m) lbl =
        some (f m + carryVal carry lbl)) :
    ∀ (ms : List TDate), ms.Nodup → ∀ (carry : Option Row) (base : ℚ),
      carryVal carry lbl = base →
      ∀ (i : Nat) (hi : i < ms.length),
        ∃ row, alookup (specRows st root al specs true ms carry)
            (ms.get ⟨i, hi⟩) = some row ∧
          alookup row lbl = some (base + ((ms.take (i + 1)).map f).sum) := by
  intro ms
  induction ms with
  | nil =>
    intro _ carry base _ i hi
    simp at hi
  | cons m0 rest ih =>
    intro hnd carry base hbase i hi
    cases i with
    | zero =>
      refine ⟨builtRow st root al specs true carry m0, ?_, ?_⟩
      · simp [specRows]
      · rw [hstep carry m0, hbase]
        congr 1
        simp [add_comm]
    | succ j =>
      have hj : j < rest.length := by simpa using hi
      have hm0 : m0 ∉ rest := (List.nodup_cons.1 hnd).1
      have hneq : m0 ≠ rest.get ⟨j, hj⟩ := by
        intro he
        refine hm0 ?_
        rw [he]
        exact List.get_mem rest j hj
      obtain ⟨row, hrowlk, hval⟩ := ih (List.nodup_cons.1 hnd).2
        (some (builtRow st root al specs true carry m0)) (f m0 + base)
        (by
          simp only [carryVal]
          rw [hstep carry m0, Option.getD_some, hbase]) j hj
      refine ⟨row, ?_, ?_⟩
      · simp only [specRows]
        show alookup ((m0, builtRow st root al specs true carry m0) ::
          specRows st root al specs true rest
            (some (builtRow st root al specs true carry m0)))
          ((m0 :: rest).get ⟨j + 1, hi⟩) = some row
        rw [alookup_cons]
        rw [if_neg (by
          intro he
          exact hneq he)]
        exact hrowlk
      · rw [hval]
        congr 1
        show f m0 + base + ((rest.take (j + 1)).map f).sum =
          base + (((m0 :: rest).take (j + 1 + 1)).map f).sum
        rw [List.take_succ_cons, List.map_cons, List.sum_cons]
        ring

theorem alookup_map_keys {β : Type} (ks : List String) (f : String → β)
    (c : String) :
    alookup (ks.map (fun k => (k, f k))) c =
      if c ∈ ks then some (f c) else none := by
  induction ks with
  | nil => simp
  | cons k rest ih =>
    simp only [List.map_cons, alookup_cons]
    by_cases hk : k = c
    · subst hk
      simp
    · rw [if_neg hk, ih]
      by_cases hmem : c ∈ rest
      · rw [if_pos hmem, if_pos (List.mem_cons_of_mem _ hmem)]
      · rw [if_neg hmem, if_neg (by
          simp only [List.mem_cons, not_or]
          exact ⟨fun he => hk he.symm, hmem⟩)]

theorem add_commodity_dicts_getD (d1 d2 : CDict) (c : String) :
    (alookup (add_commodity_dicts d1 d2) c).getD 0 =
      (alookup d1 c).getD 0 + (alookup d2 c).getD 0 := by
  unfold add_commodity_dicts
  rw [alookup_map_keys]
  by_cases hc : c ∈ (akeys d1 ++ akeys d2).dedup
  · rw [if_pos hc]
    rfl
  · rw [if_neg hc]
    simp only [List.mem_dedup, List.mem_append, not_or] at hc
    have h1 : alookup d1 c = none := by
      cases h : alookup d1 c with
      | none => rfl
      | some v =>
        exact absurd ((mem_akeys_iff_isSome _ _).2 (by rw [h]; rfl)) hc.1
    have h2 : alookup d2 c = none := by
      cases h : alookup d2 c with
      | none => rfl
      | some v =>
        exact absurd ((mem_akeys_iff_isSome _ _).2 (by rw [h]; rfl)) hc.2
    rw [h1, h2]
    simp

theorem msum'_eq_of_lookup (cst : AState CDict) (q : Path) (m : TDate)
    (n : ANode CDict) (h : alookup cst q = some n) :
    msum' cst q m = (alookup n.monthly_sums m).getD [] := by
  unfold msum'
  rw [h]

theorem cbuildMonth_eq (cst : AState CDict) (croot : Path) (cal : String)
    (sumV : Bool) (md : CMData) (m : TDate)
    (hroot : (alookup cst croot).isSome)
    (hprev : ∀ pr, alookup md m.get_previous = some pr →
      (alookup pr cal).isSome) :
    cbuildMonth cst croot cal sumV md m =
      .ok (cbuiltRow cst croot cal sumV (alookup md m.get_previous) m) := by
  obtain ⟨n, hn⟩ := Option.isSome_iff_exists.1 hroot
  have hms' : msum' cst croot m = (alookup n.monthly_sums m).getD [] :=
    msum'_eq_of_lookup cst croot m n hn
  unfold cbuildMonth cbuiltRow
  rw [hn]
  simp only [except_bind_ok]
  rw [hms']
  cases hpr : alookup md m.get_previous with
  | none =>
    simp [hpr]
  | some pr =>
    obtain ⟨pv, hpv⟩ := Option.isSome_iff_exists.1 (hprev pr hpr)
    cases sumV with
    | false => simp [hpr]
    | true => simp [hpr, hpv]

theorem cbuiltRow_isSome (cst : AState CDict) (croot : Path) (cal : String)
    (sumV : Bool) (carry : Option CRow) (m : TDate) :
    (alookup (cbuiltRow cst croot cal sumV carry m) cal).isSome := by
  unfold cbuiltRow
  cases carry with
  | none => simp
  | some pr =>
    cases sumV with
    | false => simp
    | true =>
      cases hpv : alookup pr cal with
      | none => simp [hpv]
      | some pv => simp [hpv]

theorem creportLoop_closed (cst : AState CDict) (croot : Path) (cal : String)
    (sumV : Bool) :
    ∀ (ms : List TDate) (md : CMData) (carry : Option CRow),
      (alookup cst croot).isSome →
      ms.Chain' (fun a b => b = a.get_next) →
      (∀ m ∈ ms, m.valid = true) →
      (∀ m ∈ ms, m ∉ akeys md) →
      (∀ m0 rest, ms = m0 :: rest → alookup md m0.get_previous = carry) →
      (∀ pr, carry = some pr → (alookup pr cal).isSome) →
      creportLoop cst croot cal sumV ms md =
        .ok (md ++ cspecRows cst croot cal sumV ms carry) := by
  intro ms
  induction ms with
  | nil =>
    intro md carry _ _ _ _ _ _
    simp [creportLoop, cspecRows]
  | cons m rest ih =>
    intro md carry hroot hchain hvalid hfresh hhead hcal
    have hcarry : alookup md m.get_previous = carry := hhead m rest rfl
    have hfm : m ∉ akeys md := hfresh m (List.mem_cons_self _ _)
    simp only [creportLoop, cspecRows]
    rw [cbuildMonth_eq cst croot cal sumV md m hroot
      (fun pr hpr => hcal pr (hcarry ▸ hpr))]
    simp only [except_bind_ok]
    rw [hcarry]
    rw [aset_append_of_not_mem md m _ hfm]
    rw [ih (md ++ [(m, cbuiltRow cst croot cal sumV carry m)])
      (some (cbuiltRow cst croot cal sumV carry m)) hroot hchain.tail
      (fun m' hm' => hvalid m' (List.mem_cons_of_mem _ hm')) ?_ ?_ ?_]
    · rw [List.append_assoc]
      rfl
    · intro m' hm'
      simp only [akeys, List.map_append, List.mem_append, List.map_cons,
        List.map_nil, List.mem_singleton, not_or]
      refine ⟨hfresh m' (List.mem_cons_of_mem _ hm'), fun he => ?_⟩
      have := chain_next_lt rest m hchain m' hm'
      rw [he] at this
      omega
    · intro m1 rest' hrest
      have hm1 : m1 = m.get_next := by
        subst hrest
        exact (List.chain'_cons.1 hchain).1
      have hmv : m.valid = true := hvalid m (List.mem_cons_self _ _)
      rw [hm1, TDate.get_previous_get_next m hmv]
      rw [alookup_append]
      have hnone : alookup md m = none := by
        cases ho : alookup md m with
        | none => rfl
        | some v =>
          exact absurd ((mem_akeys_iff_isSome md m).2 (by rw [ho]; rfl)) hfm
      rw [hnone]
      simp
    · intro pr hpr
      obtain rfl := Option.some.inj hpr
      exact cbuiltRow_isSome cst croot cal sumV carry m

theorem except_bind_eq_ok {ε α β : Type} {x : Except ε α}
    {f : α → Except ε β} {b : β} (h : (x >>= f) = .ok b) :
    ∃ a, x = .ok a ∧ f a = .ok b := by
  cases x with
  | error e => exact Except.noConfusion h
  | ok a => exact ⟨a, rfl, h⟩

theorem cget_rows (prices : String → List Price) (base : String)
    (cst : AState CDict) (cal : String) (start today : TDate) (sumV : Bool)
    (croot : Path) (hcroot : get_tree_root cst = .ok croot) :
    ∀ cmd conv,
      cget_report_data prices base cst cal start today sumV = .ok (cmd, conv) →
      cmd = cspecRows cst croot cal sumV (monthRange start today) none := by
  intro cmd conv hout
  have hst : (alookup cst croot).isSome :=
    (mem_akeys_iff_isSome cst croot).1 (get_tree_root_ok_mem cst croot hcroot)
  unfold cget_report_data at hout
  rw [hcroot] at hout
  simp only [except_bind_ok] at hout
  rw [creportLoop_closed cst croot cal sumV (monthRange start today) [] none
    hst (monthRange_chain start today).1
    (fun m hm => (monthRange_chain start today).2 m hm)
    (by intro m _; simp [akeys]) (by intro m0 r _; rfl)
    (by intro pr hpr; cases hpr)] at hout
  rw [List.nil_append] at hout
  simp only [except_bind_ok] at hout
  obtain ⟨convd, _hconvd, hfin⟩ := except_bind_eq_ok hout
  injection Except.ok.inj hfin with h1 _h2
  exact h1.symm

theorem cspecRows_running (cst : AState CDict) (croot : Path) (cal : String)
    (c : String) :
    ∀ (ms : List TDate), ms.Nodup → ∀ (carry : Option CRow) (base : ℚ),
      (carry = none ∧ base = 0 ∨
        ∃ pr d, carry = some pr ∧ alookup pr cal = some d ∧
          (alookup d c).getD 0 = base) →
      ∀ (i : Nat) (hi : i < ms.length),
        ∃ row d, alookup (cspecRows cst croot cal true ms carry)
            (ms.get ⟨i, hi⟩) = some row ∧
          alookup row cal = some d ∧
          (alookup d c).getD 0 =
            base + ((ms.take (i + 1)).map
              (fun m => (alookup (msum' cst croot m) c).getD 0)).sum := by
  intro ms
  induction ms with
  | nil =>
    intro _ carry base _ i hi
    simp at hi
  | cons m0 rest ih =>
    intro hnd carry base hbase i hi
    have hstep0 : ∃ d0, alookup (cbuiltRow cst croot cal true carry m0) cal =
        some d0 ∧
        (alookup d0 c).getD 0 =
          (alookup (msum' cst croot m0) c).getD 0 + base := by
      rcases hbase with ⟨rfl, rfl⟩ | ⟨pr, d, rfl, hprd, hdc⟩
      · refine ⟨msum' cst croot m0, ?_, ?_⟩
        · simp [cbuiltRow]
        · simp
      · refine ⟨add_commodity_dicts (msum' cst croot m0) d, ?_, ?_⟩
        · simp [cbuiltRow, hprd]
        · rw [add_commodity_dicts_getD, hdc]
    obtain ⟨d0, hd0, hd0c⟩ := hstep0
    cases i with
    | zero =>
      refine ⟨cbuiltRow cst croot cal true carry m0, d0, ?_, hd0, ?_⟩
      · simp [cspecRows]
      · rw [hd0c]
        show (alookup (msum' cst croot m0) c).getD 0 + base =
          base + (((m0 :: rest).take 1).map
            (fun m => (alookup (msum' cst croot m) c).getD 0)).sum
        simp [add_comm]
    | succ j =>
      have hj : j < rest.length := by simpa using hi
      have hm0 : m0 ∉ rest := (List.nodup_cons.1 hnd).1
      have hneq : m0 ≠ rest.get ⟨j, hj⟩ := by
        intro he
        refine hm0 ?_
        rw [he]
        exact List.get_mem rest j hj
      obtain ⟨row, d, hrowlk, hrowd, hval⟩ := ih (List.nodup_cons.1 hnd).2
        (some (cbuiltRow cst croot cal true carry m0))
        ((alookup (msum' cst croot m0) c).getD 0 + base)
        (Or.inr ⟨cbuiltRow cst croot cal true carry m0, d0, rfl, hd0, hd0c⟩)
        j hj
      refine ⟨row, d, ?_, hrowd, ?_⟩
      · simp only [cspecRows]
        show alookup ((m0, cbuiltRow cst croot cal true carry m0) ::
          cspecRows cst croot cal true rest
            (some (cbuiltRow cst croot cal true carry m0)))
          ((m0 :: rest).get ⟨j + 1, hi⟩) = some row
        rw [alookup_cons]
        rw [if_neg (by
          intro he
          exact hneq he)]
        exact hrowlk
      · rw [hval]
        show (alookup (msum' cst croot m0) c).getD 0 + base +
            ((rest.take (j + 1)).map
              (fun m => (alookup (msum' cst croot m) c).getD 0)).sum =
          base + (((m0 :: rest).take (j + 1 + 1)).map
            (fun m => (alookup (msum' cst croot m) c).getD 0)).sum
        rw [List.take_succ_cons, List.map_cons, List.sum_cons]
        ring

/-! ## Date-order and price-selection lemmas -/

theorem PDate.ble_iff (a b : PDate) : PDate.ble a b = true ↔
    (a.year < b.year ∨ (a.year = b.year ∧
      (a.month < b.month ∨ (a.month = b.month ∧ a.day ≤ b.day)))) := by
  obtain ⟨y1, m1, d1⟩ := a
  obtain ⟨y2, m2, d2⟩ := b
  unfold PDate.ble
  simp only
  by_cases h1 : y1 ≠ y2
  · rw [if_pos h1]
    simp only [decide_eq_true_eq]
    omega
  · rw [if_neg h1]
    push_neg at h1
    by_cases h2 : m1 ≠ m2
    · rw [if_pos h2]
      simp only [decide_eq_true_eq]
      omega
    · rw [if_neg h2]
      push_neg at h2
      simp only [decide_eq_true_eq]
      omega

theorem PDate.ble_total (a b : PDate) :
    PDate.ble a b = true ∨ PDate.ble b a = true := by
  rw [PDate.ble_iff, PDate.ble_iff]
  omega

theorem PDate.ble_trans (a b c : PDate) (h1 : PDate.ble a b = true)
    (h2 : PDate.ble b c = true) : PDate.ble a c = true := by
  rw [PDate.ble_iff] at *
  omega

theorem firstLatest_go : ∀ (l : List Price) (b : Price),
    ∃ r, l.foldl (fun acc p => match acc with
      | none => some p
      | some b' => if PDate.ble p.date b'.date then some b' else some p) (some b) =
        some r ∧
      (r = b ∨ r ∈ l) ∧ PDate.ble b.date r.date = true ∧
      ∀ p' ∈ l, PDate.ble p'.date r.date = true := by
  intro l
  induction l with
  | nil =>
    intro b
    refine ⟨b, rfl, Or.inl rfl, ?_, ?_⟩
    · rw [PDate.ble_iff]; omega
    · intro p' hp'; simp at hp'
  | cons p rest ih =>
    intro b
    simp only [List.foldl_cons]
    by_cases hle : PDate.ble p.date b.date = true
    · rw [if_pos hle]
      obtain ⟨r, hfold, hmem, hble, hall⟩ := ih b
      refine ⟨r, hfold, ?_, hble, ?_⟩
      · rcases hmem with h | h
        · exact Or.inl h
        · exact Or.inr (List.mem_cons_of_mem _ h)
      · intro p' hp'
        rcases List.mem_cons.1 hp' with rfl | h
        · exact PDate.ble_trans _ _ _ hle hble
        · exact hall p' h
    · rw [if_neg hle]
      obtain ⟨r, hfold, hmem, hble, hall⟩ := ih p
      have hbp : PDate.ble b.date p.date = true := by
        rcases PDate.ble_total p.date b.date with h | h
        · exact absurd h hle
        · exact h
      refine ⟨r, hfold, ?_, PDate.ble_trans _ _ _ hbp hble, ?_⟩
      · rcases hmem with h | h
        · exact Or.inr (List.mem_cons.2 (Or.inl h))
        · exact Or.inr (List.mem_cons_of_mem _ h)
      · intro p' hp'
        rcases List.mem_cons.1 hp' with rfl | h
        · exact hble
        · exact hall p' h

theorem firstLatest_spec (l : List Price) (hne : l ≠ []) :
    ∃ r, firstLatest l = some r ∧ r ∈ l ∧
      ∀ p' ∈ l, PDate.ble p'.date r.date = true := by
  cases l with
  | nil => exact absurd rfl hne
  | cons p rest =>
    unfold firstLatest
    simp only [List.foldl_cons]
    obtain ⟨r, hfold, hmem, hbler, hall⟩ := firstLatest_go rest p
    refine ⟨r, hfold, ?_, ?_⟩
    · rcases hmem with h | h
      · exact h ▸ List.mem_cons_self _ _
      · exact List.mem_cons_of_mem _ h
    · intro p' hp'
      rcases List.mem_cons.1 hp' with rfl | h
      · exact hbler
      · exact hall p' h

theorem firstLatest_nil : firstLatest [] = none := rfl

theorem firstEarliest_go : ∀ (l : List Price) (b : Price),
    ∃ r, l.foldl (fun acc p => match acc with
      | none => some p
      | some b' => if PDate.ble b'.date p.date then some b' else some p) (some b) =
        some r ∧
      (r = b ∨ r ∈ l) ∧ PDate.ble r.date b.date = true ∧
      ∀ p' ∈ l, PDate.ble r.date p'.date = true := by
  intro l
  induction l with
  | nil =>
    intro b
    refine ⟨b, rfl, Or.inl rfl, ?_, ?_⟩
    · rw [PDate.ble_iff]; omega
    · intro p' hp'; simp at hp'
  | cons p rest ih =>
    intro b
    simp only [List.foldl_cons]
    by_cases hle : PDate.ble b.date p.date = true
    · rw [if_pos hle]
      obtain ⟨r, hfold, hmem, hble, hall⟩ := ih b
      refine ⟨r, hfold, ?_, hble, ?_⟩
      · rcases hmem with h | h
        · exact Or.inl h
        · exact Or.inr (List.mem_cons_of_mem _ h)
      · intro p' hp'
        rcases List.mem_cons.1 hp' with rfl | h
        · exact PDate.ble_trans _ _ _ hble hle
        · exact hall p' h
    · rw [if_neg hle]
      obtain ⟨r, hfold, hmem, hble, hall⟩ := ih p
      have hbp : PDate.ble p.date b.date = true := by
        rcases PDate.ble_total b.date p.date with h | h
        · exact absurd h hle
        · exact h
      refine ⟨r, hfold, ?_, PDate.ble_trans _ _ _ hble hbp, ?_⟩
      · rcases hmem with h | h
        · exact Or.inr (List.mem_cons.2 (Or.inl h))
        · exact Or.inr (List.mem_cons_of_mem _ h)
      · intro p' hp'
        rcases List.mem_cons.1 hp' with rfl | h
        · exact hble
        · exact hall p' h

theorem firstEarliest_spec (l : List Price) (hne : l ≠ []) :
    ∃ r, firstEarliest l = some r ∧ r ∈ l ∧
      ∀ p' ∈ l, PDate.ble r.date p'.date = true := by
  cases l with
  | nil => exact absurd rfl hne
  | cons p rest =>
    unfold firstEarliest
    simp only [List.foldl_cons]
    obtain ⟨r, hfold, hmem, hble, hall⟩ := firstEarliest_go rest p
    refine ⟨r, hfold, ?_, ?_⟩
    · rcases hmem with h | h
      · exact h ▸ List.mem_cons_self _ _
      · exact List.mem_cons_of_mem _ h
    · intro p' hp'
      rcases List.mem_cons.1 hp' with rfl | h
      · exact hble
      · exact hall p' h

/-! ## The claims -/

/-- **C1**: Upward-propagation invariant.  After ingesting any sequence
of managed splits, every node's per-month sum equals the sum of the
values of all that month's splits accumulated into it or any of its
descendants (the splits whose managed ancestor chain passes through the
node); in particular, a node `r` lying on every split's chain — the
tree root of the managed scope — carries the sum of all managed splits
of the month.  The same holds per commodity `c` for the commodity
variant, where addition of commodity dicts is key-wise. -/
theorem C1_upward_propagation (managed : Path → Bool) (r : Path) (c : String)
    (splits : List (Path × TDate × ℚ))
    (csplits : List (Path × TDate × String × ℚ))
    (hms : ∀ s ∈ splits, managed s.1 = true ∧ s.1 ≠ [])
    (hmc : ∀ s ∈ csplits, managed s.1 = true ∧ s.1 ≠ []) :
    (∃ st, ingestValues managed splits = .ok st ∧
      (∀ q m, msum id 0 st q m =
        ((splits.filter (fun s => decide (s.2.1 = m) &&
          decide (q ∈ chainOf managed s.1))).map (fun s => s.2.2)).sum) ∧
      ((∀ s ∈ splits, r ∈ chainOf managed s.1) → ∀ m,
        msum id 0 st r m =
          ((splits.filter (fun s => decide (s.2.1 = m))).map (fun s => s.2.2)).sum)) ∧
    (∃ st, ingestQuantities managed csplits = .ok st ∧
      (∀ q m, msum (fun d => (alookup d c).getD 0) [] st q m =
        ((csplits.filter (fun s => decide (s.2.1 = m) &&
          decide (q ∈ chainOf managed s.1))).map
          (fun s => if s.2.2.1 = c then s.2.2.2 else 0)).sum) ∧
      ((∀ s ∈ csplits, r ∈ chainOf managed s.1) → ∀ m,
        msum (fun d => (alookup d c).getD 0) [] st r m =
          ((csplits.filter (fun s => decide (s.2.1 = m))).map
            (fun s => if s.2.2.1 = c then s.2.2.2 else 0)).sum)) := by
  constructor
  · obtain ⟨st, hok, _, hsum⟩ := ingest_go managed (0 : ℚ)
      (fun (s : Path × TDate × ℚ) => bumpValue s.2.2) (fun s => s.1) (fun s => s.2.1)
      id (fun s => s.2.2) rfl (fun s v => rfl) splits [] (TreeInv_nil managed) hms
    refine ⟨st, hok, ?_, ?_⟩
    · intro q m
      have := hsum q m
      simpa [msum] using this
    · intro hr m
      have := hsum r m
      have hfc : (splits.filter (fun s => decide (s.2.1 = m) &&
            decide (r ∈ chainOf managed s.1))) =
          splits.filter (fun s => decide (s.2.1 = m)) :=
        List.filter_congr (fun s hs => by simp [hr s hs])
      rw [hfc] at this
      simpa [msum] using this
  · obtain ⟨st, hok, _, hsum⟩ := ingest_go managed ([] : CDict)
      (fun (s : Path × TDate × String × ℚ) => bumpQuantity s.2.2.1 s.2.2.2)
      (fun s => s.1) (fun s => s.2.1)
      (fun d => (alookup d c).getD 0) (fun s => if s.2.2.1 = c then s.2.2.2 else 0)
      (by simp)
      (fun s v => by
        show (alookup (aset v s.2.2.1 ((alookup v s.2.2.1).getD 0 + s.2.2.2)) c).getD 0
            = (alookup v c).getD 0 + if s.2.2.1 = c then s.2.2.2 else 0
        rw [alookup_aset]
        by_cases hc : s.2.2.1 = c
        · rw [if_pos hc, if_pos hc, hc]
          simp
        · rw [if_neg hc, if_neg hc]
          simp)
      csplits [] (TreeInv_nil managed) hmc
    refine ⟨st, hok, ?_, ?_⟩
    · intro q m
      have := hsum q m
      simpa [msum] using this
    · intro hr m
      have := hsum r m
      have hfc : (csplits.filter (fun s => decide (s.2.1 = m) &&
            decide (r ∈ chainOf managed s.1))) =
          csplits.filter (fun s => decide (s.2.1 = m)) :=
        List.filter_congr (fun s hs => by simp [hr s hs])
      rw [hfc] at this
      simpa [msum] using this

/-- Witness for C1 at a concrete configuration: scope = non-root paths
of at most two segments, one expense split and one commodity split. -/
theorem C1_upward_propagation_witness :
    ((∀ s ∈ [((["E", "F"] : Path), (⟨2024, 3⟩ : TDate), (50 : ℚ))],
        (fun p : Path => decide (p ≠ [] ∧ p.length ≤ 2)) s.1 = true ∧ s.1 ≠ []) ∧
      (∀ s ∈ [((["E", "F"] : Path), (⟨2024, 3⟩ : TDate), "G", (2 : ℚ))],
        (fun p : Path => decide (p ≠ [] ∧ p.length ≤ 2)) s.1 = true ∧ s.1 ≠ [])) ∧
    ((∃ st, ingestValues (fun p : Path => decide (p ≠ [] ∧ p.length ≤ 2))
        [((["E", "F"] : Path), (⟨2024, 3⟩ : TDate), (50 : ℚ))] = .ok st ∧
      (∀ q m, msum id 0 st q m =
        (([((["E", "F"] : Path), (⟨2024, 3⟩ : TDate), (50 : ℚ))].filter
          (fun s => decide (s.2.1 = m) &&
          decide (q ∈ chainOf (fun p : Path => decide (p ≠ [] ∧ p.length ≤ 2)) s.1))).map
            (fun s => s.2.2)).sum) ∧
      ((∀ s ∈ [((["E", "F"] : Path), (⟨2024, 3⟩ : TDate), (50 : ℚ))],
          (["E"] : Path) ∈ chainOf (fun p : Path => decide (p ≠ [] ∧ p.length ≤ 2)) s.1) →
        ∀ m, msum id 0 st ["E"] m =
          (([((["E", "F"] : Path), (⟨2024, 3⟩ : TDate), (50 : ℚ))].filter
            (fun s => decide (s.2.1 = m))).map (fun s => s.2.2)).sum)) ∧
    (∃ st, ingestQuantities (fun p : Path => decide (p ≠ [] ∧ p.length ≤ 2))
        [((["E", "F"] : Path), (⟨2024, 3⟩ : TDate), "G", (2 : ℚ))] = .ok st ∧
      (∀ q m, msum (fun d => (alookup d "G").getD 0) [] st q m =
        (([((["E", "F"] : Path), (⟨2024, 3⟩ : TDate), "G", (2 : ℚ))].filter
          (fun s => decide (s.2.1 = m) &&
          decide (q ∈ chainOf (fun p : Path => decide (p ≠ [] ∧ p.length ≤ 2)) s.1))).map
            (fun s => if s.2.2.1 = "G" then s.2.2.2 else 0)).sum) ∧
      ((∀ s ∈ [((["E", "F"] : Path), (⟨2024, 3⟩ : TDate), "G", (2 : ℚ))],
          (["E"] : Path) ∈ chainOf (fun p : Path => decide (p ≠ [] ∧ p.length ≤ 2)) s.1) →
        ∀ m, msum (fun d => (alookup d "G").getD 0) [] st ["E"] m =
          (([((["E", "F"] : Path), (⟨2024, 3⟩ : TDate), "G", (2 : ℚ))].filter
            (fun s => decide (s.2.1 = m))).map
              (fun s => if s.2.2.1 = "G" then s.2.2.2 else 0)).sum))) :=
  ⟨⟨by decide, by decide⟩,
    C1_upward_propagation (fun p : Path => decide (p ≠ [] ∧ p.length ≤ 2))
      ["E"] "G"
      [((["E", "F"] : Path), (⟨2024, 3⟩ : TDate), (50 : ℚ))]
      [((["E", "F"] : Path), (⟨2024, 3⟩ : TDate), "G", (2 : ℚ))]
      (by decide) (by decide)⟩

/-- **C7**: `ensurePath` (the tree-construction part of `update_tree`)
is idempotent on reachable states: a second call with an
already-inserted path returns the dict unchanged, a call with any path
leaves every existing node's entry — in particular its parent link —
exactly as it was, and key lists stay duplicate-free. -/
theorem C7_ensurePath_idempotent {V : Type} [DecidableEq V] (managed : Path → Bool)
    (st st' : AState V) (p : Path) (hInv : TreeInv managed st)
    (h1 : p ≠ []) (h2 : managed p = true)
    (hok : ensurePath managed st p = .ok st') :
    ensurePath managed st' p = .ok st' ∧
    (∀ q ∈ akeys st, alookup st' q = alookup st q) ∧
    ((akeys st).Nodup → (akeys st').Nodup) := by
  obtain ⟨st'', hok'', hdesc, hInv'⟩ := ensurePath_spec managed st p hInv h1 h2
  have hst' : st' = st'' := by
    rw [hok] at hok''
    exact Except.ok.inj hok''
  subst hst'
  refine ⟨?_, ?_, ?_⟩
  · have hpmem : p ∈ chainOf managed p := by
      rw [chainOf_eq_cons managed p h1 h2]
      exact List.mem_cons_self _ _
    have hsome : (alookup st' p).isSome := by
      rw [hdesc p]
      by_cases hn : (alookup st p).isNone
      · rw [if_pos ⟨hpmem, hn⟩]; simp
      · rw [if_neg (fun hh => hn hh.2)]
        cases hl : alookup st p
        · rw [Option.isNone_iff_eq_none.2 hl] at hn; simp at hn
        · simp
    unfold ensurePath
    rw [if_pos hsome]
  · intro q hq
    rw [hdesc q]
    rw [mem_akeys_iff_isSome] at hq
    rw [if_neg (fun hh => by
      rw [Option.isNone_iff_eq_none] at hh
      rw [hh.2] at hq
      simp at hq)]
  · intro hnd
    by_cases hfound : (alookup st p).isSome
    · have : st' = st := by
        unfold ensurePath at hok
        rw [if_pos hfound] at hok
        exact (Except.ok.inj hok).symm
      rw [this]
      exact hnd
    · unfold ensurePath at hok
      rw [if_neg hfound] at hok
      by_cases hnil : (collectStack managed p st).1 = []
      · rw [if_pos hnil] at hok
        exact Except.noConfusion hok
      · rw [if_neg hnil] at hok
        have := Except.ok.inj hok
        rw [← this]
        exact nodup_linkParents _ _ (nodup_collectStack managed p.length p (le_refl _) st hnd)

/-- Witness for C7: a two-node tree over the same concrete scope, with
a fresh path sharing the prefix `["A"]`. -/
theorem C7_ensurePath_idempotent_witness :
    (TreeInv (fun p : Path => decide (p ≠ [] ∧ p.length ≤ 2))
        [((["A", "B"] : Path), (⟨some ["A"], []⟩ : ANode ℚ)), ((["A"] : Path), ⟨none, []⟩)] ∧
      ensurePath (fun p : Path => decide (p ≠ [] ∧ p.length ≤ 2))
        [((["A", "B"] : Path), (⟨some ["A"], []⟩ : ANode ℚ)), ((["A"] : Path), ⟨none, []⟩)]
        ["A", "C"] =
        .ok [((["A", "B"] : Path), (⟨some ["A"], []⟩ : ANode ℚ)),
          ((["A"] : Path), ⟨none, []⟩), ((["A", "C"] : Path), ⟨some ["A"], []⟩)]) ∧
    (ensurePath (fun p : Path => decide (p ≠ [] ∧ p.length ≤ 2))
        [((["A", "B"] : Path), (⟨some ["A"], []⟩ : ANode ℚ)),
          ((["A"] : Path), ⟨none, []⟩), ((["A", "C"] : Path), ⟨some ["A"], []⟩)]
        ["A", "C"] =
        .ok [((["A", "B"] : Path), (⟨some ["A"], []⟩ : ANode ℚ)),
          ((["A"] : Path), ⟨none, []⟩), ((["A", "C"] : Path), ⟨some ["A"], []⟩)] ∧
      (∀ q ∈ akeys [((["A", "B"] : Path), (⟨some ["A"], []⟩ : ANode ℚ)),
          ((["A"] : Path), ⟨none, []⟩)],
        alookup [((["A", "B"] : Path), (⟨some ["A"], []⟩ : ANode ℚ)),
          ((["A"] : Path), ⟨none, []⟩), ((["A", "C"] : Path), ⟨some ["A"], []⟩)] q =
        alookup [((["A", "B"] : Path), (⟨some ["A"], []⟩ : ANode ℚ)),
          ((["A"] : Path), ⟨none, []⟩)] q) ∧
      ((akeys ([((["A", "B"] : Path), (⟨some ["A"], []⟩ : ANode ℚ)),
          ((["A"] : Path), ⟨none, []⟩)] : AState ℚ)).Nodup →
        (akeys ([((["A", "B"] : Path), (⟨some ["A"], []⟩ : ANode ℚ)),
          ((["A"] : Path), ⟨none, []⟩), ((["A", "C"] : Path), ⟨some ["A"], []⟩)] : AState ℚ)).Nodup)) :=
  ⟨⟨by decide, by decide⟩,
    C7_ensurePath_idempotent (fun p : Path => decide (p ≠ [] ∧ p.length ≤ 2))
      [((["A", "B"] : Path), (⟨some ["A"], []⟩ : ANode ℚ)), ((["A"] : Path), ⟨none, []⟩)]
      [((["A", "B"] : Path), (⟨some ["A"], []⟩ : ANode ℚ)),
        ((["A"] : Path), ⟨none, []⟩), ((["A", "C"] : Path), ⟨some ["A"], []⟩)]
      ["A", "C"] (by decide) (by decide) (by decide) (by decide)⟩

/-- **C8**: `get_tree_root` returns the unique tracked path of minimum
hierarchy depth, and fails with the ambiguous-root error when two
distinct tracked paths both attain the minimum.  (The source
initialises its minimum search at the arbitrary level 10000, so we
assume some tracked account has depth ≤ 10000; keys of a Python dict
are duplicate-free.) -/
theorem C8_get_tree_root {V : Type} (st : AState V)
    (hnd : (akeys st).Nodup)
    (hdep : ∃ k ∈ akeys st, hierarchyDepth k ≤ 10000) :
    (∀ r ∈ akeys st,
      (∀ k ∈ akeys st, k ≠ r → hierarchyDepth r < hierarchyDepth k) →
      get_tree_root st = .ok r) ∧
    (∀ k1 ∈ akeys st, ∀ k2 ∈ akeys st, k1 ≠ k2 →
      hierarchyDepth k1 = hierarchyDepth k2 →
      (∀ k ∈ akeys st, hierarchyDepth k1 ≤ hierarchyDepth k) →
      get_tree_root st = .error .ambiguousRoot) := by
  obtain ⟨kd, hkd, hkd10⟩ := hdep
  constructor
  · intro r hr hmin
    have hrle : hierarchyDepth r ≤ 10000 := by
      by_cases hkr : kd = r
      · rw [← hkr]; exact hkd10
      · exact le_trans (le_of_lt (hmin kd hkd hkr)) hkd10
    have hlev_le := foldLevel_le_mem (akeys st) 10000 r hr
    have hlev_ge : hierarchyDepth r ≤ (akeys st).foldl
        (fun h k => if hierarchyDepth k < h then hierarchyDepth k else h) 10000 := by
      rcases foldLevel_mem_or (akeys st) 10000 with h | ⟨k, hk, hke⟩
      · rw [h]; exact hrle
      · rw [hke]
        by_cases hkr : k = r
        · rw [hkr]
        · exact le_of_lt (hmin k hk hkr)
    have hlevel : (akeys st).foldl
        (fun h k => if hierarchyDepth k < h then hierarchyDepth k else h) 10000 =
        hierarchyDepth r := le_antisymm hlev_le hlev_ge
    rw [get_tree_root_eq, hlevel]
    rw [filter_eq_singleton_of_unique (akeys st) _ r hnd hr (by simp)
      (fun k hk hne => by
        simp only [decide_eq_false_iff_not]
        have := hmin k hk hne
        omega)]
  · intro k1 hk1 k2 hk2 hne heq hminall
    have h1le : hierarchyDepth k1 ≤ 10000 := le_trans (hminall kd hkd) hkd10
    have hlev_le := foldLevel_le_mem (akeys st) 10000 k1 hk1
    have hlev_ge : hierarchyDepth k1 ≤ (akeys st).foldl
        (fun h k => if hierarchyDepth k < h then hierarchyDepth k else h) 10000 := by
      rcases foldLevel_mem_or (akeys st) 10000 with h | ⟨k, hk, hke⟩
      · rw [h]; exact h1le
      · rw [hke]; exact hminall k hk
    have hlevel : (akeys st).foldl
        (fun h k => if hierarchyDepth k < h then hierarchyDepth k else h) 10000 =
        hierarchyDepth k1 := le_antisymm hlev_le hlev_ge
    rw [get_tree_root_eq, hlevel]
    have hmem1 : k1 ∈ (akeys st).filter
        (fun k => decide (hierarchyDepth k = hierarchyDepth k1)) :=
      List.mem_filter.2 ⟨hk1, by simp⟩
    have hmem2 : k2 ∈ (akeys st).filter
        (fun k => decide (hierarchyDepth k = hierarchyDepth k1)) :=
      List.mem_filter.2 ⟨hk2, by simp [heq.symm]⟩
    cases hR : (akeys st).filter
        (fun k => decide (hierarchyDepth k = hierarchyDepth k1)) with
    | nil => rfl
    | cons a tail =>
      cases tail with
      | nil =>
        rw [hR] at hmem1 hmem2
        simp only [List.mem_singleton] at hmem1 hmem2
        exact absurd (hmem1.trans hmem2.symm) hne
      | cons b tail2 => rfl

/-- Witness for C8: a two-node tree whose root `["A"]` is uniquely
shallowest; the ambiguity arm is exercised through its hypotheses being
refutable only when two minimal paths exist. -/
theorem C8_get_tree_root_witness :
    ((akeys ([((["A"] : Path), (⟨none, []⟩ : ANode ℚ)),
        ((["A", "B"] : Path), ⟨some ["A"], []⟩)] : AState ℚ)).Nodup ∧
      (∃ k ∈ akeys ([((["A"] : Path), (⟨none, []⟩ : ANode ℚ)),
        ((["A", "B"] : Path), ⟨some ["A"], []⟩)] : AState ℚ), hierarchyDepth k ≤ 10000)) ∧
    ((∀ r ∈ akeys ([((["A"] : Path), (⟨none, []⟩ : ANode ℚ)),
        ((["A", "B"] : Path), ⟨some ["A"], []⟩)] : AState ℚ),
      (∀ k ∈ akeys ([((["A"] : Path), (⟨none, []⟩ : ANode ℚ)),
        ((["A", "B"] : Path), ⟨some ["A"], []⟩)] : AState ℚ),
          k ≠ r → hierarchyDepth r < hierarchyDepth k) →
      get_tree_root ([((["A"] : Path), (⟨none, []⟩ : ANode ℚ)),
        ((["A", "B"] : Path), ⟨some ["A"], []⟩)] : AState ℚ) = .ok r) ∧
    (∀ k1 ∈ akeys ([((["A"] : Path), (⟨none, []⟩ : ANode ℚ)),
        ((["A", "B"] : Path), ⟨some ["A"], []⟩)] : AState ℚ),
      ∀ k2 ∈ akeys ([((["A"] : Path), (⟨none, []⟩ : ANode ℚ)),
        ((["A", "B"] : Path), ⟨some ["A"], []⟩)] : AState ℚ), k1 ≠ k2 →
      hierarchyDepth k1 = hierarchyDepth k2 →
      (∀ k ∈ akeys ([((["A"] : Path), (⟨none, []⟩ : ANode ℚ)),
        ((["A", "B"] : Path), ⟨some ["A"], []⟩)] : AState ℚ),
          hierarchyDepth k1 ≤ hierarchyDepth k) →
      get_tree_root ([((["A"] : Path), (⟨none, []⟩ : ANode ℚ)),
        ((["A", "B"] : Path), ⟨some ["A"], []⟩)] : AState ℚ) = .error .ambiguousRoot)) :=
  ⟨⟨by decide, by decide⟩,
    C8_get_tree_root ([((["A"] : Path), (⟨none, []⟩ : ANode ℚ)),
      ((["A", "B"] : Path), ⟨some ["A"], []⟩)] : AState ℚ) (by decide) (by decide)⟩

/-- **C10** (implicit): on an aggregator whose account tree is empty
(no managed split in the scanned range), `get_tree_root` fails — the
uniqueness assertion is violated by the zero-candidate case — and hence
every call of `get_report_data`, for either manager variant, fails
rather than returning all-zero rows. -/
theorem C10_empty_tree_fails :
    get_tree_root ([] : AState ℚ) = .error .ambiguousRoot ∧
    get_tree_root ([] : AState CDict) = .error .ambiguousRoot ∧
    (∀ (account_label : String) (start today : TDate) (headers : List String)
      (specs : List (List Path)) (sumV : Bool),
      get_report_data ([] : AState ℚ) account_label start today headers specs sumV =
        .error .ambiguousRoot) ∧
    (∀ (prices : String → List Price) (base : String) (account_label : String)
      (start today : TDate) (sumV : Bool),
      cget_report_data prices base ([] : AState CDict) account_label start today sumV =
        .error .ambiguousRoot) := by
  refine ⟨rfl, rfl, ?_, ?_⟩
  · intro account_label start today headers specs sumV
    rfl
  · intro prices base account_label start today sumV
    rfl

/-- **C5**: `to_base_currency` returns the quantity unchanged when the
commodity is the base currency; otherwise it multiplies the quantity by
the value of a latest price quoted in the base currency dated on or
before the last calendar day of the month when one exists, else by the
value of an earliest base-currency price, and fails (the assertion,
the spec's `MissingPriceError`) when the commodity has no base-currency
price at all. -/
theorem C5_to_base_currency (prices : String → List Price) (base : String)
    (q : ℚ) (c : String) (d : TDate) :
    (c = base → to_base_currency prices base q c d = .ok q) ∧
    (c ≠ base →
      (((prices c).filter (fun p => p.currency == base)) = [] →
        to_base_currency prices base q c d = .error .missingPrice) ∧
      (((prices c).filter (fun p => p.currency == base)) ≠ [] →
        ∃ p, to_base_currency prices base q c d = .ok (q * p.value) ∧
          p ∈ prices c ∧ p.currency = base ∧
          ((PDate.ble p.date (lastDayOfMonth d) = true ∧
            ∀ p' ∈ prices c, p'.currency = base →
              PDate.ble p'.date (lastDayOfMonth d) = true →
              PDate.ble p'.date p.date = true) ∨
           ((∀ p' ∈ prices c, p'.currency = base →
              PDate.ble p'.date (lastDayOfMonth d) = false) ∧
            ∀ p' ∈ prices c, p'.currency = base →
              PDate.ble p.date p'.date = true)))) := by
  constructor
  · intro h
    unfold to_base_currency
    rw [if_pos h]
  · intro hne
    constructor
    · intro hnil
      unfold to_base_currency
      rw [if_neg hne, hnil]
      rfl
    · intro hnn
      cases hdated : ((prices c).filter (fun p => p.currency == base)).filter
          (fun p => PDate.ble p.date (lastDayOfMonth d)) with
      | cons p0 rest =>
        obtain ⟨r, hfold, hrmem, hrmax⟩ := firstLatest_spec _ (hdated ▸ List.cons_ne_nil p0 rest)
        obtain ⟨hr1, hr2⟩ := List.mem_filter.1 hrmem
        obtain ⟨hr3, hr4⟩ := List.mem_filter.1 hr1
        refine ⟨r, ?_, hr3, by simpa using hr4, Or.inl ⟨hr2, ?_⟩⟩
        · unfold to_base_currency
          rw [if_neg hne]
          show (match (match firstLatest (((prices c).filter (fun p => p.currency == base)).filter
                (fun p => PDate.ble p.date (lastDayOfMonth d))) with
              | some p => some p
              | none => firstEarliest ((prices c).filter (fun p => p.currency == base))) with
            | none => Except.error RErr.missingPrice
            | some p => Except.ok (q * p.value)) = Except.ok (q * r.value)
          rw [hfold]
        · intro p' hp' hc' hble'
          exact hrmax p' (List.mem_filter.2
            ⟨List.mem_filter.2 ⟨hp', by simpa using hc'⟩, hble'⟩)
      | nil =>
        obtain ⟨r, hfold, hrmem, hrmin⟩ := firstEarliest_spec _ hnn
        obtain ⟨hr3, hr4⟩ := List.mem_filter.1 hrmem
        refine ⟨r, ?_, hr3, by simpa using hr4, Or.inr ⟨?_, ?_⟩⟩
        · unfold to_base_currency
          rw [if_neg hne]
          show (match (match firstLatest (((prices c).filter (fun p => p.currency == base)).filter
                (fun p => PDate.ble p.date (lastDayOfMonth d))) with
              | some p => some p
              | none => firstEarliest ((prices c).filter (fun p => p.currency == base))) with
            | none => Except.error RErr.missingPrice
            | some p => Except.ok (q * p.value)) = Except.ok (q * r.value)
          rw [hdated, firstLatest_nil, hfold]
        · intro p' hp' hc'
          cases hb : PDate.ble p'.date (lastDayOfMonth d)
          · rfl
          · exfalso
            have : p' ∈ ((prices c).filter (fun p => p.currency == base)).filter
                (fun p => PDate.ble p.date (lastDayOfMonth d)) :=
              List.mem_filter.2 ⟨List.mem_filter.2 ⟨hp', by simpa using hc'⟩, hb⟩
            rw [hdated] at this
            simp at this
        · intro p' hp' hc'
          exact hrmin p' (List.mem_filter.2 ⟨hp', by simpa using hc'⟩)

/-- Witness for C5: the spec's scenario — quantity 10, base-currency
prices 5.00 on 2024-03-15 and 6.00 on 2024-02-01, converted for March
2024 via the March 15 price, yielding 50.00.  The hypotheses of the
conjuncts are discharged at this input, and the selected price is
checked concretely. -/
theorem C5_to_base_currency_witness :
    (("STK" : String) ≠ "CAD" ∧
      ((fun cm => if cm = "STK" then
          [(⟨"CAD", ⟨2024, 3, 15⟩, 5⟩ : Price), ⟨"CAD", ⟨2024, 2, 1⟩, 6⟩]
        else []) "STK").filter (fun p => p.currency == "CAD") ≠ []) ∧
    ((("STK" : String) = "CAD" → to_base_currency
        (fun cm => if cm = "STK" then
          [(⟨"CAD", ⟨2024, 3, 15⟩, 5⟩ : Price), ⟨"CAD", ⟨2024, 2, 1⟩, 6⟩]
        else []) "CAD" 10 "STK" ⟨2024, 3⟩ = .ok 10) ∧
      (("STK" : String) ≠ "CAD" →
        ((((fun cm => if cm = "STK" then
            [(⟨"CAD", ⟨2024, 3, 15⟩, 5⟩ : Price), ⟨"CAD", ⟨2024, 2, 1⟩, 6⟩]
          else []) "STK").filter (fun p => p.currency == "CAD")) = [] →
          to_base_currency (fun cm => if cm = "STK" then
            [(⟨"CAD", ⟨2024, 3, 15⟩, 5⟩ : Price), ⟨"CAD", ⟨2024, 2, 1⟩, 6⟩]
          else []) "CAD" 10 "STK" ⟨2024, 3⟩ = .error .missingPrice) ∧
        ((((fun cm => if cm = "STK" then
            [(⟨"CAD", ⟨2024, 3, 15⟩, 5⟩ : Price), ⟨"CAD", ⟨2024, 2, 1⟩, 6⟩]
          else []) "STK").filter (fun p => p.currency == "CAD")) ≠ [] →
          ∃ p, to_base_currency (fun cm => if cm = "STK" then
            [(⟨"CAD", ⟨2024, 3, 15⟩, 5⟩ : Price), ⟨"CAD", ⟨2024, 2, 1⟩, 6⟩]
          else []) "CAD" 10 "STK" ⟨2024, 3⟩ = .ok (10 * p.value) ∧
            p ∈ (fun cm => if cm = "STK" then
              [(⟨"CAD", ⟨2024, 3, 15⟩, 5⟩ : Price), ⟨"CAD", ⟨2024, 2, 1⟩, 6⟩]
            else []) "STK" ∧ p.currency = "CAD" ∧
            ((PDate.ble p.date (lastDayOfMonth ⟨2024, 3⟩) = true ∧
              ∀ p' ∈ (fun cm => if cm = "STK" then
                [(⟨"CAD", ⟨2024, 3, 15⟩, 5⟩ : Price), ⟨"CAD", ⟨2024, 2, 1⟩, 6⟩]
              else []) "STK", p'.currency = "CAD" →
                PDate.ble p'.date (lastDayOfMonth ⟨2024, 3⟩) = true →
                PDate.ble p'.date p.date = true) ∨
             ((∀ p' ∈ (fun cm => if cm = "STK" then
                [(⟨"CAD", ⟨2024, 3, 15⟩, 5⟩ : Price), ⟨"CAD", ⟨2024, 2, 1⟩, 6⟩]
              else []) "STK", p'.currency = "CAD" →
                PDate.ble p'.date (lastDayOfMonth ⟨2024, 3⟩) = false) ∧
              ∀ p' ∈ (fun cm => if cm = "STK" then
                [(⟨"CAD", ⟨2024, 3, 15⟩, 5⟩ : Price), ⟨"CAD", ⟨2024, 2, 1⟩, 6⟩]
              else []) "STK", p'.currency = "CAD" →
                PDate.ble p.date p'.date = true))))) ∧
    to_base_currency (fun cm => if cm = "STK" then
        [(⟨"CAD", ⟨2024, 3, 15⟩, 5⟩ : Price), ⟨"CAD", ⟨2024, 2, 1⟩, 6⟩]
      else []) "CAD" 10 "STK" ⟨2024, 3⟩ = .ok (10 * (5 : ℚ)) :=
  ⟨⟨by decide, by decide⟩,
    C5_to_base_currency (fun cm => if cm = "STK" then
        [(⟨"CAD", ⟨2024, 3, 15⟩, 5⟩ : Price), ⟨"CAD", ⟨2024, 2, 1⟩, 6⟩]
      else []) "CAD" 10 "STK" ⟨2024, 3⟩,
    rfl⟩

/-- Counterexample to **C6** as stated: with quantity `0` but no
base-currency price at all, `to_base_currency` does not contribute `0`
— it fails on the assertion (`latest_price is not None`), so the
"regardless of whether any price is available" part of the claim is
false on the code. -/
theorem C6_quantity_zero_counterexample :
    to_base_currency (fun _ => []) "CAD" 0 "XYZ" ⟨2024, 3⟩ =
      .error .missingPrice ∧
    ¬ (to_base_currency (fun _ => []) "CAD" 0 "XYZ" ⟨2024, 3⟩ = .ok 0) := by
  constructor
  · rfl
  · intro h
    exact Except.noConfusion h

/-- **C6** (amended): if a commodity's accumulated quantity is `0`,
its contribution to the base-currency value is `0` provided the
commodity either is the base currency or has at least one price quoted
in the base currency; when it has none, the valuation fails (the
spec's `MissingPriceError`) regardless of the quantity. -/
theorem C6_quantity_zero (prices : String → List Price) (base : String)
    (c : String) (d : TDate)
    (h : c = base ∨ ∃ p ∈ prices c, p.currency = base) :
    to_base_currency prices base 0 c d = .ok 0 := by
  by_cases hcb : c = base
  · unfold to_base_currency
    rw [if_pos hcb]
  · obtain ⟨p, hp, hcur⟩ : ∃ p ∈ prices c, p.currency = base := by
      rcases h with h | h
      · exact absurd h hcb
      · exact h
    have hnn : ((prices c).filter (fun p => p.currency == base)) ≠ [] := by
      intro hnil
      have : p ∈ (prices c).filter (fun p => p.currency == base) :=
        List.mem_filter.2 ⟨hp, by simpa using hcur⟩
      rw [hnil] at this
      simp at this
    cases hdated : ((prices c).filter (fun p => p.currency == base)).filter
        (fun p => PDate.ble p.date (lastDayOfMonth d)) with
    | cons p0 rest =>
      obtain ⟨r, hfold, _, _⟩ := firstLatest_spec _ (hdated ▸ List.cons_ne_nil p0 rest)
      unfold to_base_currency
      rw [if_neg hcb]
      show (match (match firstLatest (((prices c).filter (fun p => p.currency == base)).filter
            (fun p => PDate.ble p.date (lastDayOfMonth d))) with
          | some p => some p
          | none => firstEarliest ((prices c).filter (fun p => p.currency == base))) with
        | none => Except.error RErr.missingPrice
        | some p => Except.ok ((0 : ℚ) * p.value)) = (Except.ok 0 : Except RErr ℚ)
      rw [hfold]
      show (Except.ok ((0 : ℚ) * r.value) : Except RErr ℚ) = Except.ok 0
      rw [zero_mul]
    | nil =>
      obtain ⟨r, hfold, _, _⟩ := firstEarliest_spec _ hnn
      unfold to_base_currency
      rw [if_neg hcb]
      show (match (match firstLatest (((prices c).filter (fun p => p.currency == base)).filter
            (fun p => PDate.ble p.date (lastDayOfMonth d))) with
          | some p => some p
          | none => firstEarliest ((prices c).filter (fun p => p.currency == base))) with
        | none => Except.error RErr.missingPrice
        | some p => Except.ok ((0 : ℚ) * p.value)) = (Except.ok 0 : Except RErr ℚ)
      rw [hdated, firstLatest_nil, hfold]
      show (Except.ok ((0 : ℚ) * r.value) : Except RErr ℚ) = Except.ok 0
      rw [zero_mul]

/-- Witness for the amended C6: a commodity with one base-currency
price and quantity `0` values to `0`. -/
theorem C6_quantity_zero_witness :
    (("XYZ" : String) = "CAD" ∨
      ∃ p ∈ (fun _ : String => [(⟨"CAD", ⟨2024, 2, 1⟩, 5⟩ : Price)]) "XYZ",
        p.currency = "CAD") ∧
    to_base_currency (fun _ : String => [(⟨"CAD", ⟨2024, 2, 1⟩, 5⟩ : Price)])
      "CAD" 0 "XYZ" ⟨2024, 3⟩ = .ok 0 :=
  ⟨by decide,
    C6_quantity_zero (fun _ : String => [(⟨"CAD", ⟨2024, 2, 1⟩, 5⟩ : Price)])
      "CAD" "XYZ" ⟨2024, 3⟩ (by decide)⟩

/-- C2: for every call to `get_report_data` with a non-empty group-spec
list (whose column labels are pairwise distinct), every month row of
the result satisfies Total = sum of the group columns + Other, read
with missing columns as `0`; the identity holds in per-period mode and
with the running sum alike. -/
theorem C2_total_identity (st : AState ℚ) (al : String) (start today : TDate)
    (headers : List String) (specs : List (List Path)) (sumV : Bool)
    (root : Path)
    (hroot : get_tree_root st = .ok root)
    (hcols : ∀ g ∈ specs, ∀ c ∈ g, (alookup st c).isSome)
    (hsp : specs ≠ [])
    (hN : (total_label al specs :: specs.map group_label ++
      [other_label al]).Nodup) :
    ∀ mdo hs, get_report_data st al start today headers specs sumV =
        .ok (mdo, hs) →
      ∀ m row, alookup mdo m = some row →
        (alookup row (total_label al specs)).getD 0 =
          (specs.map (fun g => (alookup row (group_label g)).getD 0)).sum +
            (alookup row (other_label al)).getD 0 := by
  intro mdo hs hout m row hrow
  obtain ⟨h1, h2, h3, h4⟩ := labels_facts al specs hN
  by_cases hms : monthRange start today = []
  · rw [grd_skip st al start today headers specs sumV root hroot hcols
      (by rw [hms]; simp)] at hout
    injection Except.ok.inj hout with hA _hB
    subst hA
    rw [hms] at hrow
    simp [specRows] at hrow
  · by_cases hz : (specRows st root al specs sumV (monthRange start today)
        none).all (fun e =>
          decide ((alookup e.2 (other_label al)).getD 0 = 0)) = true
    · by_cases hh : other_label al ∈ headers
      · rw [grd_remove st al start today headers specs sumV root hroot hcols
          hsp hms hz hh] at hout
        injection Except.ok.inj hout with hA _hB
        subst hA
        rw [alookup_map_adel] at hrow
        obtain ⟨row0, hrow0, hadel⟩ := Option.map_eq_some'.1 hrow
        subst hadel
        have hmem := alookup_mem _ _ _ hrow0
        obtain ⟨c, hbuilt⟩ := specRows_snd_mem st root al specs sumV _ none
          m row0 hmem
        have hid := specRows_identity st root al specs sumV hsp hN _ none
          (fun pr hpr => nomatch hpr) m row0 hmem
        have hO0 : (alookup row0 (other_label al)).getD 0 = 0 := by
          have := List.all_eq_true.1 hz _ hmem
          simpa using this
        have hNodup : (akeys row0).Nodup := by
          rw [hbuilt, akeys_builtRow st root al specs sumV c m hsp hN]
          exact hN
        have hT : alookup (adel row0 (other_label al)) (total_label al specs) =
            alookup row0 (total_label al specs) :=
          alookup_adel_ne _ _ _ (Ne.symm h2)
        have hOl : alookup (adel row0 (other_label al)) (other_label al) =
            none := by
          rw [alookup_adel row0 _ _ hNodup]
          simp
        have hmape : specs.map (fun g =>
            (alookup (adel row0 (other_label al)) (group_label g)).getD 0) =
            specs.map (fun g => (alookup row0 (group_label g)).getD 0) :=
          list_map_congr _ _ _ (fun g hg => by
            rw [alookup_adel_ne _ _ _ (fun he => h4 (by
              rw [he]; exact List.mem_map_of_mem _ hg))])
        rw [hT, hOl, hmape, hid, hO0]
        simp
      · rw [grd_noheader st al start today headers specs sumV root hroot hcols
          hsp hms hz hh] at hout
        cases hout
    · rw [Bool.not_eq_true] at hz
      rw [grd_keep st al start today headers specs sumV root hroot hcols
        hsp hms hz] at hout
      injection Except.ok.inj hout with hA _hB
      subst hA
      exact specRows_identity st root al specs sumV hsp hN _ none
        (fun pr hpr => nomatch hpr) m row (alookup_mem _ _ _ hrow)

/-- Witness for C2 at a one-account tree with one (empty) group spec. -/
theorem C2_total_identity_witness :
    get_tree_root [((["A"] : Path), (⟨none, []⟩ : ANode ℚ))] = .ok ["A"] ∧
    (∀ mdo hs,
      get_report_data [((["A"] : Path), (⟨none, []⟩ : ANode ℚ))] "Acct"
        ⟨2025, 1⟩ ⟨2024, 1⟩ ["Total Acct", "", "Other Acct"] [[]] false =
        .ok (mdo, hs) →
      ∀ m row, alookup mdo m = some row →
        (alookup row (total_label "Acct" [[]])).getD 0 =
          (([[]] : List (List Path)).map
            (fun g => (alookup row (group_label g)).getD 0)).sum +
            (alookup row (other_label "Acct")).getD 0) :=
  ⟨by decide,
    C2_total_identity [((["A"] : Path), (⟨none, []⟩ : ANode ℚ))] "Acct"
      ⟨2025, 1⟩ ⟨2024, 1⟩ ["Total Acct", "", "Other Acct"] [[]] false ["A"]
      (by decide) (by decide) (by decide) (by decide)⟩

/-- C4: with a non-empty group-spec list (distinct labels), a
non-empty month range and the Other label present in the caller's
header list, `get_report_data` removes the Other column from every row
and the Other label from the header list exactly when the stored Other
value is zero for every month; otherwise rows and headers are returned
unchanged, every row keeping its Other column. -/
theorem C4_other_column_removal (st : AState ℚ) (al : String)
    (start today : TDate) (headers : List String) (specs : List (List Path))
    (sumV : Bool) (root : Path)
    (hroot : get_tree_root st = .ok root)
    (hcols : ∀ g ∈ specs, ∀ c ∈ g, (alookup st c).isSome)
    (hsp : specs ≠ [])
    (hN : (total_label al specs :: specs.map group_label ++
      [other_label al]).Nodup)
    (hms : monthRange start today ≠ [])
    (hh : other_label al ∈ headers) :
    (((specRows st root al specs sumV (monthRange start today) none).all
        (fun e => decide ((alookup e.2 (other_label al)).getD 0 = 0)) = true) →
      get_report_data st al start today headers specs sumV =
        .ok ((specRows st root al specs sumV (monthRange start today)
            none).map (fun e => (e.1, adel e.2 (other_label al))),
          headers.erase (other_label al)) ∧
      ∀ m ∈ monthRange start today, ∃ row,
        alookup ((specRows st root al specs sumV (monthRange start today)
          none).map (fun e => (e.1, adel e.2 (other_label al)))) m =
          some row ∧
        alookup row (other_label al) = none) ∧
    (((specRows st root al specs sumV (monthRange start today) none).all
        (fun e => decide ((alookup e.2 (other_label al)).getD 0 = 0)) =
          false) →
      get_report_data st al start today headers specs sumV =
        .ok (specRows st root al specs sumV (monthRange start today) none,
          headers) ∧
      ∀ m ∈ monthRange start today, ∃ row,
        alookup (specRows st root al specs sumV (monthRange start today)
          none) m = some row ∧
        ∃ v, alookup row (other_label al) = some v) := by
  constructor
  · intro hz
    refine ⟨grd_remove st al start today headers specs sumV root hroot hcols
      hsp hms hz hh, ?_⟩
    intro m hm
    have hks : m ∈ akeys (specRows st root al specs sumV
        (monthRange start today) none) := by
      rw [akeys_specRows]
      exact hm
    obtain ⟨row0, hrow0⟩ := Option.isSome_iff_exists.1
      ((mem_akeys_iff_isSome _ _).1 hks)
    obtain ⟨c, hbuilt⟩ := specRows_snd_mem st root al specs sumV _ none
      m row0 (alookup_mem _ _ _ hrow0)
    have hNodup : (akeys row0).Nodup := by
      rw [hbuilt, akeys_builtRow st root al specs sumV c m hsp hN]
      exact hN
    refine ⟨adel row0 (other_label al), ?_, ?_⟩
    · rw [alookup_map_adel, hrow0]
      rfl
    · rw [alookup_adel row0 _ _ hNodup]
      simp
  · intro hz
    refine ⟨grd_keep st al start today headers specs sumV root hroot hcols
      hsp hms hz, ?_⟩
    intro m hm
    have hks : m ∈ akeys (specRows st root al specs sumV
        (monthRange start today) none) := by
      rw [akeys_specRows]
      exact hm
    obtain ⟨row0, hrow0⟩ := Option.isSome_iff_exists.1
      ((mem_akeys_iff_isSome _ _).1 hks)
    obtain ⟨c, hbuilt⟩ := specRows_snd_mem st root al specs sumV _ none
      m row0 (alookup_mem _ _ _ hrow0)
    refine ⟨row0, hrow0, ?_⟩
    have := builtRow_isSome_other st root al specs sumV c m hsp
    rw [← hbuilt] at this
    exact Option.isSome_iff_exists.1 this

/-- Witness for C4: a one-account tree, one (empty) group spec and a
two-month range with the Other label present in the headers. -/
theorem C4_other_column_removal_witness :
    get_tree_root [((["A"] : Path), (⟨none, []⟩ : ANode ℚ))] = .ok ["A"] ∧
    monthRange ⟨2024, 1⟩ ⟨2024, 2⟩ ≠ [] ∧
    (((specRows [((["A"] : Path), (⟨none, []⟩ : ANode ℚ))] ["A"] "Acct" [[]]
        false (monthRange ⟨2024, 1⟩ ⟨2024, 2⟩) none).all
        (fun e => decide ((alookup e.2 (other_label "Acct")).getD 0 = 0)) =
          true) →
      get_report_data [((["A"] : Path), (⟨none, []⟩ : ANode ℚ))] "Acct"
        ⟨2024, 1⟩ ⟨2024, 2⟩ ["Total Acct", "", "Other Acct"] [[]] false =
        .ok ((specRows [((["A"] : Path), (⟨none, []⟩ : ANode ℚ))] ["A"] "Acct"
            [[]] false (monthRange ⟨2024, 1⟩ ⟨2024, 2⟩) none).map
            (fun e => (e.1, adel e.2 (other_label "Acct"))),
          ["Total Acct", "", "Other Acct"].erase (other_label "Acct")) ∧
      ∀ m ∈ monthRange ⟨2024, 1⟩ ⟨2024, 2⟩, ∃ row,
        alookup ((specRows [((["A"] : Path), (⟨none, []⟩ : ANode ℚ))] ["A"]
          "Acct" [[]] false (monthRange ⟨2024, 1⟩ ⟨2024, 2⟩) none).map
          (fun e => (e.1, adel e.2 (other_label "Acct")))) m = some row ∧
        alookup row (other_label "Acct") = none) :=
  ⟨by decide, by decide,
    (C4_other_column_removal [((["A"] : Path), (⟨none, []⟩ : ANode ℚ))] "Acct"
      ⟨2024, 1⟩ ⟨2024, 2⟩ ["Total Acct", "", "Other Acct"] [[]] false ["A"]
      (by decide) (by decide) (by decide) (by decide) (by decide)
      (by decide)).1⟩

/-- C9: when some group spec references an account path that has no
node in the tree and the month range is non-empty, `get_report_data`
raises `MissingAccountColumnError` (naming such an unobserved path)
instead of reporting zero for the column. -/
theorem C9_missing_column (st : AState ℚ) (al : String) (start today : TDate)
    (headers : List String) (specs : List (List Path)) (sumV : Bool)
    (root : Path)
    (hroot : get_tree_root st = .ok root)
    (hrange : monthRange start today ≠ [])
    (hmiss : ∃ g ∈ specs, ∃ c ∈ g, alookup st c = none) :
    ∃ c, (∃ g ∈ specs, c ∈ g) ∧ alookup st c = none ∧
      get_report_data st al start today headers specs sumV =
        .error (.missingAccountColumn c) := by
  have hst : (alookup st root).isSome :=
    (mem_akeys_iff_isSome st root).1 (get_tree_root_ok_mem st root hroot)
  obtain ⟨m0, rest, hre⟩ := List.exists_cons_of_ne_nil hrange
  obtain ⟨c, hcg, hcnone, hbm⟩ :=
    buildMonth_err st root al specs sumV m0 hst hmiss
  refine ⟨c, hcg, hcnone, ?_⟩
  unfold get_report_data
  rw [hroot]
  simp only [except_bind_ok]
  rw [hre]
  rw [reportLoop_err_head st root al specs sumV m0 rest _ hbm]
  rfl

/-- Witness for C9: a group spec naming an account that is not in the
tree, over a one-month range. -/
theorem C9_missing_column_witness :
    get_tree_root [((["A"] : Path), (⟨none, []⟩ : ANode ℚ))] = .ok ["A"] ∧
    monthRange ⟨2024, 1⟩ ⟨2024, 1⟩ ≠ [] ∧
    (∃ g ∈ ([[["B"]]] : List (List Path)), ∃ c ∈ g,
      alookup [((["A"] : Path), (⟨none, []⟩ : ANode ℚ))] c = none) ∧
    ∃ c, (∃ g ∈ ([[["B"]]] : List (List Path)), c ∈ g) ∧
      alookup [((["A"] : Path), (⟨none, []⟩ : ANode ℚ))] c = none ∧
      get_report_data [((["A"] : Path), (⟨none, []⟩ : ANode ℚ))] "Acct"
        ⟨2024, 1⟩ ⟨2024, 1⟩ ["Total Acct"] [[["B"]]] false =
        .error (.missingAccountColumn c) :=
  ⟨by decide, by decide, by decide,
    C9_missing_column [((["A"] : Path), (⟨none, []⟩ : ANode ℚ))] "Acct"
      ⟨2024, 1⟩ ⟨2024, 1⟩ ["Total Acct"] [[["B"]]] false ["A"]
      (by decide) (by decide) (by decide)⟩

/-- C3: with the running sum enabled, every column's value for the
i-th emitted month is the sum of that column's per-period values over
the months from the series start through month i — for the transaction
report (total, group and Other columns, the latter read with a removed
column as `0`) and for the commodity report (per commodity, in the
quantity rows). -/
theorem C3_running_sum (st : AState ℚ) (al : String) (start today : TDate)
    (headers : List String) (specs : List (List Path)) (root : Path)
    (cst : AState CDict) (croot : Path) (prices : String → List Price)
    (base : String) (cal : String)
    (hroot : get_tree_root st = .ok root)
    (hcols : ∀ g ∈ specs, ∀ c ∈ g, (alookup st c).isSome)
    (hN : (total_label al specs :: specs.map group_label ++
      [other_label al]).Nodup)
    (hcroot : get_tree_root cst = .ok croot) :
    (∀ mdo hs, get_report_data st al start today headers specs true =
        .ok (mdo, hs) →
      ∀ i (hi : i < (monthRange start today).length),
        ∃ row, alookup mdo ((monthRange start today).get ⟨i, hi⟩) =
            some row ∧
          alookup row (total_label al specs) =
            some ((((monthRange start today).take (i + 1)).map
              (fun m => msum id 0 st root m)).sum) ∧
          (∀ g ∈ specs, alookup row (group_label g) =
            some ((((monthRange start today).take (i + 1)).map
              (fun m => groupSum st g m)).sum)) ∧
          (specs ≠ [] → (alookup row (other_label al)).getD 0 =
            (((monthRange start today).take (i + 1)).map
              (fun m => msum id 0 st root m -
                (specs.map (fun g => groupSum st g m)).sum)).sum)) ∧
    (∀ cmd conv,
      cget_report_data prices base cst cal start today true =
        .ok (cmd, conv) →
      ∀ i (hi : i < (monthRange start today).length) (c : String),
        ∃ row d, alookup cmd ((monthRange start today).get ⟨i, hi⟩) =
            some row ∧
          alookup row cal = some d ∧
          (alookup d c).getD 0 =
            (((monthRange start today).take (i + 1)).map
              (fun m => (alookup (msum' cst croot m) c).getD 0)).sum) := by
  have hnd : (monthRange start today).Nodup :=
    chain_nodup _ (monthRange_chain start today).1
  obtain ⟨h1, h2, h3, h4⟩ := labels_facts al specs hN
  have hstepT : ∀ (carry : Option Row) (m : TDate),
      alookup (builtRow st root al specs true carry m)
        (total_label al specs) =
      some (msum id 0 st root m + carryVal carry (total_label al specs)) := by
    intro carry m
    rw [builtRow_total st root al specs true carry m hN]
    simp
  have hstepG : ∀ g ∈ specs, ∀ (carry : Option Row) (m : TDate),
      alookup (builtRow st root al specs true carry m) (group_label g) =
      some (groupSum st g m + carryVal carry (group_label g)) := by
    intro g hg carry m
    rw [builtRow_group st root al specs true carry m g hg hN]
    simp
  constructor
  · intro mdo hs hout i hi
    have hms : monthRange start today ≠ [] := by
      intro h
      rw [h] at hi
      simp at hi
    obtain ⟨rowT, hlkT, hvT⟩ := specRows_running st root al specs
      (fun m => msum id 0 st root m) (total_label al specs) hstepT
      (monthRange start today) hnd none 0 rfl i hi
    rw [zero_add] at hvT
    by_cases hsp : specs = []
    · rw [grd_skip st al start today headers specs true root hroot hcols
        (by intro hcc; exact hcc.1 hsp)] at hout
      injection Except.ok.inj hout with hA _hB
      subst hA
      refine ⟨rowT, hlkT, hvT, ?_, ?_⟩
      · intro g hg
        rw [hsp] at hg
        simp at hg
      · intro hk
        exact absurd hsp hk
    · have hstepO : ∀ (carry : Option Row) (m : TDate),
          alookup (builtRow st root al specs true carry m)
            (other_label al) =
          some ((msum id 0 st root m -
              (specs.map (fun g => groupSum st g m)).sum) +
            carryVal carry (other_label al)) := by
        intro carry m
        rw [builtRow_other st root al specs true carry m hsp]
        simp
      obtain ⟨rowO, hlkO, hvO⟩ := specRows_running st root al specs
        (fun m => msum id 0 st root m -
          (specs.map (fun g => groupSum st g m)).sum) (other_label al)
        hstepO (monthRange start today) hnd none 0 rfl i hi
      rw [zero_add] at hvO
      obtain rfl : rowT = rowO := Option.some.inj (hlkT.symm.trans hlkO)
      have hG : ∀ g ∈ specs, alookup rowT (group_label g) =
          some ((((monthRange start today).take (i + 1)).map
            (fun m => groupSum st g m)).sum) := by
        intro g hg
        obtain ⟨rowG, hlkG, hvG⟩ := specRows_running st root al specs
          (fun m => groupSum st g m) (group_label g) (hstepG g hg)
          (monthRange start today) hnd none 0 rfl i hi
        rw [zero_add] at hvG
        obtain rfl : rowT = rowG := Option.some.inj (hlkT.symm.trans hlkG)
        exact hvG
      by_cases hz : (specRows st root al specs true (monthRange start today)
          none).all (fun e =>
            decide ((alookup e.2 (other_label al)).getD 0 = 0)) = true
      · by_cases hh : other_label al ∈ headers
        · rw [grd_remove st al start today headers specs true root hroot
            hcols hsp hms hz hh] at hout
          injection Except.ok.inj hout with hA _hB
          subst hA
          have hmem := alookup_mem _ _ _ hlkT
          obtain ⟨cw, hbuilt⟩ := specRows_snd_mem st root al specs true _
            none _ rowT hmem
          have hNodup : (akeys rowT).Nodup := by
            rw [hbuilt, akeys_builtRow st root al specs true cw _ hsp hN]
            exact hN
          have hzero : (alookup rowT (other_label al)).getD 0 = 0 := by
            have := List.all_eq_true.1 hz _ hmem
            simpa using this
          refine ⟨adel rowT (other_label al), ?_, ?_, ?_, ?_⟩
          · rw [alookup_map_adel, hlkT]
            rfl
          · rw [alookup_adel_ne _ _ _ (Ne.symm h2)]
            exact hvT
          · intro g hg
            rw [alookup_adel_ne _ _ _ (fun he => h4 (by
              rw [he]
              exact List.mem_map_of_mem _ hg))]
            exact hG g hg
          · intro _
            rw [alookup_adel rowT _ _ hNodup, if_pos rfl]
            rw [hvO, Option.getD_some] at hzero
            simp only [Option.getD_none]
            exact hzero.symm
        · rw [grd_noheader st al start today headers specs true root hroot
            hcols hsp hms hz hh] at hout
          cases hout
      · rw [Bool.not_eq_true] at hz
        rw [grd_keep st al start today headers specs true root hroot hcols
          hsp hms hz] at hout
        injection Except.ok.inj hout with hA _hB
        subst hA
        refine ⟨rowT, hlkT, hvT, hG, fun _ => ?_⟩
        rw [hvO]
        rfl
  · intro cmd conv hout i hi c
    obtain rfl := cget_rows prices base cst cal start today true croot
      hcroot cmd conv hout
    obtain ⟨row, d, hlk, hd, hv⟩ := cspecRows_running cst croot cal c
      (monthRange start today) hnd none 0 (Or.inl ⟨rfl, rfl⟩) i hi
    rw [zero_add] at hv
    exact ⟨row, d, hlk, hd, hv⟩

/-- Witness for C3: one-account value and commodity trees with one
(empty) group spec. -/
theorem C3_running_sum_witness :
    get_tree_root [((["A"] : Path), (⟨none, []⟩ : ANode ℚ))] = .ok ["A"] ∧
    get_tree_root [((["C"] : Path), (⟨none, []⟩ : ANode CDict))] =
      .ok ["C"] ∧
    (∀ mdo hs,
      get_report_data [((["A"] : Path), (⟨none, []⟩ : ANode ℚ))] "Acct"
        ⟨2024, 1⟩ ⟨2024, 2⟩ ["Total Acct", "", "Other Acct"] [[]] true =
        .ok (mdo, hs) →
      ∀ i (hi : i < (monthRange ⟨2024, 1⟩ ⟨2024, 2⟩).length),
        ∃ row, alookup mdo ((monthRange ⟨2024, 1⟩ ⟨2024, 2⟩).get ⟨i, hi⟩) =
            some row ∧
          alookup row (total_label "Acct" [[]]) =
            some ((((monthRange ⟨2024, 1⟩ ⟨2024, 2⟩).take (i + 1)).map
              (fun m => msum id 0 [((["A"] : Path), (⟨none, []⟩ : ANode ℚ))]
                ["A"] m)).sum) ∧
          (∀ g ∈ ([[]] : List (List Path)), alookup row (group_label g) =
            some ((((monthRange ⟨2024, 1⟩ ⟨2024, 2⟩).take (i + 1)).map
              (fun m => groupSum [((["A"] : Path), (⟨none, []⟩ : ANode ℚ))]
                g m)).sum)) ∧
          (([[]] : List (List Path)) ≠ [] →
            (alookup row (other_label "Acct")).getD 0 =
            (((monthRange ⟨2024, 1⟩ ⟨2024, 2⟩).take (i + 1)).map
              (fun m => msum id 0 [((["A"] : Path), (⟨none, []⟩ : ANode ℚ))]
                  ["A"] m -
                (([[]] : List (List Path)).map
                  (fun g => groupSum [((["A"] : Path),
                    (⟨none, []⟩ : ANode ℚ))] g m)).sum)).sum)) :=
  ⟨by decide, by decide,
    (C3_running_sum [((["A"] : Path), (⟨none, []⟩ : ANode ℚ))] "Acct"
      ⟨2024, 1⟩ ⟨2024, 2⟩ ["Total Acct", "", "Other Acct"] [[]] ["A"]
      [((["C"] : Path), (⟨none, []⟩ : ANode CDict))] ["C"]
      (fun _ => []) "CAD" "Holdings"
      (by decide) (by decide) (by decide) (by decide)).1⟩

end GnuCash
